import Mathlib

/-!
# Verification of the OpenAPI filter (`src/migrate.js`)

This development gives a shallow embedding of the filtering core of the
repository — the function `filterOpenAPI` of `src/migrate.js` — and settles a
list of claims made by the repository's specification against it.

Modelling conventions, fixed once and used throughout:

* JSON documents (the values produced by `JSON.parse`) are modelled by the
  inductive type `Json` below.  Such values are finite trees: `JSON.parse`
  never produces cyclic object graphs, `undefined`, or functions, so the tree
  model is exact for the inputs the program reads.  Numbers are modelled as
  integers (the documents appearing in this development only use integral
  numbers).
* JavaScript object-identity (the `WeakSet` named `seenObjects` in the source)
  is modelled by the *position* of a node: every scanned object is either a
  subtree of the (possibly mutated) input document, a subtree of its deep
  copy, or a freshly allocated wrapper object; positions are encoded as paths
  (`JPath`) rooted at distinct markers, which is a faithful identity key for
  trees.
* The in-place mutation performed by the source (`operation.parameters =
  uniqueParams`, line 150) is modelled by explicit state passing: the model of
  `filterOpenAPI` returns the output document *and* the input document as it
  stands after the call.
* Exceptions (`TypeError` from calling `.forEach` on a non-array, from
  accessing a property of `null`, and `new URL` failures, which the source
  catches) are modelled with an explicit result type `JsRes`; the constructor
  `spin` is used for exhaustion of the structural fuel of the reference
  scanner, and we prove that with the fuel the model supplies, `spin` is never
  the result.
-/

/-- JSON values, the data model of the documents `migrate.js` manipulates. -/
inductive Json : Type where
  | jnull : Json
  | jbool : Bool → Json
  | jnum : Int → Json
  | jstr : String → Json
  | jarr : List Json → Json
  | jobj : List (String × Json) → Json

mutual

/-- Structural equality test on `Json` values; models the `SameValueZero`
comparison JavaScript `Set`s use, for the (primitive) values the source ever
stores in a `Set`. -/
def beqJ : Json → Json → Bool
  | .jnull, .jnull => true
  | .jbool a, .jbool b => a == b
  | .jnum a, .jnum b => a == b
  | .jstr a, .jstr b => a == b
  | .jarr a, .jarr b => beqJL a b
  | .jobj a, .jobj b => beqJF a b
  | _, _ => false

def beqJL : List Json → List Json → Bool
  | [], [] => true
  | a :: as, b :: bs => beqJ a b && beqJL as bs
  | _, _ => false

def beqJF : List (String × Json) → List (String × Json) → Bool
  | [], [] => true
  | (k, v) :: as, (l, w) :: bs => k == l && beqJ v w && beqJF as bs
  | _, _ => false

end

namespace Json

/-- JavaScript property access `j[k]` (undefined is `none`).  On a non-object
this is `none`: the call sites in the source only read named properties, and
named property access on primitives and arrays yields `undefined` for the
names used there. -/
def lookup : Json → String → Option Json
  | jobj fs, k => fs.lookup k
  | _, _ => none

/-- JavaScript truthiness of a value. -/
def truthy : Json → Bool
  | jnull => false
  | jbool b => b
  | jnum n => n != 0
  | jstr s => s ≠ ""
  | jarr _ => true
  | jobj _ => true

/-- `if (obj.k)` — the value of field `k` when it exists and is truthy. -/
def truthyField (j : Json) (k : String) : Option Json :=
  match j.lookup k with
  | some v => if v.truthy then some v else none
  | none => none

/-- Whether a value has `typeof === 'object'` and is truthy, i.e. is a
(non-null) object or an array — the values `collectReferences` will enter. -/
def isObjLike : Json → Bool
  | jarr _ => true
  | jobj _ => true
  | _ => false

def isArr : Json → Bool
  | jarr _ => true
  | _ => false

/-- `Object.values(j)`, keyed by the position of each value (object key, or
array/string index rendered in decimal) so that the scanner can address the
value's identity.  For strings, `Object.values` yields the one-character
strings. -/
def jsValuesK : Json → List (String × Json)
  | jobj fs => fs
  | jarr xs => (xs.enum.map fun p => (toString p.1, p.2))
  | jstr s => ((s.toList.enum).map fun p => (toString p.1, jstr (String.mk [p.2])))
  | _ => []

/-- `Object.values(j)` without position information. -/
def jsValues (j : Json) : List Json := (j.jsValuesK).map Prod.snd

/-- `Object.keys(j)`. -/
def jsKeys (j : Json) : List String := (j.jsValuesK).map Prod.fst

/-- `Object.entries(j)` — for the object/array/string cases that arise it
coincides with `jsValuesK`. -/
def jsEntries (j : Json) : List (String × Json) := j.jsValuesK

mutual

/-- JavaScript `String(v)` / template-literal rendering of the values that can
occur in a parsed document. -/
def jsToStr : Json → String
  | jnull => "null"
  | jbool b => if b then "true" else "false"
  | jnum n => toString n
  | jstr s => s
  | jarr xs => jsToStrL xs
  | jobj _ => "[object Object]"

/-- `Array.prototype.toString`: elements joined by `","`, with `null`
rendering as the empty string inside a join. -/
def jsToStrL : List Json → String
  | [] => ""
  | [jnull] => ""
  | [x] => jsToStr x
  | jnull :: xs => "," ++ jsToStrL xs
  | x :: xs => jsToStr x ++ "," ++ jsToStrL xs

end

/-- Property assignment `j[k] = v` on an object: replaces the value in place
if the key is present, appends the field otherwise.  On non-objects the
assignment is the silent no-op of non-strict JavaScript. -/
def updateField : Json → String → Json → Json
  | jobj fs, k, v => jobj (go fs k v)
  | j, _, _ => j
where
  go : List (String × Json) → String → Json → List (String × Json)
    | [], k, v => [(k, v)]
    | (k', v') :: fs, k, v =>
      if k' = k then (k, v) :: fs else (k', v') :: go fs k v

/-- `delete j[k]` on an object. -/
def deleteField : Json → String → Json
  | jobj fs, k => jobj (fs.filter fun f => f.1 ≠ k)
  | j, _ => j

/-- Iterated `lookup` along a path of keys. -/
def lookupPath (j : Json) : List String → Option Json
  | [] => some j
  | k :: ks => match j.lookup k with
    | some v => v.lookupPath ks
    | none => none

end Json

mutual

/-- Structural size of a document (number of nodes), the measure used for the
scanner's fuel. -/
def sizeJ : Json → Nat
  | .jarr xs => 1 + sizeJL xs
  | .jobj fs => 1 + sizeJF fs
  | .jstr s => 1 + s.length
  | _ => 1

/-- Size of a list of documents. -/
def sizeJL : List Json → Nat
  | [] => 0
  | x :: xs => sizeJ x + sizeJL xs

/-- Size of an object's field list. -/
def sizeJF : List (String × Json) → Nat
  | [] => 0
  | f :: fs => sizeJ f.2 + sizeJF fs

end

/-- A node position; the identity key that models JavaScript object identity
for the `seenObjects` `WeakSet`.  Positions are rooted at `"doc"` (the input
document), `"copy"` (its deep copy), or a wrapper marker, so positions of
distinct live objects never collide. -/
abbrev JPath := List String

/-- `COMPONENT_TYPES` (migrate.js lines 6-9). -/
def COMPONENT_TYPES : List String :=
  ["schemas", "responses", "parameters", "examples",
   "requestBodies", "headers", "securitySchemes"]

/-- The HTTP method names recognized at migrate.js line 123. -/
def HTTP_METHODS : List String :=
  ["get", "post", "put", "delete", "patch", "head", "options", "trace"]

/-- The conventional error-schema names force-included at line 168. -/
def FORCED_SCHEMAS : List String :=
  ["Error", "Failure", "ValidationError", "AccessDeniedError", "AuthzError"]

/-- Model of `new URL(s, 'file:///')`, returning the `pathname` and `hash`
properties the source reads, or `none` when URL parsing throws.

The model covers the reference shapes relevant to this program:
fragment-only references (`"#..."`: the path of the base `file:///` is kept,
so the pathname is `"/"`), absolute-path references (`"/p..."`), bare relative
references (resolved against the base directory `/`), scheme-qualified and
protocol-relative references (an authority whose host part contains `[` is
the representative parse failure, as in `new URL('http://[', 'file:///')`).
Percent-encoding and dot-segment normalization are not modelled; the
documents in this development do not use them. -/
def splitCharsOn (c : Char) : List Char → List (List Char)
  | [] => [[]]
  | x :: xs =>
    if x = c then [] :: splitCharsOn c xs
    else
      match splitCharsOn c xs with
      | r :: rs => (x :: r) :: rs
      | [] => [[x]]

/-- `s.split(c)` for a one-character separator, as JavaScript's
`String.prototype.split` computes it. -/
def splitStr (s : String) (c : Char) : List String :=
  (splitCharsOn c s.toList).map String.mk

def strStartsWith (pre s : String) : Bool := pre.toList.isPrefixOf s.toList

def jsUrlResolve (s : String) : Option (String × String) :=
  let parts := splitStr s '#'
  let before := parts.headD ""
  let frag := String.intercalate "#" parts.tail
  let hash := if frag = "" then "" else "#" ++ frag
  let noq := (splitStr before '?').headD ""
  let authority : String → Option String := fun rest =>
    let host := (splitStr rest '/').headD ""
    if host.toList.contains '[' ∨ host.toList.contains ']' ∨
        host.toList.contains ' ' then none
    else
      let p := rest.drop host.length
      some (if p = "" then "/" else p)
  if noq = "" then some ("/", hash)
  else if strStartsWith "//" noq then (authority (noq.drop 2)).map (·, hash)
  else
    let schemeSplit := splitStr noq ':'
    if schemeSplit.length ≥ 2 ∧ (schemeSplit.headD "").length ≥ 1 ∧
        (schemeSplit.headD "").toList.all (fun c => c.isAlpha) then
      let rest := noq.drop ((schemeSplit.headD "").length + 1)
      if strStartsWith "//" rest then (authority (rest.drop 2)).map (·, hash)
      else some ((if rest = "" then "/" else rest), hash)
    else if strStartsWith "/" noq then some (noq, hash)
    else some ("/" ++ noq, hash)

/-- The per-category reachable sets (`usedComponents`, lines 24-27).  The
source keys them by the seven category names; element order is `Set`
insertion order.  Names are modelled as strings: every name the source adds
is a string except in the unexercised corner where an `x-responseDTO` value
is not a string, in which case the source would coerce it to a string when
using it as a lookup key; we apply that coercion at `add` time as well. -/
structure Used where
  schemas : List String
  responses : List String
  parameters : List String
  examples : List String
  requestBodies : List String
  headers : List String
  securitySchemes : List String

def getUsed (u : Used) : String → List String
  | "schemas" => u.schemas
  | "responses" => u.responses
  | "parameters" => u.parameters
  | "examples" => u.examples
  | "requestBodies" => u.requestBodies
  | "headers" => u.headers
  | "securitySchemes" => u.securitySchemes
  | _ => []

def setUsed (u : Used) (t : String) (l : List String) : Used :=
  match t with
  | "schemas" => { u with schemas := l }
  | "responses" => { u with responses := l }
  | "parameters" => { u with parameters := l }
  | "examples" => { u with examples := l }
  | "requestBodies" => { u with requestBodies := l }
  | "headers" => { u with headers := l }
  | "securitySchemes" => { u with securitySchemes := l }
  | _ => u

/-- `usedComponents[t].add(n)` — a JS `Set` add. -/
def addUsed (u : Used) (t : String) (n : String) : Used :=
  if n ∈ getUsed u t then u else setUsed u t (getUsed u t ++ [n])

/-- `new Set(l)` — insertion-ordered deduplication keeping first
occurrences. -/
def dedupStr (l : List String) : List String :=
  (l.foldl (fun acc x => if x ∈ acc then acc else acc ++ [x]) [])

/-- The mutable state of one `filterOpenAPI` invocation: the reachable sets,
the `seenObjects` identity set, the `usedTags` set and the warnings emitted
so far. -/
structure ScanSt where
  used : Used
  seen : List JPath
  usedTags : List Json
  warnings : List String

/-- Result of a piece of JavaScript computation: a value, an uncaught
exception (`err`, carrying the kind of error), or fuel exhaustion of the
model's structural recursion (`spin` — proved unreachable for the fuel the
model supplies). -/
inductive JsRes (α : Type) : Type where
  | ok : α → JsRes α
  | err : String → JsRes α
  | spin : JsRes α

def JsRes.bind : JsRes α → (α → JsRes β) → JsRes β
  | .ok a, f => f a
  | .err m, _ => .err m
  | .spin, _ => .spin

instance : Monad JsRes where
  pure := JsRes.ok
  bind := JsRes.bind

def addSeen (p : JPath) (st : ScanSt) : ScanSt :=
  { st with seen := st.seen ++ [p] }

def addWarning (w : String) (st : ScanSt) : ScanSt :=
  { st with warnings := st.warnings ++ [w] }

/-- `usedComponents.securitySchemes.add(schemeName)` (line 90). -/
def addScheme (st : ScanSt) (n : String) : ScanSt :=
  { st with used := addUsed st.used "securitySchemes" n }

/-- `usedTags.add(tag)` (line 135). -/
def addUsedTag (st : ScanSt) (tg : Json) : ScanSt :=
  if st.usedTags.any (fun u => beqJ u tg) then st
  else { st with usedTags := st.usedTags ++ [tg] }

/-- `spec.components?.[t]?.[n]` — optional-chained component lookup. -/
def componentAt (doc : Json) (t n : String) : Option Json :=
  match doc.lookup "components" with
  | some c =>
    match c.lookup t with
    | some m => m.lookup n
    | none => none
  | none => none

/-- The position of a component's definition in the source document. -/
def componentPath (t n : String) : JPath := ["doc", "components", t, n]

/-- `trackComponent` (migrate.js lines 32-38), parameterized by the recursive
scan (`recurse` is the scanner at the next fuel level, so the recursion stays
structural): a name not yet reachable is added and its existing (truthy)
definition scanned at its canonical position. -/
def trackCG (doc : Json) (recurse : ScanSt → JPath → Json → JsRes ScanSt)
    (ty name : String) (st : ScanSt) : JsRes ScanSt :=
  if name ∈ getUsed st.used ty then .ok st
  else
    let st := { st with used := addUsed st.used ty name }
    match componentAt doc ty name with
    | some c => if c.truthy then recurse st (componentPath ty name) c else .ok st
    | none => .ok st

/-- Lines 45-57: the `$ref` handler.  An unparseable reference warns; a
parsed one tracks only when the URL pathname is `/components` and the third
fragment segment is a recognized category (a missing fourth segment is the
JavaScript `undefined`, coerced to `"undefined"` by the lookup). -/
def refHandler (track : String → String → ScanSt → JsRes ScanSt) (j : Json)
    (st : ScanSt) : JsRes ScanSt :=
  match j.truthyField "$ref" with
  | none => .ok st
  | some r =>
    match jsUrlResolve (Json.jsToStr r) with
    | none => .ok (addWarning (Json.jsToStr r) st)
    | some pr =>
      if pr.1 = "/components" then
        let parts := splitStr pr.2 '/'
        match parts.get? 2 with
        | some ty =>
          if ty ∈ COMPONENT_TYPES then
            track ty ((parts.get? 3).getD "undefined") st
          else .ok st
        | none => .ok st
      else .ok st

/-- Lines 60-64: the schema-composition handler. -/
def compHandler (recurse : ScanSt → JPath → Json → JsRes ScanSt) (p : JPath)
    (j : Json) (st : ScanSt) : JsRes ScanSt :=
  List.foldlM (fun st prop =>
      match j.lookup prop with
      | some (Json.jarr xs) =>
        List.foldlM (fun st ix => recurse st (p ++ [prop, toString ix.1]) ix.2)
          st xs.enum
      | _ => .ok st)
    st ["allOf", "anyOf", "oneOf"]

/-- Line 67: the `properties` handler. -/
def propsHandler (recurse : ScanSt → JPath → Json → JsRes ScanSt) (p : JPath)
    (j : Json) (st : ScanSt) : JsRes ScanSt :=
  match j.truthyField "properties" with
  | some pv =>
    List.foldlM (fun st kv => recurse st (p ++ ["properties", kv.1]) kv.2)
      st pv.jsValuesK
  | none => .ok st

/-- Lines 68-69 (`items`, `additionalProperties`): recurse into one truthy
field. -/
def fieldHandler (recurse : ScanSt → JPath → Json → JsRes ScanSt)
    (key : String) (p : JPath) (j : Json) (st : ScanSt) : JsRes ScanSt :=
  match j.truthyField key with
  | some v => recurse st (p ++ [key]) v
  | none => .ok st

/-- Lines 73-76, one parameter: `param.$ref` on `null` throws; otherwise
recurse into the parameter (when it has a truthy `$ref`) and into its truthy
`schema`. -/
def paramElemStep (recurse : ScanSt → JPath → Json → JsRes ScanSt)
    (pp : JPath) (param : Json) (st : ScanSt) : JsRes ScanSt :=
  if beqJ param Json.jnull then .err "TypeError"
  else
    JsRes.bind (match param.truthyField "$ref" with
      | some _ => recurse st pp param
      | none => .ok st) fun st =>
    match param.truthyField "schema" with
    | some sv => recurse st (pp ++ ["schema"]) sv
    | none => .ok st

/-- Lines 72-77: the parameters handler; `.forEach` on a truthy non-array
throws. -/
def paramsHandler (recurse : ScanSt → JPath → Json → JsRes ScanSt) (p : JPath)
    (j : Json) (st : ScanSt) : JsRes ScanSt :=
  match j.truthyField "parameters" with
  | none => .ok st
  | some (Json.jarr ps) =>
    List.foldlM (fun st ip =>
        paramElemStep recurse (p ++ ["parameters", toString ip.1]) ip.2 st)
      st ps.enum
  | some _ => .err "TypeError"

/-- Lines 80-84: the content handler; `content.schema` on a `null` media
entry throws. -/
def contentHandler (recurse : ScanSt → JPath → Json → JsRes ScanSt)
    (p : JPath) (j : Json) (st : ScanSt) : JsRes ScanSt :=
  match j.truthyField "content" with
  | none => .ok st
  | some cv =>
    List.foldlM (fun st kc =>
        if beqJ kc.2 Json.jnull then JsRes.err "TypeError"
        else match kc.2.truthyField "schema" with
          | some sv => recurse st (p ++ ["content", kc.1, "schema"]) sv
          | none => .ok st)
      st cv.jsValuesK

/-- Lines 87-93: the security handler — each requirement object contributes
its keys to the `securitySchemes` reachable set; `.forEach` on a truthy
non-array throws, and a falsy requirement is replaced by `{}`. -/
def securityHandler (j : Json) (st : ScanSt) : JsRes ScanSt :=
  match j.truthyField "security" with
  | none => .ok st
  | some (Json.jarr reqs) =>
    .ok (reqs.foldl (fun st req =>
      if req.truthy then (Json.jsKeys req).foldl addScheme st else st) st)
  | some _ => .err "TypeError"

/-- Lines 96-98: the `x-responseDTO` handler (the value is coerced to a
string, as the source does when using it as a lookup key). -/
def dtoHandler (track : String → String → ScanSt → JsRes ScanSt) (j : Json)
    (st : ScanSt) : JsRes ScanSt :=
  match j.truthyField "x-responseDTO" with
  | some v => track "schemas" (Json.jsToStr v) st
  | none => .ok st

/-- Lines 101-107: the generic fallback — every remaining field value that is
an array has its items scanned, and every value of object type (including
`null`, whose `typeof` is `'object'`) is scanned itself. -/
def genericHandler (recurse : ScanSt → JPath → Json → JsRes ScanSt)
    (p : JPath) (j : Json) (st : ScanSt) : JsRes ScanSt :=
  List.foldlM (fun st kv =>
      match kv.2 with
      | Json.jarr xs =>
        List.foldlM (fun st ie => recurse st (p ++ [kv.1, toString ie.1]) ie.2)
          st xs.enum
      | Json.jobj _ => recurse st (p ++ [kv.1]) kv.2
      | Json.jnull => recurse st (p ++ [kv.1]) Json.jnull
      | _ => .ok st)
    st j.jsValuesK

/-- `collectReferences` (migrate.js lines 40-108): the early return of line
41, the seen-mark of line 42, then the handlers in source order.  `doc` is
the closed-over `spec`: component lookups read the original document (its
`components` subtree is never mutated).  `p` is the identity of `j` (see
`JPath`). -/
def collectRefs (doc : Json) : Nat → ScanSt → JPath → Json → JsRes ScanSt
  | 0, _, _, _ => .spin
  | fuel + 1, st0, p, j =>
    if ¬ j.isObjLike then .ok st0
    else if p ∈ st0.seen then .ok st0
    else
      let recurse := fun st p j => collectRefs doc fuel st p j
      let track := trackCG doc recurse
      JsRes.bind (refHandler track j (addSeen p st0)) fun st =>
      JsRes.bind (compHandler recurse p j st) fun st =>
      JsRes.bind (propsHandler recurse p j st) fun st =>
      JsRes.bind (fieldHandler recurse "items" p j st) fun st =>
      JsRes.bind (fieldHandler recurse "additionalProperties" p j st) fun st =>
      JsRes.bind (paramsHandler recurse p j st) fun st =>
      JsRes.bind (contentHandler recurse p j st) fun st =>
      JsRes.bind (securityHandler j st) fun st =>
      JsRes.bind (dtoHandler track j st) fun st =>
      genericHandler recurse p j st

/-- The filter configuration (migrate.js lines 12-17).  `pathPattern` is
abstracted to its observable behaviour, the Boolean `RegExp.test` on a path
string. -/
structure Opts where
  tags : List String := []
  pathPattern : Option (String → Bool) := none
  excludeInternalComponents : Bool := false
  alwaysIncludeComponents : List String := []

/-- The dedup key `` `${param.in}.${param.name}` `` of line 144; an absent
field renders as the string `"undefined"`. -/
def paramKeyStr (param : Json) : String :=
  (match param.lookup "in" with
   | some v => Json.jsToStr v
   | none => "undefined") ++ "." ++
  (match param.lookup "name" with
   | some v => Json.jsToStr v
   | none => "undefined")

/-- The parameter deduplication loop of lines 141-149: keep a parameter iff
its key was not seen earlier.  Reading `param.in` of a `null` entry throws. -/
def dedupParamsGo : List Json → List String → JsRes (List Json)
  | [], _ => .ok []
  | q :: qs, seenKeys =>
    if beqJ q Json.jnull then .err "TypeError"
    else
      let k := paramKeyStr q
      if k ∈ seenKeys then dedupParamsGo qs seenKeys
      else (dedupParamsGo qs (seenKeys ++ [k])).bind fun r => .ok (q :: r)

/-- Lines 140-150 applied to a truthy `operation.parameters` value. -/
def dedupParams (ps : List Json) : JsRes (List Json) := dedupParamsGo ps []

/-- Line 119: `collectReferences({ parameters: pathItem.parameters })`.
The wrapper object is freshly allocated, hence never in `seenObjects`, and
none of the handlers except the parameters handler (lines 72-77) and the
generic recursion (lines 101-107) see any field on it; scanning it therefore
reduces to the following calls on the original parameter objects (`pp` is the
position of the parameters array; throwing behaviour is as in the handlers).
-/
def scanWrapperParams (doc : Json) (fuel : Nat) (st : ScanSt) (pp : JPath)
    (pv : Json) : JsRes ScanSt :=
  match pv with
  | Json.jarr ps =>
    JsRes.bind
      (List.foldlM (fun st ip =>
          paramElemStep (fun st p j => collectRefs doc fuel st p j)
            (pp ++ [toString ip.1]) ip.2 st)
        st ps.enum)
      (fun st => List.foldlM (fun st ip =>
          collectRefs doc fuel st (pp ++ [toString ip.1]) ip.2)
        st ps.enum)
  | _ => .err "TypeError"

/-- Line 164: `collectReferences({ security: filteredSpec.security })`, the
same wrapper-object reduction: only the security handler (lines 87-93) and
the generic recursion apply.  The scanned requirement objects belong to the
deep copy, so their positions are rooted at `"copy"`. -/
def scanWrapperSecurity (doc : Json) (fuel : Nat) (st : ScanSt)
    (sv : Json) : JsRes ScanSt :=
  match sv with
  | Json.jarr reqs =>
    let st := reqs.foldl (fun st req =>
      if req.truthy then (Json.jsKeys req).foldl addScheme st else st) st
    List.foldlM (fun st ir =>
        collectRefs doc fuel st (["copy", "security", toString ir.1]) ir.2)
      st reqs.enum
  | _ => .err "TypeError"

/-- Lines 129-133: the operation's effective tag list, `operation.tags || []`
(a falsy `tags` value is replaced by the empty array). -/
def opTagsOf (op : Json) : Json :=
  match op.lookup "tags" with
  | some v => if v.truthy then v else Json.jarr []
  | none => Json.jarr []

/-- Lines 130-131: whether the operation passes the tag filter; `.some` on a
truthy non-array tag list throws. -/
def incOf (opts : Opts) (opTags : Json) : JsRes Bool :=
  if opts.tags.isEmpty then .ok true else
  match opTags with
  | Json.jarr xs =>
    .ok (xs.any fun tg => match tg with
      | Json.jstr s => opts.tags.contains s
      | _ => false)
  | _ => .err "TypeError"

/-- Line 135: add every operation tag to `usedTags`; `.forEach` on a truthy
non-array throws. -/
def tagStep (opTags : Json) (st : ScanSt) : JsRes ScanSt :=
  match opTags with
  | Json.jarr xs => .ok (xs.foldl addUsedTag st)
  | _ => .err "TypeError"

/-- Lines 139-151: the in-place parameter deduplication, producing the
mutated operation object (`operation.parameters = uniqueParams`). -/
def newOpOf (op : Json) : JsRes Json :=
  match op.truthyField "parameters" with
  | some (Json.jarr ps) =>
    (dedupParams ps).bind fun qs =>
      .ok (Json.updateField op "parameters" (Json.jarr qs))
  | some _ => .err "TypeError"
  | none => .ok op

/-- One entry of the `Object.entries(pathItem)` loop (lines 122-154).  The
accumulator carries the `filteredPathItem` under construction, the path item
as mutated so far, the scan state, and `hasOperations`.  The stored operation
object is the one the source mutates at line 150, so the model stores the
post-deduplication value.  Reading `operation.tags` on a `null` operation
throws. -/
def processOneMethod (doc : Json) (opts : Opts) (fuel : Nat) (pathStr : String)
    (acc : Json × Json × ScanSt × Bool) (me : String × Json) :
    JsRes (Json × Json × ScanSt × Bool) :=
  if me.1 ∉ HTTP_METHODS then
    .ok (Json.updateField acc.1 me.1 me.2, acc.2.1, acc.2.2.1, acc.2.2.2)
  else if beqJ me.2 Json.jnull then .err "TypeError"
  else
    JsRes.bind (incOf opts (opTagsOf me.2)) fun inc =>
    if ¬ inc then .ok acc
    else
      JsRes.bind (tagStep (opTagsOf me.2) acc.2.2.1) fun st =>
      JsRes.bind (newOpOf me.2) fun newOp =>
      JsRes.bind (collectRefs doc fuel st ["doc", "paths", pathStr, me.1] newOp)
        fun st =>
      .ok (Json.updateField acc.1 me.1 newOp,
           Json.updateField acc.2.1 me.1 newOp, st, true)

/-- One entry of the `Object.entries(spec.paths || {})` loop (lines 111-160),
for a path that passed the pattern test.  The accumulator carries the
`filteredSpec.paths` fields built so far, the `paths` value as mutated so
far, and the scan state. -/
def processOnePath (doc : Json) (opts : Opts) (fuel : Nat)
    (acc : List (String × Json) × Json × ScanSt) (pe : String × Json) :
    JsRes (List (String × Json) × Json × ScanSt) :=
  if beqJ pe.2 Json.jnull then
    .err "TypeError"   -- line 118: `pathItem.parameters` on null
  else
    -- lines 118-120
    JsRes.bind (match pe.2.truthyField "parameters" with
      | some pv =>
        scanWrapperParams doc fuel acc.2.2
          ["doc", "paths", pe.1, "parameters"] pv
      | none => .ok acc.2.2) fun st =>
    JsRes.bind (List.foldlM (processOneMethod doc opts fuel pe.1)
      (Json.jobj [], pe.2, st, false) (Json.jsEntries pe.2)) fun r =>
    -- lines 156-159
    if r.2.2.2 then
      JsRes.bind (collectRefs doc fuel r.2.2.1 ["doc", "paths", pe.1] r.2.1)
        fun st =>
      .ok (acc.1 ++ [(pe.1, r.1)], Json.updateField acc.2.1 pe.1 r.2.1, st)
    else
      .ok (acc.1, Json.updateField acc.2.1 pe.1 r.2.1, r.2.2.1)

/-- The whole paths/operations phase (lines 111-160).  Returns the fields of
the output `paths` object, the input document as mutated by line 150, and the
scan state. -/
def processPaths (doc : Json) (opts : Opts) (fuel : Nat) (st : ScanSt) :
    JsRes (List (String × Json) × Json × ScanSt) :=
  JsRes.bind (List.foldlM (fun acc pe =>
      match opts.pathPattern with
      | some test =>
        if test pe.1 then processOnePath doc opts fuel acc pe
        else JsRes.ok acc
      | none => processOnePath doc opts fuel acc pe)
    ([], (match doc.lookup "paths" with
      | some v => if v.truthy then v else Json.jobj []
      | none => Json.jobj []), st)
    (Json.jsEntries (match doc.lookup "paths" with
      | some v => if v.truthy then v else Json.jobj []
      | none => Json.jobj []))) fun r =>
  JsRes.ok (r.1,
    (match doc.lookup "paths" with
      | some v => if v.truthy then Json.updateField doc "paths" r.2.1 else doc
      | none => doc),
    r.2.2)

/-- Lines 167-173: force-include the conventional error schemas present in
the source and scan their definitions. -/
def forcedPhase (doc : Json) (fuel : Nat) (st : ScanSt) : JsRes ScanSt :=
  List.foldlM (fun st name =>
      match componentAt doc "schemas" name with
      | some c =>
        if c.truthy then
          let st := { st with used := addUsed st.used "schemas" name }
          collectRefs doc fuel st (componentPath "schemas" name) c
        else pure st
      | none => pure st)
    st FORCED_SCHEMAS

/-- One name of the inner loop of the fixed-point pass (lines 180-187). -/
def scanUsedName (doc : Json) (fuel : Nat) (t : String)
    (acc : ScanSt × Bool) (n : String) : JsRes (ScanSt × Bool) :=
  match componentAt doc t n with
  | some c =>
    if c.truthy then
      JsRes.bind (collectRefs doc fuel acc.1 (componentPath t n) c) fun st =>
      JsRes.ok (st, acc.2 ||
        decide ((getUsed acc.1.used t).length < (getUsed st.used t).length))
    else JsRes.ok acc
  | none => JsRes.ok acc

/-- One category of the fixed-point pass (lines 179-188); `Array.from`
snapshots the current reachable list. -/
def scanPass (doc : Json) (fuel : Nat) (acc : ScanSt × Bool) (t : String) :
    JsRes (ScanSt × Bool) :=
  List.foldlM (scanUsedName doc fuel t) acc (getUsed acc.1.used t)

/-- One full `do`-body of the fixed-point loop (lines 177-189). -/
def onePass (doc : Json) (fuel : Nat) (st : ScanSt) : JsRes (ScanSt × Bool) :=
  List.foldlM (scanPass doc fuel) (st, false) COMPONENT_TYPES

/-- The `do … while (hasChanges)` loop (lines 176-189), with its own fuel
(the loop runs at most once per component definition plus one final pass; see
`loopFuel`). -/
def closureLoop (doc : Json) (fuel : Nat) : Nat → ScanSt → JsRes ScanSt
  | 0, _ => .spin
  | k + 1, st =>
    JsRes.bind (onePass doc fuel st) fun r =>
    if r.2 then closureLoop doc fuel k r.1 else JsRes.ok r.1

/-- Lines 191-206: rebuild `filteredSpec.components` from the source's
categories, keeping exactly the names in the reachable sets (minus internal
ones when requested); a category that filters to empty is not kept, and when
the source has a truthy `components` the whole field is replaced by the fresh
object (so its keys appear in `COMPONENT_TYPES` order, as the source's
insertion order produces). -/
def componentsStage (doc : Json) (opts : Opts) (st : ScanSt) (fs : Json) :
    JsRes Json :=
  match doc.lookup "components" with
  | some comps =>
    if comps.truthy then
      JsRes.bind (List.foldlM (fun (acc : List (String × Json)) t =>
          match comps.lookup t with
          | some catv =>
            if catv.truthy then
              JsRes.bind (List.foldlM
                (fun (kept : List (String × Json)) nv =>
                  if nv.1 ∈ getUsed st.used t then
                    if opts.excludeInternalComponents then
                      if beqJ nv.2 Json.jnull then JsRes.err "TypeError"
                      else if (nv.2.truthyField "x-internal").isSome then
                        JsRes.ok kept
                      else JsRes.ok (kept ++ [nv])
                    else JsRes.ok (kept ++ [nv])
                  else JsRes.ok kept)
                [] (Json.jsEntries catv)) fun kept =>
              if kept.isEmpty then JsRes.ok acc
              else JsRes.ok (acc ++ [(t, Json.jobj kept)])
            else JsRes.ok acc
          | none => JsRes.ok acc)
        [] COMPONENT_TYPES) fun newComps =>
      JsRes.ok (Json.updateField fs "components" (Json.jobj newComps))
    else JsRes.ok fs
  | none => JsRes.ok fs

/-- Lines 213-217: filter the top-level tag list to the used tags. -/
def tagsStage (doc : Json) (opts : Opts) (st : ScanSt) (fs : Json) :
    JsRes Json :=
  match (match doc.lookup "tags" with
    | some v => if v.truthy then v else Json.jarr []
    | none => Json.jarr []) with
  | Json.jarr xs =>
    JsRes.bind (List.foldlM (fun (kept : List Json) tg =>
        if beqJ tg Json.jnull then JsRes.err "TypeError"  -- `tag.name` on null
        else
          -- `usedTags.has(undefined)` is false: the set never holds undefined
          if (match tg.lookup "name" with
            | some nv => st.usedTags.any (fun u => beqJ u nv)
            | none => false) then
            if opts.excludeInternalComponents then
              if (tg.truthyField "x-internal").isSome then JsRes.ok kept
              else JsRes.ok (kept ++ [tg])
            else JsRes.ok (kept ++ [tg])
          else JsRes.ok kept)
      [] xs) fun kept =>
    JsRes.ok (Json.updateField fs "tags" (Json.jarr kept))
  | _ => JsRes.err "TypeError"   -- `.filter` on a truthy non-array

/-- One field of the cleanup loop (lines 220-223): drop the field when its
value is truthy with no keys. -/
def cleanField (fs : Json) (f : String) : Json :=
  match fs.lookup f with
  | some v =>
    if v.truthy && (Json.jsKeys v).isEmpty then Json.deleteField fs f
    else fs
  | none => fs

/-- Lines 219-224: drop `components`, `security` and `tags` when truthy with
no keys, in that order. -/
def cleanupStage (fs : Json) : Json :=
  cleanField (cleanField (cleanField fs "components") "security") "tags"

/-- The budget of `trackComponent` jumps still available: for every component
definition whose name is not yet reachable, its size plus slack.  It shrinks
whenever a jump scans a definition, which is what bounds the recursion depth
beyond pure structural descent. -/
def chainBudget (doc : Json) (u : Used) : Nat :=
  List.foldl (fun a t =>
      a + match (doc.lookup "components") with
        | some c =>
          match c.lookup t with
          | some catv =>
            List.foldl (fun (b : Nat) (nv : String × Json) =>
                b + if nv.1 ∈ getUsed u t then 0 else sizeJ nv.2 + 2)
              0 (Json.jsEntries catv)
          | none => 0
        | none => 0)
    0 COMPONENT_TYPES

/-- The depth fuel handed to every `collectRefs` call of one pass: enough for
full structural descent from any subtree of the document plus every possible
chain of `trackComponent` jumps.  `collectRefs` is proved never to exhaust
it. -/
def FUEL (doc : Json) : Nat :=
  4 * sizeJ doc + chainBudget doc (Used.mk [] [] [] [] [] [] []) + 2

/-- Fuel of the fixed-point loop: it runs at most once per component
definition plus a final pass (each productive pass scans at least one
previously unscanned definition). -/
def loopFuel (doc : Json) : Nat :=
  List.foldl (fun a t =>
      a + match (doc.lookup "components") with
        | some c =>
          match c.lookup t with
          | some catv => (Json.jsEntries catv).length
          | none => 0
        | none => 0)
    0 COMPONENT_TYPES + 2

/-- The result of one `filterOpenAPI` call: the returned document, the
caller's input document as it stands after the call (the source mutates the
operations' `parameters` in place), and the final traversal state. -/
structure FilterOut where
  out : Json
  inputAfter : Json
  st : ScanSt

/-- The seeded reachable sets (lines 24-27): every category, including
`securitySchemes` (whose initial set the `reduce` overwrites), starts as
`new Set(alwaysIncludeComponents)`. -/
def seedUsed (opts : Opts) : Used :=
  let s := dedupStr opts.alwaysIncludeComponents
  ⟨s, s, s, s, s, s, s⟩

/-- `filterOpenAPI` (migrate.js lines 11-227), as a function from the parsed
input document and the options to the returned document, the mutated input,
and the final state.  `JSON.parse(JSON.stringify(spec))` is the identity on
parsed documents, so the deep copy is the value `doc` itself; the assembly
acts on the copy with `paths` replaced by the filtered paths object. -/
def filterOpenAPIFull (doc : Json) (opts : Opts) : JsRes FilterOut :=
  -- lines 111-160
  JsRes.bind (processPaths doc opts (FUEL doc) ⟨seedUsed opts, [], [], []⟩)
    fun pr =>
  -- lines 162-165 (`filteredSpec.security` is the copy of `spec.security`)
  JsRes.bind (match doc.lookup "security" with
    | some sv =>
      if sv.truthy then scanWrapperSecurity doc (FUEL doc) pr.2.2 sv
      else JsRes.ok pr.2.2
    | none => JsRes.ok pr.2.2) fun st1 =>
  -- lines 167-173
  JsRes.bind (forcedPhase doc (FUEL doc) st1) fun st2 =>
  -- lines 175-189
  JsRes.bind (closureLoop doc (FUEL doc) (loopFuel doc) st2) fun st3 =>
  -- lines 191-206, applied to the copy with `paths` replaced (lines 20, 157)
  JsRes.bind (componentsStage doc opts st3
    (Json.updateField doc "paths" (Json.jobj pr.1))) fun fs1 =>
  -- lines 213-217, applied after the securitySchemes copy of lines 208-211
  JsRes.bind (tagsStage doc opts st3
    (match doc.truthyField "securitySchemes" with
      | some v => Json.updateField fs1 "securitySchemes" v
      | none => fs1)) fun fs3 =>
  -- lines 219-224
  JsRes.ok ⟨cleanupStage fs3, pr.2.1, st3⟩

/-- The document returned by `filterOpenAPI`. -/
def filterOpenAPI (doc : Json) (opts : Opts) : JsRes Json :=
  (filterOpenAPIFull doc opts).bind fun r => .ok r.out

/-! ## Specification-side predicates

These definitions are not part of the embedding of `migrate.js`; they state
graph-theoretic or well-formedness notions that the claims quantify over. -/

/-- The component-tracking requests the scanner recognizes at a single node:
a `$ref` whose parsed URL has pathname `/components` and a recognized
category (lines 45-53), and an `x-responseDTO` schema hint (lines 96-98). -/
def nodeReqs (j : Json) : List (String × String) :=
  (match j.truthyField "$ref" with
   | some r =>
     match jsUrlResolve (Json.jsToStr r) with
     | some pr =>
       if pr.1 = "/components" then
         match (splitStr pr.2 '/').get? 2 with
         | some ty =>
           if ty ∈ COMPONENT_TYPES then
             [(ty, ((splitStr pr.2 '/').get? 3).getD "undefined")]
           else []
         | none => []
       else []
     | none => []
   | none => []) ++
  (match j.truthyField "x-responseDTO" with
   | some v => [("schemas", Json.jsToStr v)]
   | none => [])

mutual

/-- All tracking requests recognized anywhere inside a value — the outgoing
reference edges of a component definition, as the code recognizes them. -/
def scanReqs : Json → List (String × String)
  | .jarr xs => scanReqsL xs
  | .jobj fs => nodeReqs (.jobj fs) ++ scanReqsF fs
  | _ => []

def scanReqsL : List Json → List (String × String)
  | [] => []
  | x :: xs => scanReqs x ++ scanReqsL xs

def scanReqsF : List (String × Json) → List (String × String)
  | [] => []
  | f :: fs => scanReqs f.2 ++ scanReqsF fs

end

/-- One edge of the component reference graph: category/name `a` has a
definition in the document whose body requests category/name `b`. -/
def RefStep (doc : Json) (a b : String × String) : Prop :=
  ∃ body, componentAt doc a.1 a.2 = some body ∧ b ∈ scanReqs body

/-- The component `(t, n)` references itself, directly or through a chain of
reference edges back to itself. -/
def CyclicRef (doc : Json) (t n : String) : Prop :=
  Relation.TransGen (RefStep doc) (t, n) (t, n)

/-- The specification-side description of the dedup step, accumulating the
earlier parameters: a parameter is dropped exactly when some earlier
parameter of the same list has an equal key, and first-seen order is kept. -/
def specDedupAux (earlier : List Json) : List Json → List Json
  | [] => []
  | q :: qs =>
    if earlier.any (fun p => paramKeyStr p == paramKeyStr q) then
      specDedupAux (earlier ++ [q]) qs
    else q :: specDedupAux (earlier ++ [q]) qs

/-- The specification-side description of the dedup step: keep exactly the
parameters with no earlier equal-key parameter, in order. -/
def specDedup (ps : List Json) : List Json := specDedupAux [] ps

mutual

/-- Conservative well-shapedness of every node of a document, ruling out the
shapes on which the source's unguarded `.forEach` calls and property accesses
throw: a truthy `parameters` field must be an array of non-null entries, a
truthy `security` field an array, the values of a truthy `content` field
non-null, and a truthy `tags` field an array.  Valid OpenAPI documents
satisfy all of these. -/
def shapeOK : Json → Bool
  | .jobj fs =>
    (match (Json.jobj fs).truthyField "parameters" with
     | some (Json.jarr ps) => ps.all fun q => !(beqJ q Json.jnull)
     | some _ => false
     | none => true) &&
    (match (Json.jobj fs).truthyField "security" with
     | some v => v.isArr
     | none => true) &&
    (match (Json.jobj fs).truthyField "content" with
     | some cv => (Json.jsValues cv).all fun c => !(beqJ c Json.jnull)
     | none => true) &&
    (match (Json.jobj fs).truthyField "tags" with
     | some v => v.isArr
     | none => true) &&
    shapeOKF fs
  | .jarr xs => shapeOKL xs
  | _ => true

def shapeOKL : List Json → Bool
  | [] => true
  | x :: xs => shapeOK x && shapeOKL xs

def shapeOKF : List (String × Json) → Bool
  | [] => true
  | f :: fs => shapeOK f.2 && shapeOKF fs

end

/-- Top-level well-shapedness: the root tag list (if truthy) is an array of
non-null tags, component categories hold no null definitions, path items are
non-null, and the operation under an HTTP method key is non-null. -/
def rootShape (doc : Json) : Bool :=
  (match doc.lookup "tags" with
   | some v =>
     if v.truthy then
       match v with
       | Json.jarr xs => xs.all fun tg => !(beqJ tg Json.jnull)
       | _ => false
     else true
   | none => true) &&
  (COMPONENT_TYPES.all fun t =>
    match doc.lookup "components" with
    | some c =>
      match c.lookup t with
      | some catv => (Json.jsValues catv).all fun v => !(beqJ v Json.jnull)
      | none => true
    | none => true) &&
  ((Json.jsEntries (match doc.lookup "paths" with
      | some v => if v.truthy then v else Json.jobj []
      | none => Json.jobj [])).all fun pe =>
    !(beqJ pe.2 Json.jnull) &&
    ((Json.jsEntries pe.2).all fun me =>
      !(decide (me.1 ∈ HTTP_METHODS)) || !(beqJ me.2 Json.jnull)))

/-- Well-shapedness of a whole document: every node well-shaped and the
top-level structure well-shaped. -/
def ShapeOK (doc : Json) : Bool := shapeOK doc && rootShape doc

/-! ## Order and invariant relations used by the scanner lemmas -/

/-- `a` is an initial segment of `b` (the state components only grow by
appending). -/
def listLE {α : Type _} (a b : List α) : Prop := ∃ c, a ++ c = b

/-- Monotonicity of one scanner step: reachable sets, seen set and warnings
grow by appending; the used-tags set is untouched by `collectReferences`. -/
def StLE (st st' : ScanSt) : Prop :=
  (∀ t, listLE (getUsed st.used t) (getUsed st'.used t)) ∧
  listLE st.seen st'.seen ∧
  listLE st.usedTags st'.usedTags ∧
  listLE st.warnings st'.warnings

/-- The state invariant: every reachable list and the seen list are
duplicate-free (they model JS `Set`/`WeakSet` objects). -/
def StInv (st : ScanSt) : Prop :=
  (∀ t, (getUsed st.used t).Nodup) ∧ st.seen.Nodup

/-- The full postcondition of one scanner call: monotone growth, invariant
preservation, and every name newly added to a category other than via the
security handler had its existing object-like definition scanned (its
position is in the final seen set). -/
def MStep (doc : Json) (st st' : ScanSt) : Prop :=
  StLE st st' ∧ (StInv st → StInv st') ∧
  (∀ t n, n ∈ getUsed st'.used t → n ∉ getUsed st.used t →
    t = "securitySchemes" ∨
      ∀ b, componentAt doc t n = some b → b.isObjLike = true →
        componentPath t n ∈ st'.seen)

/-- Bundled postconditions of one state-transforming step `f` of the scanner:
on success it is an `MStep`; it cannot exhaust fuel while `fuel` exceeds
`bound` plus the current jump budget; and it cannot throw when `sh` holds. -/
def HProp (doc : Json) (fuel bound : Nat) (sh : Prop)
    (f : ScanSt → JsRes ScanSt) : Prop :=
  (∀ s s', f s = JsRes.ok s' → MStep doc s s') ∧
  (∀ s, fuel > bound + chainBudget doc s.used → f s ≠ JsRes.spin) ∧
  (∀ s m, sh → f s ≠ JsRes.err m)

/-- The induction hypothesis of the scanner's master lemma, packaged: the
recursive scan one fuel level down satisfies, for every argument, the success
postcondition (an `MStep` that marks the scanned object's position), the
fuel-progress bound, and absence of exceptions on well-shaped input. -/
def RecOK (doc : Json) (fuel : Nat) (sh : Prop)
    (recurse : ScanSt → JPath → Json → JsRes ScanSt) : Prop :=
  ∀ st p j,
    (∀ st', recurse st p j = JsRes.ok st' →
        MStep doc st st' ∧ (j.isObjLike = true → p ∈ st'.seen)) ∧
    (fuel > sizeJ j + chainBudget doc st.used → recurse st p j ≠ JsRes.spin) ∧
    (sh → shapeOK j = true → ∀ m, recurse st p j ≠ JsRes.err m)

/-- The number of component definitions whose canonical position has not yet
been marked as seen.  Every productive pass of the fixed-point loop strictly
decreases it, which bounds the number of loop iterations by `loopFuel`. -/
def unseenComps (doc : Json) (st : ScanSt) : Nat :=
  List.foldl (fun a t =>
      a + match (doc.lookup "components") with
        | some c =>
          match c.lookup t with
          | some catv =>
            List.foldl (fun (b : Nat) (nv : String × Json) =>
                b + if componentPath t nv.1 ∈ st.seen then 0 else 1)
              0 (Json.jsEntries catv)
          | none => 0
        | none => 0)
    0 COMPONENT_TYPES

/-- The fixed point reached by the closure loop: every reachable name whose
definition exists in the source as an object-like value has had that
definition scanned (its canonical position is marked seen). -/
def ScannedAll (doc : Json) (st : ScanSt) : Prop :=
  ∀ t, t ∈ COMPONENT_TYPES → ∀ n, n ∈ getUsed st.used t →
    ∀ b, componentAt doc t n = some b → b.isObjLike = true →
      componentPath t n ∈ st.seen

/-! ## Concrete documents used to settle the claims -/

open Json in
/-- A document with one retained operation whose response schema is the
standard reference `#/components/schemas/Foo`, and `Foo` defined. -/
def cdoc1 : Json := jobj [
  ("openapi", jstr "3.0.0"),
  ("paths", jobj [("/u", jobj [("get", jobj [
      ("tags", jarr [jstr "User"]),
      ("responses", jobj [("200", jobj [("content", jobj [("application/json",
          jobj [("schema",
            jobj [("$ref", jstr "#/components/schemas/Foo")])])])])])])])]),
  ("components", jobj [("schemas",
      jobj [("Foo", jobj [("type", jstr "object")])])])]

def copts1 : Opts := { tags := ["User"] }

open Json in
/-- What `filterOpenAPI` returns on `cdoc1`: the operation is retained but
`Foo` is not, and the emptied `components` is dropped. -/
def cout1 : Json := jobj [
  ("openapi", jstr "3.0.0"),
  ("paths", jobj [("/u", jobj [("get", jobj [
      ("tags", jarr [jstr "User"]),
      ("responses", jobj [("200", jobj [("content", jobj [("application/json",
          jobj [("schema",
            jobj [("$ref", jstr "#/components/schemas/Foo")])])])])])])])])]

open Json in
/-- A document whose only path has a single operation that the tag filter
drops, and a path-level parameter whose schema refers (via the
`x-responseDTO` hint, an edge the code does follow) to schema `S`. -/
def cdoc2 : Json := jobj [
  ("openapi", jstr "3.0.0"),
  ("paths", jobj [("/a", jobj [
      ("parameters", jarr [jobj [("name", jstr "p"), ("in", jstr "query"),
          ("schema", jobj [("x-responseDTO", jstr "S")])]]),
      ("get", jobj [("tags", jarr [jstr "Admin"])])])]),
  ("components", jobj [("schemas",
      jobj [("S", jobj [("type", jstr "object")])])])]

def copts2 : Opts := { tags := ["User"] }

open Json in
/-- `filterOpenAPI cdoc2 copts2`: the path is dropped entirely, yet `S`
appears in the output components. -/
def cout2 : Json := jobj [
  ("openapi", jstr "3.0.0"),
  ("paths", jobj []),
  ("components", jobj [("schemas",
      jobj [("S", jobj [("type", jstr "object")])])])]

open Json in
/-- Re-filtering `cout2` with the same options loses `S`. -/
def cout2b : Json := jobj [
  ("openapi", jstr "3.0.0"),
  ("paths", jobj [])]

open Json in
/-- A document with one retained operation carrying a duplicate parameter
pair. -/
def cdoc3 : Json := jobj [
  ("paths", jobj [("/a", jobj [("get", jobj [
      ("parameters", jarr [
          jobj [("in", jstr "query"), ("name", jstr "a")],
          jobj [("in", jstr "query"), ("name", jstr "a")]])])])])]

open Json in
/-- After `filterOpenAPI cdoc3 {}`, the caller's document: the original
operation's parameter list has been replaced by the deduplicated one. -/
def cdoc3after : Json := jobj [
  ("paths", jobj [("/a", jobj [("get", jobj [
      ("parameters", jarr [
          jobj [("in", jstr "query"), ("name", jstr "a")]])])])])]

open Json in
/-- A self-referential component: schema `X` whose definition carries the
schema hint `X` — a reference cycle along edges the code follows. -/
def cdoc4 : Json := jobj [
  ("components", jobj [("schemas",
      jobj [("X", jobj [("x-responseDTO", jstr "X")])])])]

def copts4 : Opts := { alwaysIncludeComponents := ["X"] }

open Json in
/-- Two parameters with different `(in, name)` pairs whose dotted
concatenations coincide: `"a" + "." + "b.c" = "a.b" + "." + "c"`. -/
def cdoc5 : Json := jobj [
  ("paths", jobj [("/a", jobj [("get", jobj [
      ("parameters", jarr [
          jobj [("in", jstr "a"), ("name", jstr "b.c")],
          jobj [("in", jstr "a.b"), ("name", jstr "c")]])])])])]

open Json in
/-- The specification's own dedup example:
`[{in:"query",name:"a"}, {in:"header",name:"a"}, {in:"query",name:"a"}]`. -/
def cdoc5w : Json := jobj [
  ("paths", jobj [("/a", jobj [("get", jobj [
      ("parameters", jarr [
          jobj [("in", jstr "query"), ("name", jstr "a")],
          jobj [("in", jstr "header"), ("name", jstr "a")],
          jobj [("in", jstr "query"), ("name", jstr "a")]])])])])]

open Json in
/-- An always-included schema `X` whose definition references `Y` through a
standard `#/components/schemas/Y` pointer. -/
def cdoc7 : Json := jobj [
  ("components", jobj [("schemas", jobj [
    ("X", jobj [("properties", jobj [("p",
        jobj [("$ref", jstr "#/components/schemas/Y")])])]),
    ("Y", jobj [("type", jstr "object")])])])]

def copts7 : Opts := { alwaysIncludeComponents := ["X"] }

open Json in
/-- A document whose retained operation has a truthy non-array `parameters`
field; `operation.parameters.forEach` throws. -/
def cdoc8 : Json := jobj [
  ("paths", jobj [("/a", jobj [("get", jobj [
      ("parameters", jobj [("x", jnum 1)])])])])]

open Json in
/-- A well-shaped document containing an unparseable reference
(`new URL('http://[', 'file:///')` throws) next to a reference the scanner
does follow: the pass warns, skips the bad reference, and completes. -/
def cdoc8w : Json := jobj [
  ("paths", jobj [("/a", jobj [("get", jobj [
      ("x", jobj [("$ref", jstr "http://[")]),
      ("y", jobj [("x-responseDTO", jstr "Z")])])])]),
  ("components", jobj [("schemas",
      jobj [("Z", jobj [("type", jstr "object")])])])]

open Json in
/-- `filterOpenAPI cdoc8w {}`. -/
def cout8w : Json := jobj [
  ("paths", jobj [("/a", jobj [("get", jobj [
      ("x", jobj [("$ref", jstr "http://[")]),
      ("y", jobj [("x-responseDTO", jstr "Z")])])])]),
  ("components", jobj [("schemas",
      jobj [("Z", jobj [("type", jstr "object")])])])]

open Json in
/-- `filterOpenAPI cdoc5 {}`. -/
def cout5 : Json := jobj [
  ("paths", jobj [("/a", jobj [("get", jobj [
      ("parameters", jarr [
          jobj [("in", jstr "a"), ("name", jstr "b.c")]])])])])]

open Json in
/-- `filterOpenAPI cdoc7 copts7`. -/
def cout7 : Json := jobj [
  ("components", jobj [("schemas", jobj [
    ("X", jobj [("properties", jobj [("p",
        jobj [("$ref", jstr "#/components/schemas/Y")])])])])]),
  ("paths", jobj [])]

open Json in
/-- `filterOpenAPI cdoc4 copts4`. -/
def cout4 : Json := jobj [
  ("components", jobj [("schemas",
      jobj [("X", jobj [("x-responseDTO", jstr "X")])])]),
  ("paths", jobj [])]

/-- The full result of `filterOpenAPIFull cdoc4 copts4`: `X` is seeded into
every category by `alwaysIncludeComponents`; its definition is scanned once
(one entry in `seen`), and the tracking of its self-reference is a no-op. -/
def cres4 : FilterOut :=
  ⟨cout4, cdoc4,
   ⟨⟨["X"], ["X"], ["X"], ["X"], ["X"], ["X"], ["X"]⟩,
    [["doc", "components", "schemas", "X"]], [], []⟩⟩

/-! ## Lemmas: result plumbing -/

@[simp] theorem jsres_bind_def {α β : Type _} (m : JsRes α) (f : α → JsRes β) :
    m >>= f = JsRes.bind m f := rfl

@[simp] theorem jsres_pure_def {α : Type _} (a : α) :
    (pure a : JsRes α) = JsRes.ok a := rfl

@[simp] theorem jsres_bind_ok {α β : Type _} (a : α) (f : α → JsRes β) :
    JsRes.bind (JsRes.ok a) f = f a := rfl

@[simp] theorem jsres_bind_err {α β : Type _} (s : String) (f : α → JsRes β) :
    JsRes.bind (JsRes.err s) f = JsRes.err s := rfl

@[simp] theorem jsres_bind_spin {α β : Type _} (f : α → JsRes β) :
    JsRes.bind (JsRes.spin) f = JsRes.spin := rfl

theorem jsres_bind_eq_ok {α β : Type _} {m : JsRes α} {f : α → JsRes β} {b : β}
    (h : JsRes.bind m f = JsRes.ok b) : ∃ a, m = JsRes.ok a ∧ f a = JsRes.ok b := by
  cases m with
  | ok a => exact ⟨a, rfl, h⟩
  | err s => simp [JsRes.bind] at h
  | spin => simp [JsRes.bind] at h

theorem jsres_bind_ne_spin {α β : Type _} {m : JsRes α} {f : α → JsRes β}
    (hm : m ≠ JsRes.spin) (hf : ∀ a, m = JsRes.ok a → f a ≠ JsRes.spin) :
    JsRes.bind m f ≠ JsRes.spin := by
  cases m with
  | ok a => exact hf a rfl
  | err s => simp [JsRes.bind]
  | spin => exact absurd rfl hm

theorem jsres_bind_ne_err {α β : Type _} {m : JsRes α} {f : α → JsRes β}
    (hm : ∀ s, m ≠ JsRes.err s) (hf : ∀ a, m = JsRes.ok a → ∀ s, f a ≠ JsRes.err s) :
    ∀ s, JsRes.bind m f ≠ JsRes.err s := by
  intro s
  cases m with
  | ok a => exact hf a rfl s
  | err t => exact absurd rfl (hm t)
  | spin => simp [JsRes.bind]

/-! ## Lemmas: the growth order and the invariants -/

theorem listLE_refl {α : Type _} (l : List α) : listLE l l := ⟨[], by simp⟩

theorem listLE_trans {α : Type _} {a b c : List α}
    (h1 : listLE a b) (h2 : listLE b c) : listLE a c := by
  obtain ⟨x, hx⟩ := h1; obtain ⟨y, hy⟩ := h2
  exact ⟨x ++ y, by rw [← hy, ← hx, List.append_assoc]⟩

theorem listLE_append {α : Type _} (l m : List α) : listLE l (l ++ m) := ⟨m, rfl⟩

theorem listLE_mem {α : Type _} {a b : List α} (h : listLE a b) {x : α}
    (hx : x ∈ a) : x ∈ b := by
  obtain ⟨c, rfl⟩ := h; exact List.mem_append_left _ hx

theorem listLE_length {α : Type _} {a b : List α} (h : listLE a b) :
    a.length ≤ b.length := by
  obtain ⟨c, rfl⟩ := h; simp

theorem StLE_refl (st : ScanSt) : StLE st st :=
  ⟨fun _ => listLE_refl _, listLE_refl _, listLE_refl _, listLE_refl _⟩

theorem StLE_trans {a b c : ScanSt} (h1 : StLE a b) (h2 : StLE b c) : StLE a c :=
  ⟨fun t => listLE_trans (h1.1 t) (h2.1 t),
   listLE_trans h1.2.1 h2.2.1, listLE_trans h1.2.2.1 h2.2.2.1,
   listLE_trans h1.2.2.2 h2.2.2.2⟩

theorem MStep_refl (doc : Json) (st : ScanSt) : MStep doc st st :=
  ⟨StLE_refl st, id, fun _ _ hmem hnot => absurd hmem hnot⟩

theorem MStep_trans {doc : Json} {a b c : ScanSt}
    (h1 : MStep doc a b) (h2 : MStep doc b c) : MStep doc a c := by
  refine ⟨StLE_trans h1.1 h2.1, fun hi => h2.2.1 (h1.2.1 hi), ?_⟩
  intro t n hmem hnot
  by_cases hb : n ∈ getUsed b.used t
  · rcases h1.2.2 t n hb hnot with h | h
    · exact Or.inl h
    · exact Or.inr fun bo hbo hol => listLE_mem h2.1.2.1 (h bo hbo hol)
  · exact h2.2.2 t n hmem hb

/-! ## Lemmas: the seven reachable sets -/

theorem getUsed_setUsed_self (u : Used) {t : String}
    (ht : t ∈ COMPONENT_TYPES) (l : List String) :
    getUsed (setUsed u t l) t = l := by
  simp only [COMPONENT_TYPES, List.mem_cons, List.mem_singleton] at ht
  rcases ht with rfl | rfl | rfl | rfl | rfl | rfl | rfl | h
  all_goals first
    | rfl
    | exact absurd h (by simp)

theorem getUsed_setUsed_other (u : Used) {t t' : String} (hne : t' ≠ t)
    (l : List String) : getUsed (setUsed u t l) t' = getUsed u t' := by
  unfold setUsed
  split <;> (unfold getUsed; split <;> simp_all)

theorem getUsed_addUsed_self (u : Used) {t : String}
    (ht : t ∈ COMPONENT_TYPES) (n : String) :
    getUsed (addUsed u t n) t =
      if n ∈ getUsed u t then getUsed u t else getUsed u t ++ [n] := by
  unfold addUsed
  split <;> simp_all [getUsed_setUsed_self u ht]

theorem getUsed_addUsed_other (u : Used) {t t' : String} (hne : t' ≠ t)
    (n : String) : getUsed (addUsed u t n) t' = getUsed u t' := by
  unfold addUsed
  split
  · rfl
  · exact getUsed_setUsed_other u hne _

theorem listLE_getUsed_addUsed (u : Used) (t t' : String) (n : String) :
    listLE (getUsed u t') (getUsed (addUsed u t n) t') := by
  by_cases htm : t ∈ COMPONENT_TYPES
  · by_cases he : t' = t
    · subst he
      rw [getUsed_addUsed_self u htm n]
      split
      · exact listLE_refl _
      · exact listLE_append _ _
    · rw [getUsed_addUsed_other u he n]; exact listLE_refl _
  · unfold addUsed setUsed
    split
    · exact listLE_refl _
    · simp only [COMPONENT_TYPES, List.mem_cons, List.mem_singleton] at htm
      push_neg at htm
      split <;> simp_all <;> exact listLE_refl _

theorem setUsed_not_mem (u : Used) {t : String} (ht : t ∉ COMPONENT_TYPES)
    (l : List String) : setUsed u t l = u := by
  simp only [COMPONENT_TYPES, List.mem_cons, List.mem_singleton] at ht
  push_neg at ht
  unfold setUsed
  split <;> simp_all

theorem addUsed_not_mem (u : Used) {t : String} (ht : t ∉ COMPONENT_TYPES)
    (n : String) : addUsed u t n = u := by
  unfold addUsed
  split
  · rfl
  · exact setUsed_not_mem u ht _

theorem nodup_addUsed (u : Used) (t n : String)
    (h : ∀ t', (getUsed u t').Nodup) : ∀ t', (getUsed (addUsed u t n) t').Nodup := by
  intro t'
  by_cases htm : t ∈ COMPONENT_TYPES
  · by_cases he : t' = t
    · subst he
      rw [getUsed_addUsed_self u htm n]
      split
      · exact h t'
      · next hn =>
          rw [List.nodup_append]
          refine ⟨h t', List.nodup_singleton n, ?_⟩
          intro x hx hxn
          simp only [List.mem_singleton] at hxn
          exact hn (hxn ▸ hx)
    · rw [getUsed_addUsed_other u he n]; exact h t'
  · rw [addUsed_not_mem u htm n]; exact h t'

/-! ## Lemmas: arithmetic of the jump budget -/

theorem foldl_add_le {α : Type _} {f g : α → Nat} :
    ∀ (l : List α), (∀ x ∈ l, f x ≤ g x) → ∀ a b k, a + k ≤ b →
      List.foldl (fun s x => s + f x) a l + k ≤
        List.foldl (fun s x => s + g x) b l
  | [], _, a, b, k, hab => by simpa using hab
  | x :: l, h, a, b, k, hab => by
    simp only [List.foldl]
    refine foldl_add_le l (fun y hy => h y (List.mem_cons_of_mem _ hy)) _ _ _ ?_
    have := h x (List.mem_cons_self _ _)
    omega

theorem foldl_add_slack {α : Type _} {f g : α → Nat} :
    ∀ (l : List α) (y : α), y ∈ l → (∀ x ∈ l, f x ≤ g x) →
      ∀ k, f y + k ≤ g y → ∀ a b, a ≤ b →
      List.foldl (fun s x => s + f x) a l + k ≤
        List.foldl (fun s x => s + g x) b l
  | [], y, hy, _, _, _, _, _, _ => absurd hy (List.not_mem_nil y)
  | x :: l, y, hy, h, k, hk, a, b, hab => by
    simp only [List.foldl]
    rcases List.mem_cons.mp hy with rfl | hy'
    · exact foldl_add_le l (fun z hz => h z (List.mem_cons_of_mem _ hz)) _ _ _
        (by omega)
    · refine foldl_add_slack l y hy' (fun z hz => h z (List.mem_cons_of_mem _ hz))
        k hk _ _ ?_
      have := h x (List.mem_cons_self _ _)
      omega

theorem lookup_mem {α : Type _} [BEq α] [LawfulBEq α] {l : List (α × β)}
    {k : α} {v : β} (h : List.lookup k l = some v) : (k, v) ∈ l := by
  induction l with
  | nil => simp [List.lookup] at h
  | cons p l ih =>
    obtain ⟨a, b⟩ := p
    rw [List.lookup] at h
    cases he : k == a with
    | true =>
      simp only [he] at h
      obtain rfl := Option.some.inj h
      obtain rfl : k = a := eq_of_beq he
      exact List.mem_cons_self _ _
    | false =>
      simp only [he] at h
      exact List.mem_cons_of_mem _ (ih h)

/-- The jump budget only shrinks as the reachable sets grow. -/
theorem chainBudget_anti {doc : Json} {u u' : Used}
    (h : ∀ t, listLE (getUsed u t) (getUsed u' t)) :
    chainBudget doc u' ≤ chainBudget doc u := by
  unfold chainBudget
  have innerCat : ∀ (o2 : Option Json) (t : String),
      (match o2 with
        | some catv =>
          List.foldl (fun (b : Nat) (nv : String × Json) =>
              b + if nv.1 ∈ getUsed u' t then 0 else sizeJ nv.2 + 2)
            0 (Json.jsEntries catv)
        | none => 0) ≤
      (match o2 with
        | some catv =>
          List.foldl (fun (b : Nat) (nv : String × Json) =>
              b + if nv.1 ∈ getUsed u t then 0 else sizeJ nv.2 + 2)
            0 (Json.jsEntries catv)
        | none => 0) := by
    intro o2 t
    cases o2 with
    | none => exact Nat.le_refl 0
    | some catv =>
      have hp : ∀ nv ∈ Json.jsEntries catv,
          (fun (nv : String × Json) =>
            if nv.1 ∈ getUsed u' t then 0 else sizeJ nv.2 + 2) nv ≤
          (fun (nv : String × Json) =>
            if nv.1 ∈ getUsed u t then 0 else sizeJ nv.2 + 2) nv := by
        intro nv _
        by_cases hm : nv.1 ∈ getUsed u t
        · simp [hm, listLE_mem (h t) hm]
        · simp only [if_neg hm]
          split <;> omega
      have := foldl_add_le (Json.jsEntries catv) hp 0 0 0 (Nat.le_refl 0)
      simpa using this
  have inner : ∀ (t : String),
      (match doc.lookup "components" with
        | some c =>
          match c.lookup t with
          | some catv =>
            List.foldl (fun (b : Nat) (nv : String × Json) =>
                b + if nv.1 ∈ getUsed u' t then 0 else sizeJ nv.2 + 2)
              0 (Json.jsEntries catv)
          | none => 0
        | none => 0) ≤
      (match doc.lookup "components" with
        | some c =>
          match c.lookup t with
          | some catv =>
            List.foldl (fun (b : Nat) (nv : String × Json) =>
                b + if nv.1 ∈ getUsed u t then 0 else sizeJ nv.2 + 2)
              0 (Json.jsEntries catv)
          | none => 0
        | none => 0) := by
    intro t
    cases doc.lookup "components" with
    | none => exact Nat.le_refl 0
    | some c => exact innerCat (c.lookup t) t
  simp only [COMPONENT_TYPES, List.foldl]
  have h1 := inner "schemas"
  have h2 := inner "responses"
  have h3 := inner "parameters"
  have h4 := inner "examples"
  have h5 := inner "requestBodies"
  have h6 := inner "headers"
  have h7 := inner "securitySchemes"
  omega

theorem mem_getUsed_addUsed_self (u : Used) {t : String}
    (ht : t ∈ COMPONENT_TYPES) (n : String) : n ∈ getUsed (addUsed u t n) t := by
  rw [getUsed_addUsed_self u ht n]
  split
  · assumption
  · simp

theorem getUsed_addUsed_sub (u : Used) (t n : String) :
    ∀ t' x, x ∈ getUsed (addUsed u t n) t' →
      x ∈ getUsed u t' ∨ (t' = t ∧ x = n) := by
  intro t' x hx
  by_cases htm : t ∈ COMPONENT_TYPES
  · by_cases he : t' = t
    · subst he
      rw [getUsed_addUsed_self u htm n] at hx
      split at hx
      · exact Or.inl hx
      · rcases List.mem_append.mp hx with h | h
        · exact Or.inl h
        · simp only [List.mem_singleton] at h
          exact Or.inr ⟨rfl, h⟩
    · rw [getUsed_addUsed_other u he n] at hx
      exact Or.inl hx
  · rw [addUsed_not_mem u htm n] at hx
    exact Or.inl hx

/-- Tracking a fresh name with an existing definition pays for that
definition's scan out of the jump budget. -/
theorem chainBudget_step {doc : Json} {u : Used} {ty n : String} {comp : Json}
    (hty : ty ∈ COMPONENT_TYPES) (hn : n ∉ getUsed u ty)
    (hc : componentAt doc ty n = some comp) :
    chainBudget doc (addUsed u ty n) + (sizeJ comp + 2) ≤ chainBudget doc u := by
  unfold componentAt at hc
  rcases hdc : doc.lookup "components" with _ | c
  · rw [hdc] at hc; exact absurd hc (by simp)
  · simp only [hdc] at hc
    rcases hct : c.lookup ty with _ | catv
    · simp only [hct] at hc
      exact absurd hc (by simp)
    · simp only [hct] at hc
      -- `catv.lookup n = some comp`, so `catv` is an object containing the
      -- entry `(n, comp)`.
      have hmem : (n, comp) ∈ Json.jsEntries catv := by
        cases catv with
        | jobj fs => exact lookup_mem hc
        | jnull => exact absurd hc (by simp [Json.lookup])
        | jbool b => exact absurd hc (by simp [Json.lookup])
        | jnum m => exact absurd hc (by simp [Json.lookup])
        | jstr s => exact absurd hc (by simp [Json.lookup])
        | jarr xs => exact absurd hc (by simp [Json.lookup])
      have hn' : n ∈ getUsed (addUsed u ty n) ty := mem_getUsed_addUsed_self u hty n
      -- pointwise bound and the slack at the tracked entry, for category `ty`
      have hp : ∀ nv ∈ Json.jsEntries catv,
          (fun (nv : String × Json) =>
            if nv.1 ∈ getUsed (addUsed u ty n) ty then 0 else sizeJ nv.2 + 2) nv ≤
          (fun (nv : String × Json) =>
            if nv.1 ∈ getUsed u ty then 0 else sizeJ nv.2 + 2) nv := by
        intro nv _
        by_cases hm : nv.1 ∈ getUsed u ty
        · have : nv.1 ∈ getUsed (addUsed u ty n) ty :=
            listLE_mem (listLE_getUsed_addUsed u ty ty n) hm
          simp [hm, this]
        · simp only [if_neg hm]
          split <;> omega
      have hslack := foldl_add_slack (f := fun (nv : String × Json) =>
          if nv.1 ∈ getUsed (addUsed u ty n) ty then 0 else sizeJ nv.2 + 2)
        (g := fun (nv : String × Json) =>
          if nv.1 ∈ getUsed u ty then 0 else sizeJ nv.2 + 2)
        (Json.jsEntries catv) (n, comp) hmem hp (sizeJ comp + 2)
        (by simp [hn', hn]) 0 0 (Nat.le_refl 0)
      -- pointwise bound for every category
      have hanti : ∀ (t : String),
          (match doc.lookup "components" with
            | some c' =>
              match c'.lookup t with
              | some catv' =>
                List.foldl (fun (b : Nat) (nv : String × Json) =>
                    b + if nv.1 ∈ getUsed (addUsed u ty n) t then 0
                        else sizeJ nv.2 + 2)
                  0 (Json.jsEntries catv')
              | none => 0
            | none => 0) ≤
          (match doc.lookup "components" with
            | some c' =>
              match c'.lookup t with
              | some catv' =>
                List.foldl (fun (b : Nat) (nv : String × Json) =>
                    b + if nv.1 ∈ getUsed u t then 0 else sizeJ nv.2 + 2)
                  0 (Json.jsEntries catv')
              | none => 0
            | none => 0) := by
        intro t
        simp only [hdc]
        rcases hct' : c.lookup t with _ | catv'
        · exact Nat.le_refl 0
        · have hp' : ∀ nv ∈ Json.jsEntries catv',
              (fun (nv : String × Json) =>
                if nv.1 ∈ getUsed (addUsed u ty n) t then 0
                else sizeJ nv.2 + 2) nv ≤
              (fun (nv : String × Json) =>
                if nv.1 ∈ getUsed u t then 0 else sizeJ nv.2 + 2) nv := by
            intro nv _
            by_cases hm : nv.1 ∈ getUsed u t
            · have : nv.1 ∈ getUsed (addUsed u ty n) t :=
                listLE_mem (listLE_getUsed_addUsed u ty t n) hm
              simp [hm, this]
            · simp only [if_neg hm]
              split <;> omega
          have := foldl_add_le (Json.jsEntries catv') hp' 0 0 0 (Nat.le_refl 0)
          simpa using this
      -- the slack bound for category `ty` itself
      have hslackty :
          (match doc.lookup "components" with
            | some c' =>
              match c'.lookup ty with
              | some catv' =>
                List.foldl (fun (b : Nat) (nv : String × Json) =>
                    b + if nv.1 ∈ getUsed (addUsed u ty n) ty then 0
                        else sizeJ nv.2 + 2)
                  0 (Json.jsEntries catv')
              | none => 0
            | none => 0) + (sizeJ comp + 2) ≤
          (match doc.lookup "components" with
            | some c' =>
              match c'.lookup ty with
              | some catv' =>
                List.foldl (fun (b : Nat) (nv : String × Json) =>
                    b + if nv.1 ∈ getUsed u ty then 0 else sizeJ nv.2 + 2)
                  0 (Json.jsEntries catv')
              | none => 0
            | none => 0) := by
        simp only [hdc, hct]
        simpa using hslack
      clear hslack hp hmem hc hn' hn
      unfold chainBudget
      simp only [COMPONENT_TYPES, List.foldl]
      simp only [COMPONENT_TYPES, List.mem_cons, List.mem_singleton] at hty
      have ha1 := hanti "schemas"
      have ha2 := hanti "responses"
      have ha3 := hanti "parameters"
      have ha4 := hanti "examples"
      have ha5 := hanti "requestBodies"
      have ha6 := hanti "headers"
      have ha7 := hanti "securitySchemes"
      rcases hty with rfl | rfl | rfl | rfl | rfl | rfl | rfl | hf
      · omega
      · omega
      · omega
      · omega
      · omega
      · omega
      · omega
      · exact absurd hf (by simp)

/-! ## Lemmas: sizes of subterms -/

theorem sizeJ_pos (j : Json) : 1 ≤ sizeJ j := by
  cases j <;> simp [sizeJ]

theorem sizeJF_mem : ∀ {fs : List (String × Json)} {k : String} {v : Json},
    (k, v) ∈ fs → sizeJ v ≤ sizeJF fs
  | f :: fs, k, v, h => by
    rcases List.mem_cons.mp h with h | h
    · obtain rfl := h
      simp only [sizeJF]
      omega
    · have := sizeJF_mem h
      simp only [sizeJF]
      omega

theorem sizeJL_mem : ∀ {xs : List Json} {x : Json}, x ∈ xs → sizeJ x ≤ sizeJL xs
  | y :: xs, x, h => by
    rcases List.mem_cons.mp h with rfl | h
    · simp only [sizeJL]; omega
    · have := sizeJL_mem h
      simp only [sizeJL]
      omega

theorem mem_enumFrom_snd {α : Type _} :
    ∀ {l : List α} {n : Nat} {p : Nat × α}, p ∈ List.enumFrom n l → p.2 ∈ l
  | x :: l, n, p, h => by
    rcases List.mem_cons.mp h with rfl | h
    · exact List.mem_cons_self _ _
    · exact List.mem_cons_of_mem _ (mem_enumFrom_snd h)

theorem mem_enum_snd {α : Type _} {l : List α} {p : Nat × α}
    (h : p ∈ l.enum) : p.2 ∈ l := mem_enumFrom_snd h

theorem sizeJ_valuesK {j : Json} (hj : j.isObjLike = true) {k : String}
    {v : Json} (h : (k, v) ∈ j.jsValuesK) : sizeJ v < sizeJ j := by
  cases j with
  | jobj fs =>
    have := @sizeJF_mem fs _ _ h
    simp only [sizeJ]
    omega
  | jarr xs =>
    simp only [Json.jsValuesK] at h
    obtain ⟨p, hp, he⟩ := List.mem_map.mp h
    have hx : p.2 ∈ xs := mem_enum_snd hp
    obtain rfl : p.2 = v := congrArg Prod.snd he
    have := sizeJL_mem hx
    simp only [sizeJ]
    omega
  | jnull => simp [Json.isObjLike] at hj
  | jbool b => simp [Json.isObjLike] at hj
  | jnum n => simp [Json.isObjLike] at hj
  | jstr s => simp [Json.isObjLike] at hj

theorem sizeJ_lookup {j : Json} {k : String} {v : Json}
    (h : j.lookup k = some v) : sizeJ v < sizeJ j := by
  cases j with
  | jobj fs =>
    have := sizeJF_mem (lookup_mem h)
    simp only [sizeJ]
    omega
  | jnull => simp [Json.lookup] at h
  | jbool b => simp [Json.lookup] at h
  | jnum n => simp [Json.lookup] at h
  | jstr s => simp [Json.lookup] at h
  | jarr xs => simp [Json.lookup] at h

theorem truthyField_lookup {j : Json} {k : String} {v : Json}
    (h : j.truthyField k = some v) : j.lookup k = some v ∧ v.truthy = true := by
  unfold Json.truthyField at h
  rcases hl : j.lookup k with _ | w
  · rw [hl] at h; exact absurd h (by simp)
  · simp only [hl] at h
    by_cases hw : w.truthy
    · rw [if_pos hw] at h
      obtain rfl := Option.some.inj h
      exact ⟨rfl, hw⟩
    · rw [if_neg hw] at h
      exact absurd h (by simp)

theorem sizeJ_truthyField {j : Json} {k : String} {v : Json}
    (h : j.truthyField k = some v) : sizeJ v < sizeJ j :=
  sizeJ_lookup (truthyField_lookup h).1

theorem sizeJ_componentAt {doc : Json} {t n : String} {c : Json}
    (h : componentAt doc t n = some c) : sizeJ c < sizeJ doc := by
  unfold componentAt at h
  rcases h1 : doc.lookup "components" with _ | x
  · rw [h1] at h; exact absurd h (by simp)
  · simp only [h1] at h
    rcases h2 : x.lookup t with _ | y
    · simp only [h2] at h
      exact absurd h (by simp)
    · simp only [h2] at h
      exact lt_trans (lt_trans (sizeJ_lookup h) (sizeJ_lookup h2)) (sizeJ_lookup h1)

theorem sizeJ_updateField_le {j : Json} {k : String} {v w : Json}
    (hl : j.lookup k = some v) (hw : sizeJ w ≤ sizeJ v) :
    sizeJ (Json.updateField j k w) ≤ sizeJ j := by
  cases j with
  | jobj fs =>
    simp only [Json.lookup] at hl
    simp only [Json.updateField, sizeJ]
    have : ∀ (fs : List (String × Json)), List.lookup k fs = some v →
        sizeJF (Json.updateField.go fs k w) ≤ sizeJF fs := by
      intro fs
      induction fs with
      | nil => intro h; simp [List.lookup] at h
      | cons f fs ih =>
        intro h
        obtain ⟨a, b⟩ := f
        rw [List.lookup] at h
        cases he : k == a with
        | true =>
          simp only [he] at h
          obtain rfl := Option.some.inj h
          obtain rfl : k = a := eq_of_beq he
          simp only [Json.updateField.go, if_pos rfl, sizeJF]
          omega
        | false =>
          simp only [he] at h
          have hne : a ≠ k := fun hea => by simp [hea] at he
          simp only [Json.updateField.go, if_neg hne, sizeJF]
          have := ih h
          omega
    have := this fs hl
    omega
  | jnull => simp [Json.lookup] at hl
  | jbool b => simp [Json.lookup] at hl
  | jnum n => simp [Json.lookup] at hl
  | jstr s => simp [Json.lookup] at hl
  | jarr xs => simp [Json.lookup] at hl

theorem dedupParamsGo_sublist :
    ∀ {ps : List Json} {seen : List String} {qs : List Json},
      dedupParamsGo ps seen = JsRes.ok qs → qs.Sublist ps
  | [], _, qs, h => by
    simp only [dedupParamsGo] at h
    obtain rfl := (JsRes.ok.inj h).symm
    exact List.Sublist.refl []
  | q :: ps, seen, qs, h => by
    rw [dedupParamsGo] at h
    split at h
    · simp at h
    · simp only at h
      split at h
      · exact (dedupParamsGo_sublist h).cons _
      · rcases jsres_bind_eq_ok h with ⟨r, hr, hok⟩
        obtain rfl := (JsRes.ok.inj hok).symm
        exact (dedupParamsGo_sublist hr).cons₂ _

/-! ## Lemmas: inheritance of well-shapedness -/

theorem beqJ_null_iff (q : Json) : beqJ q Json.jnull = true ↔ q = Json.jnull := by
  cases q <;> simp [beqJ]

theorem shapeOKF_mem : ∀ {fs : List (String × Json)} {k : String} {v : Json},
    shapeOKF fs = true → (k, v) ∈ fs → shapeOK v = true
  | f :: fs, k, v, h, hm => by
    rw [shapeOKF, Bool.and_eq_true] at h
    rcases List.mem_cons.mp hm with h' | h'
    · obtain rfl := h'
      exact h.1
    · exact shapeOKF_mem h.2 h'

theorem shapeOKL_mem : ∀ {xs : List Json} {x : Json},
    shapeOKL xs = true → x ∈ xs → shapeOK x = true
  | y :: xs, x, h, hm => by
    rw [shapeOKL, Bool.and_eq_true] at h
    rcases List.mem_cons.mp hm with rfl | h'
    · exact h.1
    · exact shapeOKL_mem h.2 h'

theorem shapeOK_obj (fs : List (String × Json))
    (h : shapeOK (Json.jobj fs) = true) : shapeOKF fs = true := by
  rw [shapeOK] at h
  simp only [Bool.and_eq_true] at h
  exact h.2

theorem shapeOK_valuesK {j : Json} (h : shapeOK j = true) {k : String}
    {v : Json} (hm : (k, v) ∈ j.jsValuesK) : shapeOK v = true := by
  cases j with
  | jobj fs => exact shapeOKF_mem (shapeOK_obj fs h) hm
  | jarr xs =>
    simp only [Json.jsValuesK] at hm
    obtain ⟨p, hp, he⟩ := List.mem_map.mp hm
    obtain rfl : p.2 = v := congrArg Prod.snd he
    exact shapeOKL_mem (by rw [shapeOK] at h; exact h) (mem_enum_snd hp)
  | jstr s =>
    simp only [Json.jsValuesK] at hm
    obtain ⟨p, _, he⟩ := List.mem_map.mp hm
    obtain rfl : Json.jstr (String.mk [p.2]) = v := congrArg Prod.snd he
    rfl
  | jnull => simp [Json.jsValuesK] at hm
  | jbool b => simp [Json.jsValuesK] at hm
  | jnum n => simp [Json.jsValuesK] at hm

theorem shapeOK_lookup {j : Json} (h : shapeOK j = true) {k : String}
    {v : Json} (hl : j.lookup k = some v) : shapeOK v = true := by
  cases j with
  | jobj fs => exact shapeOKF_mem (shapeOK_obj fs h) (lookup_mem hl)
  | jnull => simp [Json.lookup] at hl
  | jbool b => simp [Json.lookup] at hl
  | jnum n => simp [Json.lookup] at hl
  | jstr s => simp [Json.lookup] at hl
  | jarr xs => simp [Json.lookup] at hl

theorem shapeOK_truthyField {j : Json} (h : shapeOK j = true) {k : String}
    {v : Json} (hl : j.truthyField k = some v) : shapeOK v = true :=
  shapeOK_lookup h (truthyField_lookup hl).1

theorem shapeOK_componentAt {doc : Json} (h : shapeOK doc = true)
    {t n : String} {c : Json} (hc : componentAt doc t n = some c) :
    shapeOK c = true := by
  unfold componentAt at hc
  rcases h1 : doc.lookup "components" with _ | x
  · rw [h1] at hc; exact absurd hc (by simp)
  · simp only [h1] at hc
    rcases h2 : x.lookup t with _ | y
    · simp only [h2] at hc
      exact absurd hc (by simp)
    · simp only [h2] at hc
      exact shapeOK_lookup (shapeOK_lookup (shapeOK_lookup h h1) h2) hc

/-- The four node conditions guaranteed by `shapeOK` at an object. -/
theorem shapeOK_conds {j : Json} (h : shapeOK j = true) :
    (∀ v, j.truthyField "parameters" = some v →
       ∃ ps, v = Json.jarr ps ∧ ∀ q ∈ ps, q ≠ Json.jnull) ∧
    (∀ v, j.truthyField "security" = some v → v.isArr = true) ∧
    (∀ v, j.truthyField "content" = some v →
       ∀ c ∈ Json.jsValues v, c ≠ Json.jnull) ∧
    (∀ v, j.truthyField "tags" = some v → v.isArr = true) := by
  cases j with
  | jobj fs =>
    rw [shapeOK] at h
    simp only [Bool.and_eq_true] at h
    obtain ⟨⟨⟨⟨hp, hs⟩, hc⟩, ht⟩, _⟩ := h
    refine ⟨?_, ?_, ?_, ?_⟩
    · intro v hv
      rw [hv] at hp
      rcases v with _ | b | m | s | ps | gs
      · simp at hp
      · simp at hp
      · simp at hp
      · simp at hp
      · refine ⟨ps, rfl, fun q hq => ?_⟩
        rw [List.all_eq_true] at hp
        have := hp q hq
        simp only [Bool.not_eq_true'] at this
        exact fun he => by rw [he] at this; simp [beqJ] at this
      · simp at hp
    · intro v hv
      rw [hv] at hs
      exact hs
    · intro v hv
      rw [hv] at hc
      intro c hcm he
      rw [List.all_eq_true] at hc
      have := hc c hcm
      rw [he] at this
      simp [beqJ] at this
    · intro v hv
      rw [hv] at ht
      exact ht
  | jnull => exact ⟨fun v hv => by simp [Json.truthyField, Json.lookup] at hv,
      fun v hv => by simp [Json.truthyField, Json.lookup] at hv,
      fun v hv => by simp [Json.truthyField, Json.lookup] at hv,
      fun v hv => by simp [Json.truthyField, Json.lookup] at hv⟩
  | jbool b => exact ⟨fun v hv => by simp [Json.truthyField, Json.lookup] at hv,
      fun v hv => by simp [Json.truthyField, Json.lookup] at hv,
      fun v hv => by simp [Json.truthyField, Json.lookup] at hv,
      fun v hv => by simp [Json.truthyField, Json.lookup] at hv⟩
  | jnum n => exact ⟨fun v hv => by simp [Json.truthyField, Json.lookup] at hv,
      fun v hv => by simp [Json.truthyField, Json.lookup] at hv,
      fun v hv => by simp [Json.truthyField, Json.lookup] at hv,
      fun v hv => by simp [Json.truthyField, Json.lookup] at hv⟩
  | jstr s => exact ⟨fun v hv => by simp [Json.truthyField, Json.lookup] at hv,
      fun v hv => by simp [Json.truthyField, Json.lookup] at hv,
      fun v hv => by simp [Json.truthyField, Json.lookup] at hv,
      fun v hv => by simp [Json.truthyField, Json.lookup] at hv⟩
  | jarr xs => exact ⟨fun v hv => by simp [Json.truthyField, Json.lookup] at hv,
      fun v hv => by simp [Json.truthyField, Json.lookup] at hv,
      fun v hv => by simp [Json.truthyField, Json.lookup] at hv,
      fun v hv => by simp [Json.truthyField, Json.lookup] at hv⟩

/-! ## Lemmas: the HProp toolkit -/

theorem HProp_mono_bound {doc : Json} {fuel b b' : Nat} {sh : Prop}
    {f : ScanSt → JsRes ScanSt} (hb : b ≤ b') (h : HProp doc fuel b sh f) :
    HProp doc fuel b' sh f :=
  ⟨h.1, fun s hs => h.2.1 s (by omega), h.2.2⟩

theorem HProp_of_pure {doc : Json} {fuel b : Nat} {sh : Prop} {g : ScanSt → ScanSt}
    (h : ∀ s, MStep doc s (g s)) : HProp doc fuel b sh (fun s => JsRes.ok (g s)) :=
  ⟨fun s s' hs => (JsRes.ok.inj hs) ▸ h s, fun _ _ => by simp, fun _ _ _ => by simp⟩

theorem HProp_id {doc : Json} {fuel b : Nat} {sh : Prop} :
    HProp doc fuel b sh (fun s => JsRes.ok s) :=
  HProp_of_pure (fun s => MStep_refl doc s)

theorem HProp_bind {doc : Json} {fuel b : Nat} {sh : Prop}
    {f g : ScanSt → JsRes ScanSt} (hf : HProp doc fuel b sh f)
    (hg : HProp doc fuel b sh g) :
    HProp doc fuel b sh (fun s => JsRes.bind (f s) g) := by
  refine ⟨?_, ?_, ?_⟩
  · intro s s' hs
    rcases jsres_bind_eq_ok hs with ⟨s1, h1, h2⟩
    exact MStep_trans (hf.1 s s1 h1) (hg.1 s1 s' h2)
  · intro s hs
    refine jsres_bind_ne_spin (hf.2.1 s hs) ?_
    intro s1 h1
    refine hg.2.1 s1 ?_
    have := @chainBudget_anti doc _ _ ((hf.1 s s1 h1).1.1)
    omega
  · intro s m hsh
    exact jsres_bind_ne_err (fun t => hf.2.2 s t hsh)
      (fun s1 _ t => hg.2.2 s1 t hsh) m

theorem HProp_foldlM {doc : Json} {fuel b : Nat} {sh : Prop} {α : Type _}
    {g : ScanSt → α → JsRes ScanSt} :
    ∀ {l : List α}, (∀ a ∈ l, HProp doc fuel b sh (fun s => g s a)) →
      HProp doc fuel b sh (fun s => List.foldlM g s l)
  | [], _ => by
    simpa [List.foldlM] using (@HProp_id doc fuel b sh)
  | a :: l, h => by
    have hh := h a (List.mem_cons_self _ _)
    have ht := HProp_foldlM (l := l) (fun x hx => h x (List.mem_cons_of_mem _ hx))
    have := @HProp_bind doc fuel b sh
      (fun s => g s a) (fun s => List.foldlM g s l) hh ht
    simpa [List.foldlM_cons] using this

/-! ## Lemmas: elementary MSteps -/

theorem MStep_addSeen {doc : Json} {st : ScanSt} {p : JPath}
    (hp : p ∉ st.seen) : MStep doc st (addSeen p st) := by
  refine ⟨⟨fun t => listLE_refl _, listLE_append _ _, listLE_refl _,
    listLE_refl _⟩, ?_, ?_⟩
  · intro hi
    refine ⟨hi.1, ?_⟩
    show (st.seen ++ [p]).Nodup
    rw [List.nodup_append]
    refine ⟨hi.2, List.nodup_singleton p, ?_⟩
    intro x hx hxp
    simp only [List.mem_singleton] at hxp
    exact hp (hxp ▸ hx)
  · intro t n hmem hnot
    exact absurd hmem hnot

theorem MStep_addWarning (doc : Json) (st : ScanSt) (w : String) :
    MStep doc st (addWarning w st) :=
  ⟨⟨fun _ => listLE_refl _, listLE_refl _, listLE_refl _, listLE_append _ _⟩,
   id, fun _ _ hmem hnot => absurd hmem hnot⟩

theorem MStep_addScheme (doc : Json) (st : ScanSt) (n : String) :
    MStep doc st (addScheme st n) := by
  refine ⟨⟨fun t => listLE_getUsed_addUsed _ _ _ _, listLE_refl _,
    listLE_refl _, listLE_refl _⟩, ?_, ?_⟩
  · intro hi
    exact ⟨nodup_addUsed _ _ _ hi.1, hi.2⟩
  · intro t m hmem hnot
    rcases getUsed_addUsed_sub st.used "securitySchemes" n t m hmem with h | h
    · exact absurd h hnot
    · exact Or.inl h.1

theorem MStep_foldl_pure {doc : Json} {α : Type _} {g : ScanSt → α → ScanSt} :
    ∀ {l : List α}, (∀ s a, a ∈ l → MStep doc s (g s a)) →
      ∀ s, MStep doc s (List.foldl g s l)
  | [], _, s => MStep_refl doc s
  | a :: l, h, s => by
    rw [List.foldl_cons]
    exact MStep_trans (h s a (List.mem_cons_self _ _))
      (MStep_foldl_pure (fun s' x hx => h s' x (List.mem_cons_of_mem _ hx)) _)

theorem sizeJ_valuesK_le {j : Json} {k : String} {v : Json}
    (h : (k, v) ∈ j.jsValuesK) : sizeJ v ≤ sizeJ j := by
  cases j with
  | jobj fs =>
    have := @sizeJF_mem fs _ _ h
    simp only [sizeJ]; omega
  | jarr xs =>
    simp only [Json.jsValuesK] at h
    obtain ⟨p, hp, he⟩ := List.mem_map.mp h
    obtain rfl : p.2 = v := congrArg Prod.snd he
    have := sizeJL_mem (mem_enum_snd hp)
    simp only [sizeJ]; omega
  | jstr s =>
    simp only [Json.jsValuesK] at h
    obtain ⟨p, hp, he⟩ := List.mem_map.mp h
    obtain rfl : Json.jstr (String.mk [p.2]) = v := congrArg Prod.snd he
    have hmem : p.2 ∈ s.toList := mem_enum_snd hp
    have hlen : 1 ≤ s.toList.length := by
      cases hs : s.toList with
      | nil => rw [hs] at hmem; simp at hmem
      | cons c cs => simp
    show 1 + String.length (String.mk [p.2]) ≤ 1 + s.length
    have h2 : String.length (String.mk [p.2]) = 1 := rfl
    have h3 : s.length = s.toList.length := rfl
    omega
  | jnull => simp [Json.jsValuesK] at h
  | jbool b => simp [Json.jsValuesK] at h
  | jnum n => simp [Json.jsValuesK] at h

/-! ## Lemmas: HProp for each handler -/

theorem securityHandler_hprop {doc : Json} {fuel b : Nat} {sh : Prop} {j : Json}
    (hsh : sh → shapeOK j = true) : HProp doc fuel b sh (securityHandler j) := by
  unfold securityHandler
  rcases hv : j.truthyField "security" with _ | v
  · exact HProp_id
  · cases v with
    | jarr reqs =>
      exact HProp_of_pure (fun s => MStep_foldl_pure
        (fun s' req _ => by
          split
          · exact MStep_foldl_pure (fun s'' n _ => MStep_addScheme doc s'' n) s'
          · exact MStep_refl doc s') s)
    | jnull =>
      refine ⟨fun s s' hs => by simp at hs, fun s _ => by simp, fun s m hs => ?_⟩
      have := ((shapeOK_conds (hsh hs)).2.1) _ hv
      simp [Json.isArr] at this
    | jbool bb =>
      refine ⟨fun s s' hs => by simp at hs, fun s _ => by simp, fun s m hs => ?_⟩
      have := ((shapeOK_conds (hsh hs)).2.1) _ hv
      simp [Json.isArr] at this
    | jnum nn =>
      refine ⟨fun s s' hs => by simp at hs, fun s _ => by simp, fun s m hs => ?_⟩
      have := ((shapeOK_conds (hsh hs)).2.1) _ hv
      simp [Json.isArr] at this
    | jstr ss =>
      refine ⟨fun s s' hs => by simp at hs, fun s _ => by simp, fun s m hs => ?_⟩
      have := ((shapeOK_conds (hsh hs)).2.1) _ hv
      simp [Json.isArr] at this
    | jobj fs =>
      refine ⟨fun s s' hs => by simp at hs, fun s _ => by simp, fun s m hs => ?_⟩
      have := ((shapeOK_conds (hsh hs)).2.1) _ hv
      simp [Json.isArr] at this

theorem truthy_of_isObjLike {j : Json} (h : j.isObjLike = true) :
    j.truthy = true := by
  cases j <;> simp_all [Json.isObjLike, Json.truthy]

theorem trackCG_hprop {doc : Json} {fuel : Nat} {sh : Prop}
    {recurse : ScanSt → JPath → Json → JsRes ScanSt}
    (hrec : RecOK doc fuel sh recurse) (hshdoc : sh → shapeOK doc = true)
    {ty : String} (hty : ty ∈ COMPONENT_TYPES) (name : String) {b : Nat} :
    HProp doc fuel b sh (trackCG doc recurse ty name) := by
  have hstep : ∀ s : ScanSt, name ∉ getUsed s.used ty →
      StLE s { s with used := addUsed s.used ty name } ∧
      (StInv s → StInv { s with used := addUsed s.used ty name }) := by
    intro s _
    exact ⟨⟨fun t => listLE_getUsed_addUsed _ _ _ _, listLE_refl _,
        listLE_refl _, listLE_refl _⟩,
      fun hi => ⟨nodup_addUsed _ _ _ hi.1, hi.2⟩⟩
  refine ⟨?_, ?_, ?_⟩
  · -- success: an MStep
    intro s s' hs
    unfold trackCG at hs
    split at hs
    · exact (JsRes.ok.inj hs) ▸ MStep_refl doc s
    · next hnm =>
      rcases hc : componentAt doc ty name with _ | c
      · simp only [hc] at hs
        obtain rfl := JsRes.ok.inj hs
        refine ⟨(hstep s hnm).1, (hstep s hnm).2, ?_⟩
        intro t x hx hnx
        rcases getUsed_addUsed_sub s.used ty name t x hx with h | ⟨rfl, rfl⟩
        · exact absurd h hnx
        · exact Or.inr fun bo hbo _ => absurd (hc ▸ hbo) (by simp)
      · simp only [hc] at hs
        by_cases htr : c.truthy
        · rw [if_pos htr] at hs
          have hm := (hrec { s with used := addUsed s.used ty name }
            (componentPath ty name) c).1 s' hs
          refine ⟨StLE_trans (hstep s hnm).1 hm.1.1,
            fun hi => hm.1.2.1 ((hstep s hnm).2 hi), ?_⟩
          intro t x hx hnx
          by_cases hx1 : x ∈ getUsed (addUsed s.used ty name) t
          · rcases getUsed_addUsed_sub s.used ty name t x hx1 with h | ⟨rfl, rfl⟩
            · exact absurd h hnx
            · refine Or.inr fun bo hbo hol => ?_
              obtain rfl : bo = c := by
                rw [hc] at hbo; exact (Option.some.inj hbo).symm
              exact hm.2 hol
          · exact hm.1.2.2 t x hx hx1
        · rw [if_neg htr] at hs
          obtain rfl := JsRes.ok.inj hs
          refine ⟨(hstep s hnm).1, (hstep s hnm).2, ?_⟩
          intro t x hx hnx
          rcases getUsed_addUsed_sub s.used ty name t x hx with h | ⟨rfl, rfl⟩
          · exact absurd h hnx
          · refine Or.inr fun bo hbo hol => ?_
            obtain rfl : bo = c := by
              rw [hc] at hbo; exact (Option.some.inj hbo).symm
            exact absurd (truthy_of_isObjLike hol) (by simp [htr])
  · -- progress
    intro s hfuel
    by_cases hnm : name ∈ getUsed s.used ty
    · unfold trackCG; rw [if_pos hnm]; simp
    · rcases hc : componentAt doc ty name with _ | c
      · unfold trackCG
        rw [if_neg hnm]
        simp only [hc]
        simp
      · by_cases htr : c.truthy
        · unfold trackCG
          rw [if_neg hnm]
          simp only [hc]
          rw [if_pos htr]
          refine (hrec _ _ _).2.1 ?_
          show fuel > sizeJ c + chainBudget doc (addUsed s.used ty name)
          have := chainBudget_step (u := s.used) hty hnm hc
          omega
        · unfold trackCG
          rw [if_neg hnm]
          simp only [hc]
          rw [if_neg htr]
          simp
  · -- no exception on well-shaped input
    intro s m hsh
    by_cases hnm : name ∈ getUsed s.used ty
    · unfold trackCG; rw [if_pos hnm]; simp
    · rcases hc : componentAt doc ty name with _ | c
      · unfold trackCG
        rw [if_neg hnm]
        simp only [hc]
        simp
      · by_cases htr : c.truthy
        · unfold trackCG
          rw [if_neg hnm]
          simp only [hc]
          rw [if_pos htr]
          exact (hrec _ _ _).2.2 hsh (shapeOK_componentAt (hshdoc hsh) hc) m
        · unfold trackCG
          rw [if_neg hnm]
          simp only [hc]
          rw [if_neg htr]
          simp

theorem recurse_hprop {doc : Json} {fuel : Nat} {sh : Prop}
    {recurse : ScanSt → JPath → Json → JsRes ScanSt}
    (hrec : RecOK doc fuel sh recurse) {b : Nat} {p' : JPath} {j' : Json}
    (hsz : sizeJ j' ≤ b) (hshj : sh → shapeOK j' = true) :
    HProp doc fuel b sh (fun s => recurse s p' j') :=
  ⟨fun s s' h => ((hrec s p' j').1 s' h).1,
   fun s hf => (hrec s p' j').2.1 (by omega),
   fun s m hsh => (hrec s p' j').2.2 hsh (hshj hsh) m⟩

theorem refHandler_hprop {doc : Json} {fuel b : Nat} {sh : Prop}
    {track : String → String → ScanSt → JsRes ScanSt}
    (htrack : ∀ ty name, ty ∈ COMPONENT_TYPES →
      HProp doc fuel b sh (track ty name)) (j : Json) :
    HProp doc fuel b sh (refHandler track j) := by
  rcases hr : j.truthyField "$ref" with _ | r
  · unfold refHandler
    simp only [hr]
    exact HProp_id
  · rcases hu : jsUrlResolve (Json.jsToStr r) with _ | pr
    · unfold refHandler
      simp only [hr, hu]
      exact HProp_of_pure (fun s => MStep_addWarning doc s _)
    · by_cases hp : pr.1 = "/components"
      · rcases hg2 : (splitStr pr.2 '/').get? 2 with _ | ty
        · unfold refHandler
          simp only [hr, hu, if_pos hp, hg2]
          exact HProp_id
        · by_cases hty : ty ∈ COMPONENT_TYPES
          · unfold refHandler
            simp only [hr, hu, if_pos hp, hg2, if_pos hty]
            exact htrack ty _ hty
          · unfold refHandler
            simp only [hr, hu, if_pos hp, hg2, if_neg hty]
            exact HProp_id
      · unfold refHandler
        simp only [hr, hu, if_neg hp]
        exact HProp_id

theorem compHandler_hprop {doc : Json} {fuel b : Nat} {sh : Prop}
    {recurse : ScanSt → JPath → Json → JsRes ScanSt}
    (hrec : RecOK doc fuel sh recurse) (p : JPath) {j : Json}
    (hb : sizeJ j ≤ b + 1) (hshj : sh → shapeOK j = true) :
    HProp doc fuel b sh (compHandler recurse p j) := by
  unfold compHandler
  refine HProp_foldlM ?_
  intro prop _
  rcases hl : j.lookup prop with _ | v
  · exact HProp_id
  · cases v with
    | jarr xs =>
      refine HProp_foldlM ?_
      intro ix hix
      refine recurse_hprop hrec ?_ ?_
      · have h1 := sizeJL_mem (mem_enum_snd hix)
        have h2 := sizeJ_lookup hl
        simp only [sizeJ] at h2
        omega
      · intro hs
        exact shapeOKL_mem (by
          have := shapeOK_lookup (hshj hs) hl
          rw [shapeOK] at this
          exact this) (mem_enum_snd hix)
    | jnull => exact HProp_id
    | jbool bb => exact HProp_id
    | jnum nn => exact HProp_id
    | jstr ss => exact HProp_id
    | jobj fs => exact HProp_id

theorem propsHandler_hprop {doc : Json} {fuel b : Nat} {sh : Prop}
    {recurse : ScanSt → JPath → Json → JsRes ScanSt}
    (hrec : RecOK doc fuel sh recurse) (p : JPath) {j : Json}
    (hb : sizeJ j ≤ b + 1) (hshj : sh → shapeOK j = true) :
    HProp doc fuel b sh (propsHandler recurse p j) := by
  unfold propsHandler
  rcases hl : j.truthyField "properties" with _ | pv
  · exact HProp_id
  · refine HProp_foldlM ?_
    intro kv hkv
    refine recurse_hprop hrec ?_ ?_
    · have h1 := sizeJ_valuesK_le hkv
      have h2 := sizeJ_truthyField hl
      omega
    · intro hs
      exact shapeOK_valuesK (shapeOK_truthyField (hshj hs) hl) hkv

theorem fieldHandler_hprop {doc : Json} {fuel b : Nat} {sh : Prop}
    {recurse : ScanSt → JPath → Json → JsRes ScanSt}
    (hrec : RecOK doc fuel sh recurse) (key : String) (p : JPath) {j : Json}
    (hb : sizeJ j ≤ b + 1) (hshj : sh → shapeOK j = true) :
    HProp doc fuel b sh (fieldHandler recurse key p j) := by
  unfold fieldHandler
  rcases hl : j.truthyField key with _ | v
  · exact HProp_id
  · refine recurse_hprop hrec ?_ ?_
    · have := sizeJ_truthyField hl
      omega
    · intro hs
      exact shapeOK_truthyField (hshj hs) hl

theorem sizeJ_valuesK_strict {j : Json} {k : String} {v : Json}
    (h : (k, v) ∈ j.jsValuesK) (hv : ∀ s, v ≠ Json.jstr s) :
    sizeJ v < sizeJ j := by
  cases j with
  | jobj fs => exact sizeJ_valuesK (by simp [Json.isObjLike]) h
  | jarr xs => exact sizeJ_valuesK (by simp [Json.isObjLike]) h
  | jstr s =>
    simp only [Json.jsValuesK] at h
    obtain ⟨p, _, he⟩ := List.mem_map.mp h
    exact absurd (congrArg Prod.snd he).symm (hv _)
  | jnull => simp [Json.jsValuesK] at h
  | jbool b => simp [Json.jsValuesK] at h
  | jnum n => simp [Json.jsValuesK] at h

theorem paramElemStep_hprop {doc : Json} {fuel b : Nat} {sh : Prop}
    {recurse : ScanSt → JPath → Json → JsRes ScanSt}
    (hrec : RecOK doc fuel sh recurse) (pp : JPath) {param : Json}
    (hsz : sizeJ param ≤ b) (hshp : sh → shapeOK param = true)
    (hnn : sh → param ≠ Json.jnull) :
    HProp doc fuel b sh (paramElemStep recurse pp param) := by
  unfold paramElemStep
  cases hq : beqJ param Json.jnull with
  | true =>
    refine ⟨fun s s' hs => by simp at hs, fun s _ => by simp, fun s m hsh => ?_⟩
    exact absurd ((beqJ_null_iff param).mp hq) (hnn hsh)
  | false =>
    refine HProp_bind ?_ ?_
    · rcases hr : param.truthyField "$ref" with _ | r
      · exact HProp_id
      · exact recurse_hprop hrec hsz hshp
    · rcases hsv : param.truthyField "schema" with _ | sv
      · exact HProp_id
      · refine recurse_hprop hrec ?_ ?_
        · have := sizeJ_truthyField hsv
          omega
        · intro hs
          exact shapeOK_truthyField (hshp hs) hsv

theorem paramsHandler_hprop {doc : Json} {fuel b : Nat} {sh : Prop}
    {recurse : ScanSt → JPath → Json → JsRes ScanSt}
    (hrec : RecOK doc fuel sh recurse) (p : JPath) {j : Json}
    (hb : sizeJ j ≤ b + 1) (hshj : sh → shapeOK j = true) :
    HProp doc fuel b sh (paramsHandler recurse p j) := by
  rcases hl : j.truthyField "parameters" with _ | v
  · unfold paramsHandler
    simp only [hl]
    exact HProp_id
  · cases v with
    | jarr ps =>
      unfold paramsHandler
      simp only [hl]
      refine HProp_foldlM ?_
      intro ip hip
      refine paramElemStep_hprop hrec _ ?_ ?_ ?_
      · have h1 := sizeJL_mem (mem_enum_snd hip)
        have h2 := sizeJ_truthyField hl
        simp only [sizeJ] at h2
        omega
      · intro hs
        exact shapeOKL_mem (by
          have := shapeOK_truthyField (hshj hs) hl
          rw [shapeOK] at this
          exact this) (mem_enum_snd hip)
      · intro hs
        obtain ⟨ps', hps', hnn⟩ := (shapeOK_conds (hshj hs)).1 _ hl
        obtain rfl : ps' = ps := by
          injection hps' with h'
          exact h'.symm
        exact hnn _ (mem_enum_snd hip)
    | jnull =>
      refine ⟨fun s s' hs => ?_, fun s _ => ?_, fun s m hsh => ?_⟩
      · unfold paramsHandler at hs
        simp only [hl] at hs
        simp at hs
      · unfold paramsHandler
        simp only [hl]
        simp
      · obtain ⟨ps', hps', _⟩ := (shapeOK_conds (hshj hsh)).1 _ hl
        simp at hps'
    | jbool bb =>
      refine ⟨fun s s' hs => ?_, fun s _ => ?_, fun s m hsh => ?_⟩
      · unfold paramsHandler at hs
        simp only [hl] at hs
        simp at hs
      · unfold paramsHandler
        simp only [hl]
        simp
      · obtain ⟨ps', hps', _⟩ := (shapeOK_conds (hshj hsh)).1 _ hl
        simp at hps'
    | jnum nn =>
      refine ⟨fun s s' hs => ?_, fun s _ => ?_, fun s m hsh => ?_⟩
      · unfold paramsHandler at hs
        simp only [hl] at hs
        simp at hs
      · unfold paramsHandler
        simp only [hl]
        simp
      · obtain ⟨ps', hps', _⟩ := (shapeOK_conds (hshj hsh)).1 _ hl
        simp at hps'
    | jstr ss =>
      refine ⟨fun s s' hs => ?_, fun s _ => ?_, fun s m hsh => ?_⟩
      · unfold paramsHandler at hs
        simp only [hl] at hs
        simp at hs
      · unfold paramsHandler
        simp only [hl]
        simp
      · obtain ⟨ps', hps', _⟩ := (shapeOK_conds (hshj hsh)).1 _ hl
        simp at hps'
    | jobj fs =>
      refine ⟨fun s s' hs => ?_, fun s _ => ?_, fun s m hsh => ?_⟩
      · unfold paramsHandler at hs
        simp only [hl] at hs
        simp at hs
      · unfold paramsHandler
        simp only [hl]
        simp
      · obtain ⟨ps', hps', _⟩ := (shapeOK_conds (hshj hsh)).1 _ hl
        simp at hps'

theorem contentHandler_hprop {doc : Json} {fuel b : Nat} {sh : Prop}
    {recurse : ScanSt → JPath → Json → JsRes ScanSt}
    (hrec : RecOK doc fuel sh recurse) (p : JPath) {j : Json}
    (hb : sizeJ j ≤ b + 1) (hshj : sh → shapeOK j = true) :
    HProp doc fuel b sh (contentHandler recurse p j) := by
  rcases hl : j.truthyField "content" with _ | cv
  · unfold contentHandler
    simp only [hl]
    exact HProp_id
  · unfold contentHandler
    simp only [hl]
    refine HProp_foldlM ?_
    intro kc hkc
    cases hq : beqJ kc.2 Json.jnull with
    | true =>
      refine ⟨fun s s' hs => by simp [hq] at hs, fun s _ => by simp [hq],
        fun s m hsh => ?_⟩
      have := (shapeOK_conds (hshj hsh)).2.2.1 _ hl kc.2
        (by exact List.mem_map_of_mem Prod.snd hkc)
      exact absurd ((beqJ_null_iff kc.2).mp hq) this
    | false =>
      rcases hsv : kc.2.truthyField "schema" with _ | sv
      · exact HProp_id
      · refine recurse_hprop hrec ?_ ?_
        · have h1 := sizeJ_truthyField hsv
          have h2 := sizeJ_valuesK_le hkc
          have h3 := sizeJ_truthyField hl
          omega
        · intro hs
          exact shapeOK_truthyField
            (shapeOK_valuesK (shapeOK_truthyField (hshj hs) hl) hkc) hsv

theorem dtoHandler_hprop {doc : Json} {fuel b : Nat} {sh : Prop}
    {track : String → String → ScanSt → JsRes ScanSt}
    (htrack : ∀ ty name, ty ∈ COMPONENT_TYPES →
      HProp doc fuel b sh (track ty name)) (j : Json) :
    HProp doc fuel b sh (dtoHandler track j) := by
  rcases hl : j.truthyField "x-responseDTO" with _ | v
  · unfold dtoHandler
    simp only [hl]
    exact HProp_id
  · unfold dtoHandler
    simp only [hl]
    exact htrack "schemas" _ (by simp [COMPONENT_TYPES])

theorem genericHandler_hprop {doc : Json} {fuel b : Nat} {sh : Prop}
    {recurse : ScanSt → JPath → Json → JsRes ScanSt}
    (hrec : RecOK doc fuel sh recurse) (p : JPath) {j : Json}
    (hb : sizeJ j ≤ b + 1) (hshj : sh → shapeOK j = true) :
    HProp doc fuel b sh (genericHandler recurse p j) := by
  unfold genericHandler
  refine HProp_foldlM ?_
  intro kv hkv
  obtain ⟨k1, v1⟩ := kv
  cases v1 with
  | jarr xs =>
    refine HProp_foldlM ?_
    intro ie hie
    refine recurse_hprop hrec ?_ ?_
    · have h1 := sizeJL_mem (mem_enum_snd hie)
      have h2 : sizeJ (Json.jarr xs) < sizeJ j := by
        refine sizeJ_valuesK_strict hkv ?_
        intro s he
        simp at he
      simp only [sizeJ] at h2
      omega
    · intro hs
      refine shapeOKL_mem ?_ (mem_enum_snd hie)
      have := shapeOK_valuesK (hshj hs) hkv
      rw [shapeOK] at this
      exact this
  | jobj fs =>
    refine recurse_hprop hrec ?_ ?_
    · show sizeJ (Json.jobj fs) ≤ b
      have h2 : sizeJ (Json.jobj fs) < sizeJ j := by
        refine sizeJ_valuesK_strict hkv ?_
        intro s he
        simp at he
      omega
    · intro hs
      exact shapeOK_valuesK (hshj hs) hkv
  | jnull =>
    refine recurse_hprop hrec ?_ ?_
    · show sizeJ Json.jnull ≤ b
      have h2 : sizeJ Json.jnull < sizeJ j := by
        refine sizeJ_valuesK_strict hkv ?_
        intro s he
        simp at he
      omega
    · intro _
      rfl
  | jbool bb => exact HProp_id
  | jnum nn => exact HProp_id
  | jstr ss => exact HProp_id

theorem RecOK_mono_sh {doc : Json} {fuel : Nat} {sh sh' : Prop}
    {f : ScanSt → JPath → Json → JsRes ScanSt} (him : sh' → sh)
    (h : RecOK doc fuel sh f) : RecOK doc fuel sh' f := by
  intro st p j
  exact ⟨(h st p j).1, (h st p j).2.1,
    fun hs hj m => (h st p j).2.2 (him hs) hj m⟩

/-- The master lemma of the scanner: at every fuel level, `collectRefs`
satisfies the success, progress, and no-exception postconditions packaged in
`RecOK`. -/
theorem collectRefs_master (doc : Json) (sh : Prop)
    (hshdoc : sh → shapeOK doc = true) :
    ∀ fuel : Nat, RecOK doc fuel sh (fun st p j => collectRefs doc fuel st p j) := by
  intro fuel
  induction fuel with
  | zero =>
    intro st p j
    refine ⟨fun st' h => by simp [collectRefs] at h, fun hf => ?_,
      fun _ _ m h => by simp [collectRefs] at h⟩
    have := sizeJ_pos j
    omega
  | succ fuel ih =>
    intro st p j
    by_cases hobj : j.isObjLike = true
    case neg =>
      have he : collectRefs doc (fuel + 1) st p j = JsRes.ok st := by
        rw [collectRefs]
        rw [if_pos (by simpa using hobj)]
      refine ⟨fun st' h => ?_, fun _ => by simp only [he]; simp,
        fun _ _ m => by simp only [he]; simp⟩
      simp only [he] at h
      obtain rfl := JsRes.ok.inj h
      exact ⟨MStep_refl doc st, fun ho => absurd ho hobj⟩
    case pos =>
      by_cases hseen : p ∈ st.seen
      · have he : collectRefs doc (fuel + 1) st p j = JsRes.ok st := by
          rw [collectRefs]
          rw [if_neg (by simpa using hobj), if_pos hseen]
        refine ⟨fun st' h => ?_, fun _ => by simp only [he]; simp,
          fun _ _ m => by simp only [he]; simp⟩
        simp only [he] at h
        obtain rfl := JsRes.ok.inj h
        exact ⟨MStep_refl doc st, fun _ => hseen⟩
      · -- the scanning branch
        have hb1 : sizeJ j ≤ (sizeJ j - 1) + 1 := by
          have := sizeJ_pos j
          omega
        have hrec' : RecOK doc fuel (sh ∧ shapeOK j = true)
            (fun st p j => collectRefs doc fuel st p j) :=
          RecOK_mono_sh And.left ih
        have hshdoc' : (sh ∧ shapeOK j = true) → shapeOK doc = true :=
          fun hs => hshdoc hs.1
        have hshj' : (sh ∧ shapeOK j = true) → shapeOK j = true := And.right
        have htrack : ∀ ty name, ty ∈ COMPONENT_TYPES →
            HProp doc fuel (sizeJ j - 1) (sh ∧ shapeOK j = true)
              (trackCG doc (fun st p j => collectRefs doc fuel st p j) ty name) :=
          fun ty name hty => trackCG_hprop hrec' hshdoc' hty name
        have hcomp : HProp doc fuel (sizeJ j - 1) (sh ∧ shapeOK j = true)
            (fun s => JsRes.bind
              (refHandler (trackCG doc (fun st p j => collectRefs doc fuel st p j)) j s)
              (fun s => JsRes.bind
                (compHandler (fun st p j => collectRefs doc fuel st p j) p j s)
              (fun s => JsRes.bind
                (propsHandler (fun st p j => collectRefs doc fuel st p j) p j s)
              (fun s => JsRes.bind
                (fieldHandler (fun st p j => collectRefs doc fuel st p j) "items" p j s)
              (fun s => JsRes.bind
                (fieldHandler (fun st p j => collectRefs doc fuel st p j)
                  "additionalProperties" p j s)
              (fun s => JsRes.bind
                (paramsHandler (fun st p j => collectRefs doc fuel st p j) p j s)
              (fun s => JsRes.bind
                (contentHandler (fun st p j => collectRefs doc fuel st p j) p j s)
              (fun s => JsRes.bind (securityHandler j s)
              (fun s => JsRes.bind
                (dtoHandler (trackCG doc (fun st p j => collectRefs doc fuel st p j)) j s)
              (fun s =>
                genericHandler (fun st p j => collectRefs doc fuel st p j) p j s)))))))))) := by
          refine HProp_bind (refHandler_hprop htrack j) ?_
          refine HProp_bind (compHandler_hprop hrec' p hb1 hshj') ?_
          refine HProp_bind (propsHandler_hprop hrec' p hb1 hshj') ?_
          refine HProp_bind (fieldHandler_hprop hrec' "items" p hb1 hshj') ?_
          refine HProp_bind
            (fieldHandler_hprop hrec' "additionalProperties" p hb1 hshj') ?_
          refine HProp_bind (paramsHandler_hprop hrec' p hb1 hshj') ?_
          refine HProp_bind (contentHandler_hprop hrec' p hb1 hshj') ?_
          refine HProp_bind (securityHandler_hprop hshj') ?_
          refine HProp_bind (dtoHandler_hprop htrack j) ?_
          exact genericHandler_hprop hrec' p hb1 hshj'
        have hbody : collectRefs doc (fuel + 1) st p j =
            JsRes.bind
              (refHandler (trackCG doc (fun st p j => collectRefs doc fuel st p j)) j
                (addSeen p st))
              (fun s => JsRes.bind
                (compHandler (fun st p j => collectRefs doc fuel st p j) p j s)
              (fun s => JsRes.bind
                (propsHandler (fun st p j => collectRefs doc fuel st p j) p j s)
              (fun s => JsRes.bind
                (fieldHandler (fun st p j => collectRefs doc fuel st p j) "items" p j s)
              (fun s => JsRes.bind
                (fieldHandler (fun st p j => collectRefs doc fuel st p j)
                  "additionalProperties" p j s)
              (fun s => JsRes.bind
                (paramsHandler (fun st p j => collectRefs doc fuel st p j) p j s)
              (fun s => JsRes.bind
                (contentHandler (fun st p j => collectRefs doc fuel st p j) p j s)
              (fun s => JsRes.bind (securityHandler j s)
              (fun s => JsRes.bind
                (dtoHandler (trackCG doc (fun st p j => collectRefs doc fuel st p j)) j s)
              (fun s =>
                genericHandler (fun st p j => collectRefs doc fuel st p j) p j s))))))))) := by
          rw [collectRefs]
          rw [if_neg (by simpa using hobj), if_neg hseen]
        refine ⟨fun st' h => ?_, fun hf => ?_, fun hsh hshj m => ?_⟩
        · simp only [hbody] at h
          have hm := hcomp.1 (addSeen p st) st' h
          have hp0 : p ∉ st.seen := hseen
          refine ⟨MStep_trans (MStep_addSeen hp0) hm, fun _ => ?_⟩
          have : p ∈ (addSeen p st).seen := by
            show p ∈ st.seen ++ [p]
            simp
          exact listLE_mem hm.1.2.1 this
        · show collectRefs doc (fuel + 1) st p j ≠ JsRes.spin
          rw [hbody]
          refine hcomp.2.1 (addSeen p st) ?_
          show fuel > sizeJ j - 1 + chainBudget doc st.used
          have := sizeJ_pos j
          omega
        · show collectRefs doc (fuel + 1) st p j ≠ JsRes.err m
          rw [hbody]
          exact hcomp.2.2 (addSeen p st) m ⟨hsh, hshj⟩

/-! ## Lemmas: pipeline plumbing -/

theorem getUsed_mk_nil (t : String) :
    getUsed ⟨[], [], [], [], [], [], []⟩ t = [] := by
  unfold getUsed
  split <;> rfl

theorem chainBudget_le_empty (doc : Json) (u : Used) :
    chainBudget doc u ≤ chainBudget doc ⟨[], [], [], [], [], [], []⟩ :=
  chainBudget_anti (fun t => ⟨getUsed u t, by rw [getUsed_mk_nil]; rfl⟩)

theorem FUEL_big {doc : Json} {k : Nat} (hj : k ≤ 4 * sizeJ doc) (u : Used) :
    FUEL doc > k + chainBudget doc u := by
  have := chainBudget_le_empty doc u
  unfold FUEL
  omega

theorem collectRefs_skip {doc : Json} {fuel : Nat} {st : ScanSt} {p : JPath}
    {j : Json} (hf : fuel ≠ 0) (h : j.isObjLike = false ∨ p ∈ st.seen) :
    collectRefs doc fuel st p j = JsRes.ok st := by
  cases fuel with
  | zero => exact absurd rfl hf
  | succ fuel =>
    rw [collectRefs]
    rcases h with h | h
    · rw [if_pos (by simp [h])]
    · by_cases hobj : j.isObjLike
      · rw [if_neg (by simpa using hobj), if_pos h]
      · rw [if_pos (by simpa using hobj)]

theorem HProp_comp_pure {doc : Json} {fuel b : Nat} {sh : Prop}
    {g : ScanSt → ScanSt} {f : ScanSt → JsRes ScanSt}
    (hg : ∀ s, MStep doc s (g s)) (hf : HProp doc fuel b sh f) :
    HProp doc fuel b sh (fun s => f (g s)) := by
  refine ⟨fun s s' hs => MStep_trans (hg s) (hf.1 _ _ hs), fun s hfu => ?_,
    fun s m hsh => hf.2.2 (g s) m hsh⟩
  refine hf.2.1 (g s) ?_
  have := @chainBudget_anti doc _ _ (hg s).1.1
  omega

theorem dedupParamsGo_ne_spin :
    ∀ {ps : List Json} {seen : List String},
      dedupParamsGo ps seen ≠ JsRes.spin
  | [], _ => by simp [dedupParamsGo]
  | q :: ps, seen => by
    rw [dedupParamsGo]
    split
    · simp
    · show (if paramKeyStr q ∈ seen then dedupParamsGo ps seen
        else (dedupParamsGo ps (seen ++ [paramKeyStr q])).bind
          fun r => JsRes.ok (q :: r)) ≠ JsRes.spin
      split
      · exact dedupParamsGo_ne_spin
      · exact jsres_bind_ne_spin dedupParamsGo_ne_spin (fun r _ => by simp)

theorem dedupParamsGo_ne_err :
    ∀ {ps : List Json} {seen : List String},
      (∀ q ∈ ps, q ≠ Json.jnull) → ∀ m, dedupParamsGo ps seen ≠ JsRes.err m
  | [], _, _, m => by simp [dedupParamsGo]
  | q :: ps, seen, hnn, m => by
    rw [dedupParamsGo]
    split
    · next hq =>
      exact absurd ((beqJ_null_iff q).mp hq) (hnn q (List.mem_cons_self _ _))
    · have hrest : ∀ q ∈ ps, q ≠ Json.jnull :=
        fun x hx => hnn x (List.mem_cons_of_mem _ hx)
      show (if paramKeyStr q ∈ seen then dedupParamsGo ps seen
        else (dedupParamsGo ps (seen ++ [paramKeyStr q])).bind
          fun r => JsRes.ok (q :: r)) ≠ JsRes.err m
      split
      · exact dedupParamsGo_ne_err hrest m
      · exact jsres_bind_ne_err (fun t => dedupParamsGo_ne_err hrest t)
          (fun r _ t => by simp) m

theorem sizeJL_sublist : ∀ {qs ps : List Json}, qs.Sublist ps →
    sizeJL qs ≤ sizeJL ps := by
  intro qs ps h
  induction h with
  | slnil => exact Nat.le_refl _
  | cons x _ ih => simp only [sizeJL]; omega
  | cons₂ x _ ih => simp only [sizeJL]; omega

theorem shapeOKL_sublist : ∀ {qs ps : List Json}, qs.Sublist ps →
    shapeOKL ps = true → shapeOKL qs = true := by
  intro qs ps h
  induction h with
  | slnil => exact fun h => h
  | cons x _ ih =>
    intro hp
    rw [shapeOKL, Bool.and_eq_true] at hp
    exact ih hp.2
  | cons₂ x _ ih =>
    intro hp
    rw [shapeOKL, Bool.and_eq_true] at hp
    rw [shapeOKL, Bool.and_eq_true]
    exact ⟨hp.1, ih hp.2⟩

theorem allNN_sublist {qs ps : List Json} (h : qs.Sublist ps)
    (hp : ∀ q ∈ ps, q ≠ Json.jnull) : ∀ q ∈ qs, q ≠ Json.jnull :=
  fun q hq => hp q (h.mem hq)

theorem listLookup_updateGo_self :
    ∀ (fs : List (String × Json)) (k : String) (w : Json),
      List.lookup k (Json.updateField.go fs k w) = some w
  | [], k, w => by simp [Json.updateField.go, List.lookup]
  | (a, b) :: fs, k, w => by
    rw [Json.updateField.go]
    split
    · simp [List.lookup]
    · next hne =>
      rw [List.lookup]
      have : (k == a) = false := by
        simp only [beq_eq_false_iff_ne]
        exact fun he => hne he.symm
      rw [this]
      exact listLookup_updateGo_self fs k w

theorem listLookup_updateGo_other {k' k : String} (hne : k' ≠ k) :
    ∀ (fs : List (String × Json)) (w : Json),
      List.lookup k' (Json.updateField.go fs k w) = List.lookup k' fs
  | [], w => by
    have h1 : (k' == k) = false := by simpa using hne
    simp [Json.updateField.go, List.lookup, h1]
  | (a, b) :: fs, w => by
    rw [Json.updateField.go]
    split
    · next heq =>
      have h1 : (k' == k) = false := by simpa using hne
      have h2 : (k' == a) = false := by
        simp only [beq_eq_false_iff_ne]
        exact fun h => hne (h.trans heq)
      simp [List.lookup, h1, h2]
    · cases he : k' == a with
      | true => simp [List.lookup, he]
      | false =>
        simp only [List.lookup, he]
        exact listLookup_updateGo_other hne fs w

theorem lookup_updateField_self (fs : List (String × Json)) (k : String)
    (w : Json) : (Json.updateField (Json.jobj fs) k w).lookup k = some w :=
  listLookup_updateGo_self fs k w

theorem lookup_updateField_other {j : Json} {k' k : String} (hne : k' ≠ k)
    (w : Json) : (Json.updateField j k w).lookup k' = j.lookup k' := by
  cases j with
  | jobj fs => exact listLookup_updateGo_other hne fs w
  | jnull => rfl
  | jbool b => rfl
  | jnum n => rfl
  | jstr s => rfl
  | jarr xs => rfl

theorem truthyField_updateField_other {j : Json} {k' k : String}
    (hne : k' ≠ k) (w : Json) :
    (Json.updateField j k w).truthyField k' = j.truthyField k' := by
  unfold Json.truthyField
  rw [lookup_updateField_other hne w]

theorem shapeOKF_updateGo {k : String} {w : Json} (hw : shapeOK w = true) :
    ∀ {fs : List (String × Json)}, shapeOKF fs = true →
      shapeOKF (Json.updateField.go fs k w) = true
  | [], _ => by
    simp only [Json.updateField.go, shapeOKF]
    rw [hw]
    rfl
  | (a, b) :: fs, h => by
    rw [shapeOKF, Bool.and_eq_true] at h
    rw [Json.updateField.go]
    split
    · rw [shapeOKF, Bool.and_eq_true]
      exact ⟨hw, h.2⟩
    · rw [shapeOKF, Bool.and_eq_true]
      exact ⟨h.1, shapeOKF_updateGo hw h.2⟩

theorem truthyField_update_params_self (fs : List (String × Json))
    (qs : List Json) :
    (Json.jobj (Json.updateField.go fs "parameters" (Json.jarr qs))).truthyField
      "parameters" = some (Json.jarr qs) := by
  unfold Json.truthyField
  have h1 : (Json.jobj (Json.updateField.go fs "parameters"
      (Json.jarr qs))).lookup "parameters" = some (Json.jarr qs) :=
    listLookup_updateGo_self fs _ _
  rw [h1]
  rfl

theorem shapeOK_update_params {fs : List (String × Json)}
    (hsh : shapeOK (Json.jobj fs) = true) {ps qs : List Json}
    (hl : (Json.jobj fs).truthyField "parameters" = some (Json.jarr ps))
    (hsub : qs.Sublist ps) :
    shapeOK (Json.updateField (Json.jobj fs) "parameters" (Json.jarr qs))
      = true := by
  obtain ⟨ps', hps', hnn⟩ := (shapeOK_conds hsh).1 _ hl
  obtain rfl : ps = ps' := by injection hps'
  have hshL : shapeOKL ps = true := by
    have := shapeOK_lookup hsh (truthyField_lookup hl).1
    rw [shapeOK] at this
    exact this
  have hrepr : Json.updateField (Json.jobj fs) "parameters" (Json.jarr qs) =
      Json.jobj (Json.updateField.go fs "parameters" (Json.jarr qs)) := rfl
  rw [shapeOK] at hsh
  simp only [Bool.and_eq_true] at hsh
  obtain ⟨⟨⟨⟨_, hs0⟩, hc0⟩, ht0⟩, hF0⟩ := hsh
  rw [hrepr, shapeOK]
  simp only [Bool.and_eq_true]
  refine ⟨⟨⟨⟨?_, ?_⟩, ?_⟩, ?_⟩, ?_⟩
  · rw [truthyField_update_params_self]
    rw [List.all_eq_true]
    intro q hq
    cases hb : beqJ q Json.jnull with
    | false => rfl
    | true => exact absurd ((beqJ_null_iff q).mp hb) (hnn q (hsub.subset hq))
  · rw [← hrepr, truthyField_updateField_other (by decide)]
    exact hs0
  · rw [← hrepr, truthyField_updateField_other (by decide)]
    exact hc0
  · rw [← hrepr, truthyField_updateField_other (by decide)]
    exact ht0
  · refine shapeOKF_updateGo ?_ hF0
    rw [shapeOK]
    exact shapeOKL_sublist hsub hshL

theorem dedupStr_nodup (l : List String) : (dedupStr l).Nodup := by
  unfold dedupStr
  suffices h : ∀ (l acc : List String), acc.Nodup →
      (l.foldl (fun acc x => if x ∈ acc then acc else acc ++ [x]) acc).Nodup by
    exact h l [] List.nodup_nil
  intro l
  induction l with
  | nil => exact fun acc h => h
  | cons x l ih =>
    intro acc h
    rw [List.foldl_cons]
    by_cases hx : x ∈ acc
    · rw [if_pos hx]
      exact ih acc h
    · rw [if_neg hx]
      refine ih _ ?_
      rw [List.nodup_append]
      exact ⟨h, List.nodup_singleton x,
        fun a ha hax => hx (List.mem_singleton.mp hax ▸ ha)⟩

theorem seedUsed_nodup (opts : Opts) (t : String) :
    (getUsed (seedUsed opts) t).Nodup := by
  unfold getUsed
  split <;> first | exact dedupStr_nodup _ | exact List.nodup_nil

theorem StInv_init (opts : Opts) : StInv ⟨seedUsed opts, [], [], []⟩ :=
  ⟨fun t => seedUsed_nodup opts t, List.nodup_nil⟩

/-! ## Lemmas: the wrapper scans of lines 119 and 164 -/

theorem scanWrapperParams_arr_hprop {doc : Json} {fuel : Nat} {sh : Prop}
    (hrec : RecOK doc fuel sh (fun st p j => collectRefs doc fuel st p j))
    (pp : JPath) {ps : List Json} {b : Nat} (hsz : sizeJL ps ≤ b)
    (hshps : sh → shapeOKL ps = true)
    (hnn : sh → ∀ q ∈ ps, q ≠ Json.jnull) :
    HProp doc fuel b sh
      (fun st => scanWrapperParams doc fuel st pp (Json.jarr ps)) := by
  show HProp doc fuel b sh (fun st =>
    JsRes.bind
      (List.foldlM (fun st ip =>
          paramElemStep (fun st p j => collectRefs doc fuel st p j)
            (pp ++ [toString ip.1]) ip.2 st)
        st ps.enum)
      (fun st => List.foldlM (fun st ip =>
          collectRefs doc fuel st (pp ++ [toString ip.1]) ip.2)
        st ps.enum))
  refine HProp_bind (HProp_foldlM ?_) (HProp_foldlM ?_)
  · intro ip hip
    exact paramElemStep_hprop hrec _
      (le_trans (sizeJL_mem (mem_enum_snd hip)) hsz)
      (fun hs => shapeOKL_mem (hshps hs) (mem_enum_snd hip))
      (fun hs => hnn hs ip.2 (mem_enum_snd hip))
  · intro ip hip
    exact recurse_hprop hrec (le_trans (sizeJL_mem (mem_enum_snd hip)) hsz)
      (fun hs => shapeOKL_mem (hshps hs) (mem_enum_snd hip))

theorem scanWrapperSecurity_arr_hprop {doc : Json} {fuel : Nat} {sh : Prop}
    (hrec : RecOK doc fuel sh (fun st p j => collectRefs doc fuel st p j))
    {reqs : List Json} {b : Nat} (hsz : sizeJL reqs ≤ b)
    (hshr : sh → shapeOKL reqs = true) :
    HProp doc fuel b sh
      (fun st => scanWrapperSecurity doc fuel st (Json.jarr reqs)) := by
  show HProp doc fuel b sh (fun st =>
    List.foldlM (fun st ir =>
        collectRefs doc fuel st (["copy", "security", toString ir.1]) ir.2)
      (reqs.foldl (fun st req =>
        if req.truthy then (Json.jsKeys req).foldl addScheme st else st) st)
      reqs.enum)
  refine HProp_comp_pure ?_ (HProp_foldlM ?_)
  · intro s
    refine MStep_foldl_pure (fun s' req _ => ?_) s
    by_cases ht : req.truthy
    · rw [if_pos ht]
      exact MStep_foldl_pure (fun s'' n _ => MStep_addScheme doc s'' n) s'
    · rw [if_neg ht]
      exact MStep_refl doc s'
  · intro ir hir
    exact recurse_hprop hrec (le_trans (sizeJL_mem (mem_enum_snd hir)) hsz)
      (fun hs => shapeOKL_mem (hshr hs) (mem_enum_snd hir))

/-! ## Lemmas: the operation loop of lines 122-154 -/

theorem MStep_addUsedTag (doc : Json) (st : ScanSt) (tg : Json) :
    MStep doc st (addUsedTag st tg) := by
  unfold addUsedTag
  split
  · exact MStep_refl doc st
  · exact ⟨⟨fun _ => listLE_refl _, listLE_refl _, listLE_append _ _,
      listLE_refl _⟩, fun hi => hi, fun t n hmem hnot => absurd hmem hnot⟩

theorem tagStep_MStep {doc opTags : Json} {st st' : ScanSt}
    (h : tagStep opTags st = JsRes.ok st') : MStep doc st st' := by
  unfold tagStep at h
  split at h
  · obtain rfl := (JsRes.ok.inj h).symm
    exact MStep_foldl_pure (fun s tg _ => MStep_addUsedTag doc s tg) st
  · simp at h

theorem tagStep_ne_spin {opTags : Json} {st : ScanSt} :
    tagStep opTags st ≠ JsRes.spin := by
  unfold tagStep
  split <;> simp

theorem tagStep_ne_err {opTags : Json} (h : ∃ xs, opTags = Json.jarr xs)
    (st : ScanSt) (m : String) : tagStep opTags st ≠ JsRes.err m := by
  obtain ⟨xs, rfl⟩ := h
  simp [tagStep]

theorem incOf_ne_spin {opts : Opts} {opTags : Json} :
    incOf opts opTags ≠ JsRes.spin := by
  unfold incOf
  split
  · simp
  · split <;> simp

theorem incOf_ne_err {opts : Opts} {opTags : Json}
    (h : ∃ xs, opTags = Json.jarr xs) (m : String) :
    incOf opts opTags ≠ JsRes.err m := by
  obtain ⟨xs, rfl⟩ := h
  unfold incOf
  split <;> simp

theorem opTagsOf_arr {op : Json} (hsh : shapeOK op = true) :
    ∃ xs, opTagsOf op = Json.jarr xs := by
  unfold opTagsOf
  rcases hl : op.lookup "tags" with _ | v
  · exact ⟨[], rfl⟩
  · show ∃ xs, (if v.truthy = true then v else Json.jarr []) = Json.jarr xs
    by_cases ht : v.truthy
    · rw [if_pos ht]
      have harr := (shapeOK_conds hsh).2.2.2 v
        (by simp [Json.truthyField, hl, ht])
      cases v with
      | jarr xs => exact ⟨xs, rfl⟩
      | jnull => simp [Json.isArr] at harr
      | jbool b => simp [Json.isArr] at harr
      | jnum n => simp [Json.isArr] at harr
      | jstr s => simp [Json.isArr] at harr
      | jobj fs => simp [Json.isArr] at harr
    · rw [if_neg ht]
      exact ⟨[], rfl⟩

theorem newOpOf_ne_spin {op : Json} : newOpOf op ≠ JsRes.spin := by
  unfold newOpOf
  split
  · exact jsres_bind_ne_spin dedupParamsGo_ne_spin (fun r _ => by simp)
  · simp
  · simp

theorem newOpOf_ne_err {op : Json} (hsh : shapeOK op = true) (m : String) :
    newOpOf op ≠ JsRes.err m := by
  rcases htf : op.truthyField "parameters" with _ | v
  · unfold newOpOf
    simp only [htf]
    simp
  · obtain ⟨ps, rfl, hnn⟩ := (shapeOK_conds hsh).1 _ htf
    unfold newOpOf
    simp only [htf]
    exact jsres_bind_ne_err (fun t => dedupParamsGo_ne_err hnn t)
      (fun r _ t => by simp) m

theorem newOpOf_size {op newOp : Json} (h : newOpOf op = JsRes.ok newOp) :
    sizeJ newOp ≤ sizeJ op := by
  unfold newOpOf at h
  split at h
  · next ps heq =>
    rcases jsres_bind_eq_ok h with ⟨qs, hqs, hok⟩
    obtain rfl := (JsRes.ok.inj hok).symm
    refine sizeJ_updateField_le (truthyField_lookup heq).1 ?_
    simp only [sizeJ]
    have := sizeJL_sublist (dedupParamsGo_sublist hqs)
    omega
  · simp at h
  · obtain rfl := JsRes.ok.inj h
    exact Nat.le_refl _

theorem newOpOf_shape {op newOp : Json} (hsh : shapeOK op = true)
    (h : newOpOf op = JsRes.ok newOp) : shapeOK newOp = true := by
  unfold newOpOf at h
  split at h
  · next ps heq =>
    rcases jsres_bind_eq_ok h with ⟨qs, hqs, hok⟩
    obtain rfl := (JsRes.ok.inj hok).symm
    have hl := (truthyField_lookup heq).1
    cases op with
    | jobj fs => exact shapeOK_update_params hsh heq (dedupParamsGo_sublist hqs)
    | jnull => simp [Json.lookup] at hl
    | jbool b => simp [Json.lookup] at hl
    | jnum n => simp [Json.lookup] at hl
    | jstr s => simp [Json.lookup] at hl
    | jarr xs => simp [Json.lookup] at hl
  · simp at h
  · obtain rfl := JsRes.ok.inj h
    exact hsh

/-- The pipeline postconditions of one operation entry: success is an `MStep`
on the state component, the step cannot exhaust fuel while the fuel exceeds
the operation's size plus the jump budget, and a well-shaped document and
operation make it exception-free. -/
theorem processOneMethod_facts {doc : Json} {opts : Opts} {fuel : Nat}
    {pathStr : String} {acc : Json × Json × ScanSt × Bool} {me : String × Json} :
    (∀ r, processOneMethod doc opts fuel pathStr acc me = JsRes.ok r →
       MStep doc acc.2.2.1 r.2.2.1) ∧
    (fuel > sizeJ me.2 + chainBudget doc acc.2.2.1.used →
       processOneMethod doc opts fuel pathStr acc me ≠ JsRes.spin) ∧
    (shapeOK doc = true → shapeOK me.2 = true →
       (me.1 ∈ HTTP_METHODS → ¬ beqJ me.2 Json.jnull = true) →
       ∀ m, processOneMethod doc opts fuel pathStr acc me ≠ JsRes.err m) := by
  by_cases hm : me.1 ∈ HTTP_METHODS
  case neg =>
    have he : processOneMethod doc opts fuel pathStr acc me =
        JsRes.ok (Json.updateField acc.1 me.1 me.2, acc.2.1, acc.2.2.1,
          acc.2.2.2) := by
      unfold processOneMethod
      rw [if_pos hm]
    refine ⟨fun r h => ?_, fun _ => by rw [he]; simp,
      fun _ _ _ m => by rw [he]; simp⟩
    rw [he] at h
    obtain rfl := (JsRes.ok.inj h).symm
    exact MStep_refl doc acc.2.2.1
  case pos =>
    by_cases hnull : beqJ me.2 Json.jnull = true
    · have he : processOneMethod doc opts fuel pathStr acc me =
          JsRes.err "TypeError" := by
        unfold processOneMethod
        rw [if_neg (by simpa using hm), if_pos hnull]
      refine ⟨fun r h => by rw [he] at h; simp at h, fun _ => by rw [he]; simp,
        fun _ _ hsafe m => absurd hnull (hsafe hm)⟩
    · have he : processOneMethod doc opts fuel pathStr acc me =
          JsRes.bind (incOf opts (opTagsOf me.2)) (fun inc =>
            if ¬ inc then .ok acc
            else
              JsRes.bind (tagStep (opTagsOf me.2) acc.2.2.1) fun st =>
              JsRes.bind (newOpOf me.2) fun newOp =>
              JsRes.bind (collectRefs doc fuel st
                  ["doc", "paths", pathStr, me.1] newOp) fun st =>
              .ok (Json.updateField acc.1 me.1 newOp,
                   Json.updateField acc.2.1 me.1 newOp, st, true)) := by
        unfold processOneMethod
        rw [if_neg (by simpa using hm), if_neg (by simpa using hnull)]
      have hrec := collectRefs_master doc (shapeOK doc = true) id fuel
      refine ⟨fun r h => ?_, fun hfuel => ?_, fun hshd hsho _ m => ?_⟩
      · rw [he] at h
        rcases jsres_bind_eq_ok h with ⟨inc, hinc, h2⟩
        by_cases hI : ¬ inc
        · rw [if_pos hI] at h2
          obtain rfl := (JsRes.ok.inj h2).symm
          exact MStep_refl _ _
        · rw [if_neg hI] at h2
          rcases jsres_bind_eq_ok h2 with ⟨st1, hst1, h3⟩
          rcases jsres_bind_eq_ok h3 with ⟨newOp, hnop, h4⟩
          rcases jsres_bind_eq_ok h4 with ⟨st2, hcoll, h5⟩
          obtain rfl := (JsRes.ok.inj h5).symm
          exact MStep_trans (tagStep_MStep hst1)
            ((hrec st1 _ newOp).1 st2 hcoll).1
      · rw [he]
        refine jsres_bind_ne_spin incOf_ne_spin ?_
        intro inc _
        by_cases hI : ¬ inc
        · rw [if_pos hI]
          simp
        · rw [if_neg hI]
          refine jsres_bind_ne_spin tagStep_ne_spin ?_
          intro st1 hst1
          refine jsres_bind_ne_spin newOpOf_ne_spin ?_
          intro newOp hnop
          refine jsres_bind_ne_spin ?_ (fun st2 _ => by simp)
          refine (hrec st1 _ newOp).2.1 ?_
          have h1 := newOpOf_size hnop
          have h2 := @chainBudget_anti doc _ _
            (@tagStep_MStep doc _ _ _ hst1).1.1
          omega
      · rw [he]
        refine jsres_bind_ne_err
          (fun t => incOf_ne_err (opTagsOf_arr hsho) t) ?_ m
        intro inc _
        by_cases hI : ¬ inc
        · rw [if_pos hI]
          simp
        · rw [if_neg hI]
          refine jsres_bind_ne_err
            (fun t => tagStep_ne_err (opTagsOf_arr hsho) _ t) ?_
          intro st1 _
          refine jsres_bind_ne_err (fun t => newOpOf_ne_err hsho t) ?_
          intro newOp hnop
          refine jsres_bind_ne_err ?_ (fun st2 _ t => by simp)
          exact fun t => (hrec st1 _ newOp).2.2 hshd (newOpOf_shape hsho hnop) t

theorem sizeJF_updateGo_add (k : String) (w : Json) :
    ∀ fs : List (String × Json),
      sizeJF (Json.updateField.go fs k w) ≤ sizeJF fs + sizeJ w
  | [] => by
    simp only [Json.updateField.go, sizeJF]
    omega
  | (a, b) :: fs => by
    rw [Json.updateField.go]
    split
    · simp only [sizeJF]
      have := sizeJ_pos b
      omega
    · simp only [sizeJF]
      have := sizeJF_updateGo_add k w fs
      omega

theorem sizeJ_updateField_add (j : Json) (k : String) (w : Json) :
    sizeJ (Json.updateField j k w) ≤ sizeJ j + sizeJ w := by
  cases j with
  | jobj fs =>
    show sizeJ (Json.jobj (Json.updateField.go fs k w)) ≤ _
    simp only [sizeJ]
    have := sizeJF_updateGo_add k w fs
    omega
  | jnull => simp [Json.updateField, sizeJ]
  | jbool b => simp [Json.updateField, sizeJ]
  | jnum n => simp [Json.updateField, sizeJ]
  | jstr s => simp [Json.updateField, sizeJ]
  | jarr xs => simp [Json.updateField, sizeJ]

theorem sizeJF_enumFrom_map :
    ∀ (xs : List Json) (n : Nat),
      sizeJF ((List.enumFrom n xs).map fun p => (toString p.1, p.2))
        = sizeJL xs
  | [], _ => rfl
  | x :: xs, n => by
    simp only [List.enumFrom, List.map, sizeJF, sizeJL]
    rw [sizeJF_enumFrom_map xs (n + 1)]

theorem sizeJF_enumFrom_chars :
    ∀ (cs : List Char) (n : Nat),
      sizeJF ((List.enumFrom n cs).map
          fun p => (toString p.1, Json.jstr (String.mk [p.2])))
        = 2 * cs.length
  | [], _ => rfl
  | c :: cs, n => by
    simp only [List.enumFrom, List.map, sizeJF, List.length]
    rw [sizeJF_enumFrom_chars cs (n + 1)]
    show 1 + String.length (String.mk [c]) + 2 * cs.length = _
    have h2 : String.length (String.mk [c]) = 1 := rfl
    omega

/-- The total size of the values seen by `Object.entries` is at most twice
the node's size (this is where a string node's characters matter). -/
theorem sizeJF_jsEntries_le (j : Json) :
    sizeJF (Json.jsEntries j) ≤ 2 * sizeJ j := by
  cases j with
  | jobj fs =>
    show sizeJF fs ≤ 2 * (1 + sizeJF fs)
    omega
  | jarr xs =>
    show sizeJF ((List.enumFrom 0 xs).map fun p => (toString p.1, p.2))
      ≤ 2 * (1 + sizeJL xs)
    rw [sizeJF_enumFrom_map]
    omega
  | jstr s =>
    show sizeJF ((List.enumFrom 0 s.toList).map
        fun p => (toString p.1, Json.jstr (String.mk [p.2])))
      ≤ 2 * (1 + s.length)
    rw [sizeJF_enumFrom_chars]
    have h3 : s.length = s.toList.length := rfl
    omega
  | jnull => simp [Json.jsEntries, Json.jsValuesK, sizeJF, sizeJ]
  | jbool b => simp [Json.jsEntries, Json.jsValuesK, sizeJF, sizeJ]
  | jnum n => simp [Json.jsEntries, Json.jsValuesK, sizeJF, sizeJ]

theorem processOneMethod_size {doc : Json} {opts : Opts} {fuel : Nat}
    {pathStr : String} {acc : Json × Json × ScanSt × Bool} {me : String × Json}
    {r : Json × Json × ScanSt × Bool}
    (h : processOneMethod doc opts fuel pathStr acc me = JsRes.ok r) :
    sizeJ r.2.1 ≤ sizeJ acc.2.1 + sizeJ me.2 := by
  unfold processOneMethod at h
  split at h
  · obtain rfl := (JsRes.ok.inj h).symm
    show sizeJ acc.2.1 ≤ sizeJ acc.2.1 + sizeJ me.2
    have := sizeJ_pos me.2
    omega
  · split at h
    · simp at h
    · rcases jsres_bind_eq_ok h with ⟨inc, hinc, h2⟩
      split at h2
      · obtain rfl := (JsRes.ok.inj h2).symm
        have := sizeJ_pos me.2
        omega
      · rcases jsres_bind_eq_ok h2 with ⟨st1, hst1, h3⟩
        rcases jsres_bind_eq_ok h3 with ⟨newOp, hnop, h4⟩
        rcases jsres_bind_eq_ok h4 with ⟨st2, hcoll, h5⟩
        obtain rfl := (JsRes.ok.inj h5).symm
        show sizeJ (Json.updateField acc.2.1 me.1 newOp) ≤ _
        have h6 := sizeJ_updateField_add acc.2.1 me.1 newOp
        have h7 := newOpOf_size hnop
        omega

/-- Postconditions of the whole operation fold of lines 122-154. -/
theorem methodFold_facts {doc : Json} {opts : Opts} {fuel B : Nat}
    {pathStr : String} :
    ∀ {l : List (String × Json)} {acc : Json × Json × ScanSt × Bool},
      (∀ r, List.foldlM (processOneMethod doc opts fuel pathStr) acc l
          = JsRes.ok r →
        MStep doc acc.2.2.1 r.2.2.1 ∧
          sizeJ r.2.1 ≤ sizeJ acc.2.1 + sizeJF l) ∧
      ((∀ me ∈ l, sizeJ me.2 ≤ B) →
        fuel > B + chainBudget doc acc.2.2.1.used →
        List.foldlM (processOneMethod doc opts fuel pathStr) acc l
          ≠ JsRes.spin) ∧
      (shapeOK doc = true →
        (∀ me ∈ l, shapeOK me.2 = true ∧
          (me.1 ∈ HTTP_METHODS → ¬ beqJ me.2 Json.jnull = true)) →
        ∀ m, List.foldlM (processOneMethod doc opts fuel pathStr) acc l
          ≠ JsRes.err m)
  | [], acc => by
    refine ⟨fun r h => ?_, fun _ _ => by simp [List.foldlM],
      fun _ _ m => by simp [List.foldlM]⟩
    simp only [List.foldlM] at h
    obtain rfl := (JsRes.ok.inj h).symm
    exact ⟨MStep_refl _ _, by simp [sizeJF]⟩
  | me :: l, acc => by
    have hfc : List.foldlM (processOneMethod doc opts fuel pathStr) acc
        (me :: l) = JsRes.bind (processOneMethod doc opts fuel pathStr acc me)
          (fun a => List.foldlM (processOneMethod doc opts fuel pathStr) a l) := by
      simp [List.foldlM_cons]
    refine ⟨fun r h => ?_, fun hsz hfuel => ?_, fun hshd hshl m => ?_⟩
    · rw [hfc] at h
      rcases jsres_bind_eq_ok h with ⟨a, ha, h2⟩
      have hme := processOneMethod_facts.1 a ha
      have hsz1 := processOneMethod_size ha
      have hrest := (@methodFold_facts doc opts fuel B pathStr l a).1 r h2
      refine ⟨MStep_trans hme hrest.1, ?_⟩
      simp only [sizeJF]
      omega
    · rw [hfc]
      refine jsres_bind_ne_spin ?_ ?_
      · refine processOneMethod_facts.2.1 ?_
        have := hsz me (List.mem_cons_self _ _)
        omega
      · intro a ha
        refine (@methodFold_facts doc opts fuel B pathStr l a).2.1
          (fun x hx => hsz x (List.mem_cons_of_mem _ hx)) ?_
        have hme := processOneMethod_facts.1 a ha
        have := @chainBudget_anti doc _ _ hme.1.1
        omega
    · rw [hfc]
      refine jsres_bind_ne_err ?_ ?_ m
      · have hh := hshl me (List.mem_cons_self _ _)
        exact fun t => processOneMethod_facts.2.2 hshd hh.1 hh.2 t
      · intro a _ t
        exact (@methodFold_facts doc opts fuel B pathStr l a).2.2 hshd
          (fun x hx => hshl x (List.mem_cons_of_mem _ hx)) t

theorem shapeOK_updateField_method {j : Json} (hsh : shapeOK j = true)
    {k : String} (hk : k ≠ "parameters" ∧ k ≠ "security" ∧ k ≠ "content" ∧
      k ≠ "tags") {w : Json} (hw : shapeOK w = true) :
    shapeOK (Json.updateField j k w) = true := by
  cases j with
  | jobj fs =>
    have hrepr : Json.updateField (Json.jobj fs) k w =
        Json.jobj (Json.updateField.go fs k w) := rfl
    rw [shapeOK] at hsh
    simp only [Bool.and_eq_true] at hsh
    obtain ⟨⟨⟨⟨hp0, hs0⟩, hc0⟩, ht0⟩, hF0⟩ := hsh
    rw [hrepr, shapeOK]
    simp only [Bool.and_eq_true]
    refine ⟨⟨⟨⟨?_, ?_⟩, ?_⟩, ?_⟩, shapeOKF_updateGo hw hF0⟩
    · rw [← hrepr, truthyField_updateField_other (fun h => hk.1 h.symm)]
      exact hp0
    · rw [← hrepr, truthyField_updateField_other (fun h => hk.2.1 h.symm)]
      exact hs0
    · rw [← hrepr, truthyField_updateField_other (fun h => hk.2.2.1 h.symm)]
      exact hc0
    · rw [← hrepr, truthyField_updateField_other (fun h => hk.2.2.2 h.symm)]
      exact ht0
  | jnull => exact hsh
  | jbool b => exact hsh
  | jnum n => exact hsh
  | jstr s => exact hsh
  | jarr xs => exact hsh

theorem http_method_keys : ∀ k ∈ HTTP_METHODS, k ≠ "parameters" ∧
    k ≠ "security" ∧ k ≠ "content" ∧ k ≠ "tags" := by decide

theorem processOneMethod_shape {doc : Json} {opts : Opts} {fuel : Nat}
    {pathStr : String} {acc : Json × Json × ScanSt × Bool} {me : String × Json}
    {r : Json × Json × ScanSt × Bool}
    (h : processOneMethod doc opts fuel pathStr acc me = JsRes.ok r)
    (hacc : shapeOK acc.2.1 = true) (hme : shapeOK me.2 = true) :
    shapeOK r.2.1 = true := by
  unfold processOneMethod at h
  split at h
  · obtain rfl := (JsRes.ok.inj h).symm
    exact hacc
  · next hm =>
    split at h
    · simp at h
    · rcases jsres_bind_eq_ok h with ⟨inc, hinc, h2⟩
      split at h2
      · obtain rfl := (JsRes.ok.inj h2).symm
        exact hacc
      · rcases jsres_bind_eq_ok h2 with ⟨st1, hst1, h3⟩
        rcases jsres_bind_eq_ok h3 with ⟨newOp, hnop, h4⟩
        rcases jsres_bind_eq_ok h4 with ⟨st2, hcoll, h5⟩
        obtain rfl := (JsRes.ok.inj h5).symm
        show shapeOK (Json.updateField acc.2.1 me.1 newOp) = true
        exact shapeOK_updateField_method hacc
          (http_method_keys me.1 (by simpa using hm))
          (newOpOf_shape hme hnop)

theorem methodFold_shape {doc : Json} {opts : Opts} {fuel : Nat}
    {pathStr : String} :
    ∀ {l : List (String × Json)} {acc : Json × Json × ScanSt × Bool}
      {r : Json × Json × ScanSt × Bool},
      List.foldlM (processOneMethod doc opts fuel pathStr) acc l = JsRes.ok r →
      shapeOK acc.2.1 = true → (∀ me ∈ l, shapeOK me.2 = true) →
      shapeOK r.2.1 = true
  | [], acc, r, h, hacc, _ => by
    simp only [List.foldlM] at h
    obtain rfl := (JsRes.ok.inj h).symm
    exact hacc
  | me :: l, acc, r, h, hacc, hl => by
    rw [show List.foldlM (processOneMethod doc opts fuel pathStr) acc
        (me :: l) = JsRes.bind (processOneMethod doc opts fuel pathStr acc me)
          (fun a => List.foldlM (processOneMethod doc opts fuel pathStr) a l)
      by simp [List.foldlM_cons]] at h
    rcases jsres_bind_eq_ok h with ⟨a, ha, h2⟩
    exact methodFold_shape h2
      (processOneMethod_shape ha hacc (hl me (List.mem_cons_self _ _)))
      (fun x hx => hl x (List.mem_cons_of_mem _ hx))

/-- Facts about line 119's wrapper scan as it occurs in the path loop. -/
theorem wrapperParams_facts {doc : Json} {fuel : Nat} {item : Json}
    {p0 : JPath} {s0 : ScanSt} :
    (∀ s', (match item.truthyField "parameters" with
        | some pv => scanWrapperParams doc fuel s0 p0 pv
        | none => JsRes.ok s0) = JsRes.ok s' → MStep doc s0 s') ∧
    (fuel > sizeJ item + chainBudget doc s0.used →
       (match item.truthyField "parameters" with
        | some pv => scanWrapperParams doc fuel s0 p0 pv
        | none => JsRes.ok s0) ≠ JsRes.spin) ∧
    (shapeOK doc = true → shapeOK item = true →
       ∀ m, (match item.truthyField "parameters" with
        | some pv => scanWrapperParams doc fuel s0 p0 pv
        | none => JsRes.ok s0) ≠ JsRes.err m) := by
  have hrec := collectRefs_master doc (shapeOK doc = true) id fuel
  rcases htf : item.truthyField "parameters" with _ | pv
  · refine ⟨fun s' h => ?_, fun _ => by simp, fun _ _ m => by simp⟩
    obtain rfl := (JsRes.ok.inj h).symm
    exact MStep_refl _ _
  · cases pv with
    | jarr ps =>
      have hrec2 : RecOK doc fuel
          (shapeOK doc = true ∧ shapeOK item = true)
          (fun st p j => collectRefs doc fuel st p j) :=
        RecOK_mono_sh And.left hrec
      have hsz : sizeJL ps ≤ sizeJ item := by
        have := sizeJ_truthyField htf
        simp only [sizeJ] at this
        omega
      have hshps : (shapeOK doc = true ∧ shapeOK item = true) →
          shapeOKL ps = true := by
        intro hs
        have := shapeOK_truthyField hs.2 htf
        rw [shapeOK] at this
        exact this
      have hnn : (shapeOK doc = true ∧ shapeOK item = true) →
          ∀ q ∈ ps, q ≠ Json.jnull := by
        intro hs
        obtain ⟨ps', hps', hnn'⟩ := (shapeOK_conds hs.2).1 _ htf
        obtain rfl : ps = ps' := by injection hps'
        exact hnn'
      have hhp := scanWrapperParams_arr_hprop hrec2 p0 hsz hshps hnn
      exact ⟨fun s' h => hhp.1 s0 s' h, fun hf => hhp.2.1 s0 (by omega),
        fun hshd hshi m => hhp.2.2 s0 m ⟨hshd, hshi⟩⟩
    | jnull =>
      refine ⟨fun s' h => by simp [scanWrapperParams] at h,
        fun _ => by simp [scanWrapperParams], fun _ hshi m => ?_⟩
      obtain ⟨ps', hps', _⟩ := (shapeOK_conds hshi).1 _ htf
      exact absurd hps' (by simp)
    | jbool b =>
      refine ⟨fun s' h => by simp [scanWrapperParams] at h,
        fun _ => by simp [scanWrapperParams], fun _ hshi m => ?_⟩
      obtain ⟨ps', hps', _⟩ := (shapeOK_conds hshi).1 _ htf
      exact absurd hps' (by simp)
    | jnum n =>
      refine ⟨fun s' h => by simp [scanWrapperParams] at h,
        fun _ => by simp [scanWrapperParams], fun _ hshi m => ?_⟩
      obtain ⟨ps', hps', _⟩ := (shapeOK_conds hshi).1 _ htf
      exact absurd hps' (by simp)
    | jstr s =>
      refine ⟨fun s' h => by simp [scanWrapperParams] at h,
        fun _ => by simp [scanWrapperParams], fun _ hshi m => ?_⟩
      obtain ⟨ps', hps', _⟩ := (shapeOK_conds hshi).1 _ htf
      exact absurd hps' (by simp)
    | jobj fs =>
      refine ⟨fun s' h => by simp [scanWrapperParams] at h,
        fun _ => by simp [scanWrapperParams], fun _ hshi m => ?_⟩
      obtain ⟨ps', hps', _⟩ := (shapeOK_conds hshi).1 _ htf
      exact absurd hps' (by simp)

/-- Postconditions of one path entry of lines 111-160. -/
theorem processOnePath_facts {doc : Json} {opts : Opts} {fuel : Nat}
    {acc : List (String × Json) × Json × ScanSt} {pe : String × Json} :
    (∀ r, processOnePath doc opts fuel acc pe = JsRes.ok r →
       MStep doc acc.2.2 r.2.2) ∧
    (fuel > 3 * sizeJ pe.2 + chainBudget doc acc.2.2.used →
       processOnePath doc opts fuel acc pe ≠ JsRes.spin) ∧
    (shapeOK doc = true → shapeOK pe.2 = true →
       ¬ beqJ pe.2 Json.jnull = true →
       (∀ me ∈ Json.jsEntries pe.2, me.1 ∈ HTTP_METHODS →
          ¬ beqJ me.2 Json.jnull = true) →
       ∀ m, processOnePath doc opts fuel acc pe ≠ JsRes.err m) := by
  have hrec := collectRefs_master doc (shapeOK doc = true) id fuel
  by_cases hnl : beqJ pe.2 Json.jnull = true
  · have he : processOnePath doc opts fuel acc pe = JsRes.err "TypeError" := by
      unfold processOnePath
      rw [if_pos hnl]
    exact ⟨fun r h => by rw [he] at h; simp at h, fun _ => by rw [he]; simp,
      fun _ _ hc _ _ => absurd hnl hc⟩
  · have he : processOnePath doc opts fuel acc pe =
        JsRes.bind (match pe.2.truthyField "parameters" with
          | some pv =>
            scanWrapperParams doc fuel acc.2.2
              ["doc", "paths", pe.1, "parameters"] pv
          | none => JsRes.ok acc.2.2) (fun st =>
        JsRes.bind (List.foldlM (processOneMethod doc opts fuel pe.1)
          (Json.jobj [], pe.2, st, false) (Json.jsEntries pe.2)) fun r =>
        if r.2.2.2 then
          JsRes.bind (collectRefs doc fuel r.2.2.1 ["doc", "paths", pe.1]
            r.2.1) fun st =>
          JsRes.ok (acc.1 ++ [(pe.1, r.1)],
            Json.updateField acc.2.1 pe.1 r.2.1, st)
        else
          JsRes.ok (acc.1, Json.updateField acc.2.1 pe.1 r.2.1, r.2.2.1)) := by
      unfold processOnePath
      rw [if_neg hnl]
    have hszme : ∀ me ∈ Json.jsEntries pe.2, sizeJ me.2 ≤ sizeJ pe.2 := by
      intro me hme
      obtain ⟨k, v⟩ := me
      exact sizeJ_valuesK_le hme
    have hszF : sizeJF (Json.jsEntries pe.2) ≤ 2 * sizeJ pe.2 :=
      sizeJF_jsEntries_le pe.2
    refine ⟨fun r h => ?_, fun hfuel => ?_, fun hshd hshp _ hmeth m => ?_⟩
    · rw [he] at h
      rcases jsres_bind_eq_ok h with ⟨s1, hs1, h2⟩
      have hW := wrapperParams_facts.1 s1 hs1
      rcases jsres_bind_eq_ok h2 with ⟨fr, hfr, h3⟩
      have hF := (@methodFold_facts doc opts fuel (sizeJ pe.2) pe.1
        (Json.jsEntries pe.2) (Json.jobj [], pe.2, s1, false)).1 fr hfr
      split at h3
      · rcases jsres_bind_eq_ok h3 with ⟨st2, hc2, h4⟩
        obtain rfl := (JsRes.ok.inj h4).symm
        exact MStep_trans hW (MStep_trans hF.1 ((hrec fr.2.2.1 _ fr.2.1).1 st2 hc2).1)
      · obtain rfl := (JsRes.ok.inj h3).symm
        exact MStep_trans hW hF.1
    · rw [he]
      refine jsres_bind_ne_spin (wrapperParams_facts.2.1 (by omega)) ?_
      intro s1 hs1
      have hW := wrapperParams_facts.1 s1 hs1
      have hbud1 := @chainBudget_anti doc _ _ hW.1.1
      refine jsres_bind_ne_spin
        ((@methodFold_facts doc opts fuel (sizeJ pe.2) pe.1
          (Json.jsEntries pe.2) (Json.jobj [], pe.2, s1, false)).2.1 hszme
          (by show fuel > sizeJ pe.2 + chainBudget doc s1.used; omega)) ?_
      intro fr hfr
      have hF := (@methodFold_facts doc opts fuel (sizeJ pe.2) pe.1
        (Json.jsEntries pe.2) (Json.jobj [], pe.2, s1, false)).1 fr hfr
      have hbud2 := @chainBudget_anti doc _ _ hF.1.1.1
      have hszr : sizeJ fr.2.1 ≤ 3 * sizeJ pe.2 := by
        have := hF.2
        show sizeJ fr.2.1 ≤ 3 * sizeJ pe.2
        have hs2 : sizeJ (Json.jobj [], pe.2, s1, false).2.1 = sizeJ pe.2 := rfl
        omega
      split
      · refine jsres_bind_ne_spin ((hrec fr.2.2.1 _ fr.2.1).2.1 ?_)
          (fun st2 _ => by simp)
        show fuel > sizeJ fr.2.1 + chainBudget doc fr.2.2.1.used
        have hs3 : (Json.jobj [], pe.2, s1, false).2.2.1 = s1 := rfl
        rw [hs3] at hbud2
        omega
      · simp
    · rw [he]
      refine jsres_bind_ne_err
        (fun t => wrapperParams_facts.2.2 hshd hshp t) ?_ m
      intro s1 _ t
      refine jsres_bind_ne_err
        (fun u => (@methodFold_facts doc opts fuel (sizeJ pe.2) pe.1
          (Json.jsEntries pe.2) (Json.jobj [], pe.2, s1, false)).2.2 hshd
          (fun me hme => ⟨by
              obtain ⟨k, v⟩ := me
              exact shapeOK_valuesK hshp hme,
            hmeth me hme⟩) u) ?_ t
      intro fr hfr u
      have hshr : shapeOK fr.2.1 = true :=
        methodFold_shape hfr (by exact hshp)
          (fun me hme => by
            obtain ⟨k, v⟩ := me
            exact shapeOK_valuesK hshp hme)
      split
      · exact jsres_bind_ne_err
          (fun w => (hrec fr.2.2.1 _ fr.2.1).2.2 hshd hshr w)
          (fun st2 _ w => by simp) u
      · simp

/-- One step of the paths fold, including the `pathPattern` test of line
112. -/
theorem pathStep_facts {doc : Json} {opts : Opts} {fuel : Nat}
    {acc : List (String × Json) × Json × ScanSt} {pe : String × Json} :
    (∀ r, (match opts.pathPattern with
        | some test =>
          if test pe.1 then processOnePath doc opts fuel acc pe
          else JsRes.ok acc
        | none => processOnePath doc opts fuel acc pe) = JsRes.ok r →
       MStep doc acc.2.2 r.2.2) ∧
    (fuel > 3 * sizeJ pe.2 + chainBudget doc acc.2.2.used →
       (match opts.pathPattern with
        | some test =>
          if test pe.1 then processOnePath doc opts fuel acc pe
          else JsRes.ok acc
        | none => processOnePath doc opts fuel acc pe) ≠ JsRes.spin) ∧
    (shapeOK doc = true → shapeOK pe.2 = true →
       ¬ beqJ pe.2 Json.jnull = true →
       (∀ me ∈ Json.jsEntries pe.2, me.1 ∈ HTTP_METHODS →
          ¬ beqJ me.2 Json.jnull = true) →
       ∀ m, (match opts.pathPattern with
        | some test =>
          if test pe.1 then processOnePath doc opts fuel acc pe
          else JsRes.ok acc
        | none => processOnePath doc opts fuel acc pe) ≠ JsRes.err m) := by
  rcases hpp : opts.pathPattern with _ | test
  · exact processOnePath_facts
  · by_cases ht : test pe.1
    · refine ⟨fun r h => ?_, fun hf => ?_, fun h1 h2 h3 h4 m => ?_⟩
      · have h' : (if test pe.1 = true then processOnePath doc opts fuel acc pe
            else JsRes.ok acc) = JsRes.ok r := h
        rw [if_pos ht] at h'
        exact processOnePath_facts.1 r h'
      · show (if test pe.1 = true then processOnePath doc opts fuel acc pe
            else JsRes.ok acc) ≠ JsRes.spin
        rw [if_pos ht]
        exact processOnePath_facts.2.1 hf
      · show (if test pe.1 = true then processOnePath doc opts fuel acc pe
            else JsRes.ok acc) ≠ JsRes.err m
        rw [if_pos ht]
        exact processOnePath_facts.2.2 h1 h2 h3 h4 m
    · refine ⟨fun r h => ?_, fun _ => ?_, fun _ _ _ _ m => ?_⟩
      · have h' : (if test pe.1 = true then processOnePath doc opts fuel acc pe
            else JsRes.ok acc) = JsRes.ok r := h
        rw [if_neg ht] at h'
        obtain rfl := (JsRes.ok.inj h').symm
        exact MStep_refl _ _
      · show (if test pe.1 = true then processOnePath doc opts fuel acc pe
            else JsRes.ok acc) ≠ JsRes.spin
        rw [if_neg ht]
        simp
      · show (if test pe.1 = true then processOnePath doc opts fuel acc pe
            else JsRes.ok acc) ≠ JsRes.err m
        rw [if_neg ht]
        simp

/-- Postconditions of the whole paths fold. -/
theorem pathFold_facts {doc : Json} {opts : Opts} {fuel B : Nat} :
    ∀ {l : List (String × Json)} {acc : List (String × Json) × Json × ScanSt},
      (∀ r, List.foldlM (fun acc pe =>
          match opts.pathPattern with
          | some test =>
            if test pe.1 then processOnePath doc opts fuel acc pe
            else JsRes.ok acc
          | none => processOnePath doc opts fuel acc pe) acc l = JsRes.ok r →
        MStep doc acc.2.2 r.2.2) ∧
      ((∀ pe ∈ l, 3 * sizeJ pe.2 ≤ B) →
        fuel > B + chainBudget doc acc.2.2.used →
        List.foldlM (fun acc pe =>
          match opts.pathPattern with
          | some test =>
            if test pe.1 then processOnePath doc opts fuel acc pe
            else JsRes.ok acc
          | none => processOnePath doc opts fuel acc pe) acc l ≠ JsRes.spin) ∧
      (shapeOK doc = true →
        (∀ pe ∈ l, shapeOK pe.2 = true ∧ ¬ beqJ pe.2 Json.jnull = true ∧
          (∀ me ∈ Json.jsEntries pe.2, me.1 ∈ HTTP_METHODS →
            ¬ beqJ me.2 Json.jnull = true)) →
        ∀ m, List.foldlM (fun acc pe =>
          match opts.pathPattern with
          | some test =>
            if test pe.1 then processOnePath doc opts fuel acc pe
            else JsRes.ok acc
          | none => processOnePath doc opts fuel acc pe) acc l ≠ JsRes.err m)
  | [], acc => by
    refine ⟨fun r h => ?_, fun _ _ => by simp [List.foldlM],
      fun _ _ m => by simp [List.foldlM]⟩
    simp only [List.foldlM] at h
    obtain rfl := (JsRes.ok.inj h).symm
    exact MStep_refl _ _
  | pe :: l, acc => by
    have hfc : List.foldlM (fun acc pe =>
        match opts.pathPattern with
        | some test =>
          if test pe.1 then processOnePath doc opts fuel acc pe
          else JsRes.ok acc
        | none => processOnePath doc opts fuel acc pe) acc (pe :: l) =
        JsRes.bind (match opts.pathPattern with
          | some test =>
            if test pe.1 then processOnePath doc opts fuel acc pe
            else JsRes.ok acc
          | none => processOnePath doc opts fuel acc pe)
          (fun a => List.foldlM (fun acc pe =>
            match opts.pathPattern with
            | some test =>
              if test pe.1 then processOnePath doc opts fuel acc pe
              else JsRes.ok acc
            | none => processOnePath doc opts fuel acc pe) a l) := by
      simp [List.foldlM_cons]
    refine ⟨fun r h => ?_, fun hsz hfuel => ?_, fun hshd hshl m => ?_⟩
    · rw [hfc] at h
      rcases jsres_bind_eq_ok h with ⟨a, ha, h2⟩
      exact MStep_trans (pathStep_facts.1 a ha)
        ((@pathFold_facts doc opts fuel B l a).1 r h2)
    · rw [hfc]
      refine jsres_bind_ne_spin (pathStep_facts.2.1 ?_) ?_
      · have := hsz pe (List.mem_cons_self _ _)
        omega
      · intro a ha
        refine (@pathFold_facts doc opts fuel B l a).2.1
          (fun x hx => hsz x (List.mem_cons_of_mem _ hx)) ?_
        have := @chainBudget_anti doc _ _ (pathStep_facts.1 a ha).1.1
        omega
    · rw [hfc]
      have hh := hshl pe (List.mem_cons_self _ _)
      refine jsres_bind_ne_err
        (fun t => pathStep_facts.2.2 hshd hh.1 hh.2.1 hh.2.2 t) ?_ m
      intro a _ t
      exact (@pathFold_facts doc opts fuel B l a).2.2 hshd
        (fun x hx => hshl x (List.mem_cons_of_mem _ hx)) t

theorem rootShape_paths {doc : Json} (h : rootShape doc = true) :
    ∀ pe ∈ Json.jsEntries (match doc.lookup "paths" with
        | some v => if v.truthy then v else Json.jobj []
        | none => Json.jobj []),
      ¬ beqJ pe.2 Json.jnull = true ∧
      (∀ me ∈ Json.jsEntries pe.2, me.1 ∈ HTTP_METHODS →
        ¬ beqJ me.2 Json.jnull = true) := by
  unfold rootShape at h
  simp only [Bool.and_eq_true] at h
  obtain ⟨⟨-, -⟩, hP⟩ := h
  intro pe hpe
  rw [List.all_eq_true] at hP
  have h1 := hP pe hpe
  simp only [Bool.and_eq_true] at h1
  obtain ⟨h1, h2⟩ := h1
  simp only [Bool.not_eq_true'] at h1
  refine ⟨by simp [h1], ?_⟩
  intro me hme hmem
  rw [List.all_eq_true] at h2
  have h3 := h2 me hme
  simp only [Bool.or_eq_true, Bool.not_eq_true', decide_eq_false_iff_not] at h3
  rcases h3 with h3 | h3
  · exact absurd hmem h3
  · simp [h3]

/-- Postconditions of the whole paths phase (lines 111-160): success is an
`MStep` from the initial state, the phase cannot exhaust the pipeline's fuel,
and it throws no exception on a well-shaped document. -/
theorem processPaths_facts {doc : Json} {opts : Opts} {fuel : Nat}
    {st : ScanSt} :
    (∀ r, processPaths doc opts fuel st = JsRes.ok r → MStep doc st r.2.2) ∧
    (fuel > 3 * sizeJ doc + chainBudget doc st.used →
       processPaths doc opts fuel st ≠ JsRes.spin) ∧
    (ShapeOK doc = true → ∀ m, processPaths doc opts fuel st ≠ JsRes.err m) := by
  have hszP : sizeJ (match doc.lookup "paths" with
      | some v => if v.truthy then v else Json.jobj []
      | none => Json.jobj []) ≤ sizeJ doc := by
    rcases hl : doc.lookup "paths" with _ | v
    · have := sizeJ_pos doc
      simp only [sizeJ, sizeJF]
      omega
    · show sizeJ (if v.truthy = true then v else Json.jobj []) ≤ sizeJ doc
      by_cases ht : v.truthy
      · rw [if_pos ht]
        exact Nat.le_of_lt (sizeJ_lookup hl)
      · rw [if_neg ht]
        have := sizeJ_pos doc
        simp only [sizeJ, sizeJF]
        omega
  have hshP : shapeOK doc = true → shapeOK (match doc.lookup "paths" with
      | some v => if v.truthy then v else Json.jobj []
      | none => Json.jobj []) = true := by
    intro hshd
    rcases hl : doc.lookup "paths" with _ | v
    · rfl
    · show shapeOK (if v.truthy = true then v else Json.jobj []) = true
      by_cases ht : v.truthy
      · rw [if_pos ht]
        exact shapeOK_lookup hshd hl
      · rw [if_neg ht]
        rfl
  refine ⟨fun r h => ?_, fun hfuel => ?_, fun hshD m => ?_⟩
  · unfold processPaths at h
    rcases jsres_bind_eq_ok h with ⟨a, ha, h2⟩
    obtain rfl := (JsRes.ok.inj h2).symm
    exact (@pathFold_facts doc opts fuel (3 * sizeJ doc) _ _).1 a ha
  · unfold processPaths
    refine jsres_bind_ne_spin
      ((@pathFold_facts doc opts fuel (3 * sizeJ doc) _ _).2.1 ?_
        (by show fuel > 3 * sizeJ doc + chainBudget doc st.used; omega))
      (fun a _ => by simp)
    intro pe hpe
    obtain ⟨k, v⟩ := pe
    have := sizeJ_valuesK_le hpe
    show 3 * sizeJ v ≤ 3 * sizeJ doc
    omega
  · rw [ShapeOK, Bool.and_eq_true] at hshD
    obtain ⟨hshd, hroot⟩ := hshD
    unfold processPaths
    refine jsres_bind_ne_err
      ((@pathFold_facts doc opts fuel (3 * sizeJ doc) _ _).2.2 hshd ?_)
      (fun a _ t => by simp) m
    intro pe hpe
    have hr := rootShape_paths hroot pe hpe
    refine ⟨?_, hr.1, hr.2⟩
    obtain ⟨k, v⟩ := pe
    exact shapeOK_valuesK (hshP hshd) hpe

/-! ## Lemmas: the unseen-definition measure of the fixed-point loop -/

theorem listLE_eq_of_length {α : Type _} {a b : List α} (h : listLE a b)
    (hl : b.length ≤ a.length) : a = b := by
  obtain ⟨c, rfl⟩ := h
  have hc : c.length = 0 := by
    rw [List.length_append] at hl
    omega
  obtain rfl := List.length_eq_zero.mp hc
  simp

/-- The unseen count only shrinks as the seen set grows. -/
theorem unseenComps_anti {doc : Json} {st st' : ScanSt}
    (h : listLE st.seen st'.seen) :
    unseenComps doc st' ≤ unseenComps doc st := by
  unfold unseenComps
  have innerCat : ∀ (o2 : Option Json) (t : String),
      (match o2 with
        | some catv =>
          List.foldl (fun (b : Nat) (nv : String × Json) =>
              b + if componentPath t nv.1 ∈ st'.seen then 0 else 1)
            0 (Json.jsEntries catv)
        | none => 0) ≤
      (match o2 with
        | some catv =>
          List.foldl (fun (b : Nat) (nv : String × Json) =>
              b + if componentPath t nv.1 ∈ st.seen then 0 else 1)
            0 (Json.jsEntries catv)
        | none => 0) := by
    intro o2 t
    cases o2 with
    | none => exact Nat.le_refl 0
    | some catv =>
      have hp : ∀ nv ∈ Json.jsEntries catv,
          (fun (nv : String × Json) =>
            if componentPath t nv.1 ∈ st'.seen then 0 else 1) nv ≤
          (fun (nv : String × Json) =>
            if componentPath t nv.1 ∈ st.seen then 0 else 1) nv := by
        intro nv _
        by_cases hm : componentPath t nv.1 ∈ st.seen
        · simp [hm, listLE_mem h hm]
        · simp only [if_neg hm]
          split <;> omega
      have := foldl_add_le (Json.jsEntries catv) hp 0 0 0 (Nat.le_refl 0)
      simpa using this
  have inner : ∀ (t : String),
      (match doc.lookup "components" with
        | some c =>
          match c.lookup t with
          | some catv =>
            List.foldl (fun (b : Nat) (nv : String × Json) =>
                b + if componentPath t nv.1 ∈ st'.seen then 0 else 1)
              0 (Json.jsEntries catv)
          | none => 0
        | none => 0) ≤
      (match doc.lookup "components" with
        | some c =>
          match c.lookup t with
          | some catv =>
            List.foldl (fun (b : Nat) (nv : String × Json) =>
                b + if componentPath t nv.1 ∈ st.seen then 0 else 1)
              0 (Json.jsEntries catv)
          | none => 0
        | none => 0) := by
    intro t
    cases doc.lookup "components" with
    | none => exact Nat.le_refl 0
    | some c => exact innerCat (c.lookup t) t
  simp only [COMPONENT_TYPES, List.foldl]
  have h1 := inner "schemas"
  have h2 := inner "responses"
  have h3 := inner "parameters"
  have h4 := inner "examples"
  have h5 := inner "requestBodies"
  have h6 := inner "headers"
  have h7 := inner "securitySchemes"
  omega

/-- Scanning a previously unscanned existing definition strictly decreases
the unseen count. -/
theorem unseenComps_step {doc : Json} {st st' : ScanSt} {ty n : String}
    {comp : Json} (hty : ty ∈ COMPONENT_TYPES)
    (hc : componentAt doc ty n = some comp)
    (hsub : listLE st.seen st'.seen)
    (hout : componentPath ty n ∉ st.seen)
    (hin : componentPath ty n ∈ st'.seen) :
    unseenComps doc st' + 1 ≤ unseenComps doc st := by
  unfold componentAt at hc
  rcases hdc : doc.lookup "components" with _ | c
  · rw [hdc] at hc; exact absurd hc (by simp)
  · simp only [hdc] at hc
    rcases hct : c.lookup ty with _ | catv
    · simp only [hct] at hc
      exact absurd hc (by simp)
    · simp only [hct] at hc
      have hmem : (n, comp) ∈ Json.jsEntries catv := by
        cases catv with
        | jobj fs => exact lookup_mem hc
        | jnull => exact absurd hc (by simp [Json.lookup])
        | jbool b => exact absurd hc (by simp [Json.lookup])
        | jnum m => exact absurd hc (by simp [Json.lookup])
        | jstr s => exact absurd hc (by simp [Json.lookup])
        | jarr xs => exact absurd hc (by simp [Json.lookup])
      have hp : ∀ nv ∈ Json.jsEntries catv,
          (fun (nv : String × Json) =>
            if componentPath ty nv.1 ∈ st'.seen then 0 else 1) nv ≤
          (fun (nv : String × Json) =>
            if componentPath ty nv.1 ∈ st.seen then 0 else 1) nv := by
        intro nv _
        by_cases hm : componentPath ty nv.1 ∈ st.seen
        · simp [hm, listLE_mem hsub hm]
        · simp only [if_neg hm]
          split <;> omega
      have hslack := foldl_add_slack (f := fun (nv : String × Json) =>
          if componentPath ty nv.1 ∈ st'.seen then 0 else 1)
        (g := fun (nv : String × Json) =>
          if componentPath ty nv.1 ∈ st.seen then 0 else 1)
        (Json.jsEntries catv) (n, comp) hmem hp 1
        (by simp [hin, hout]) 0 0 (Nat.le_refl 0)
      have hanti : ∀ (t : String),
          (match doc.lookup "components" with
            | some c' =>
              match c'.lookup t with
              | some catv' =>
                List.foldl (fun (b : Nat) (nv : String × Json) =>
                    b + if componentPath t nv.1 ∈ st'.seen then 0 else 1)
                  0 (Json.jsEntries catv')
              | none => 0
            | none => 0) ≤
          (match doc.lookup "components" with
            | some c' =>
              match c'.lookup t with
              | some catv' =>
                List.foldl (fun (b : Nat) (nv : String × Json) =>
                    b + if componentPath t nv.1 ∈ st.seen then 0 else 1)
                  0 (Json.jsEntries catv')
              | none => 0
            | none => 0) := by
        intro t
        simp only [hdc]
        rcases hct' : c.lookup t with _ | catv'
        · exact Nat.le_refl 0
        · have hp' : ∀ nv ∈ Json.jsEntries catv',
              (fun (nv : String × Json) =>
                if componentPath t nv.1 ∈ st'.seen then 0 else 1) nv ≤
              (fun (nv : String × Json) =>
                if componentPath t nv.1 ∈ st.seen then 0 else 1) nv := by
            intro nv _
            by_cases hm : componentPath t nv.1 ∈ st.seen
            · simp [hm, listLE_mem hsub hm]
            · simp only [if_neg hm]
              split <;> omega
          have := foldl_add_le (Json.jsEntries catv') hp' 0 0 0 (Nat.le_refl 0)
          simpa using this
      have hslackty :
          (match doc.lookup "components" with
            | some c' =>
              match c'.lookup ty with
              | some catv' =>
                List.foldl (fun (b : Nat) (nv : String × Json) =>
                    b + if componentPath ty nv.1 ∈ st'.seen then 0 else 1)
                  0 (Json.jsEntries catv')
              | none => 0
            | none => 0) + 1 ≤
          (match doc.lookup "components" with
            | some c' =>
              match c'.lookup ty with
              | some catv' =>
                List.foldl (fun (b : Nat) (nv : String × Json) =>
                    b + if componentPath ty nv.1 ∈ st.seen then 0 else 1)
                  0 (Json.jsEntries catv')
              | none => 0
            | none => 0) := by
        simp only [hdc, hct]
        simpa using hslack
      clear hslack hp hmem hc
      unfold unseenComps
      simp only [COMPONENT_TYPES, List.foldl]
      simp only [COMPONENT_TYPES, List.mem_cons, List.mem_singleton] at hty
      have ha1 := hanti "schemas"
      have ha2 := hanti "responses"
      have ha3 := hanti "parameters"
      have ha4 := hanti "examples"
      have ha5 := hanti "requestBodies"
      have ha6 := hanti "headers"
      have ha7 := hanti "securitySchemes"
      rcases hty with rfl | rfl | rfl | rfl | rfl | rfl | rfl | hf
      · omega
      · omega
      · omega
      · omega
      · omega
      · omega
      · omega
      · exact absurd hf (by simp)

theorem collectRefs_ok_fuel_pos {doc : Json} {fuel : Nat} {st st' : ScanSt}
    {p : JPath} {j : Json}
    (h : collectRefs doc fuel st p j = JsRes.ok st') : fuel ≠ 0 := by
  intro h0
  subst h0
  simp [collectRefs] at h

/-- Postconditions of one name of the fixed-point pass. -/
theorem scanUsedName_facts {doc : Json} {fuel : Nat} {t : String}
    (ht : t ∈ COMPONENT_TYPES) {acc : ScanSt × Bool} {n : String} :
    (∀ r, scanUsedName doc fuel t acc n = JsRes.ok r →
       MStep doc acc.1 r.1 ∧
       (∀ c, componentAt doc t n = some c → c.isObjLike = true →
          componentPath t n ∈ r.1.seen) ∧
       (r.2 = false → acc.2 = false) ∧
       unseenComps doc r.1 ≤ unseenComps doc acc.1 ∧
       (acc.2 = false → r.2 = true →
          unseenComps doc r.1 + 1 ≤ unseenComps doc acc.1) ∧
       (acc.2 = false → r.2 = false →
          getUsed r.1.used t = getUsed acc.1.used t)) ∧
    (fuel > sizeJ doc + chainBudget doc acc.1.used →
       scanUsedName doc fuel t acc n ≠ JsRes.spin) ∧
    (shapeOK doc = true → ∀ m, scanUsedName doc fuel t acc n ≠ JsRes.err m) := by
  have hrec := collectRefs_master doc (shapeOK doc = true) id fuel
  rcases hc : componentAt doc t n with _ | c
  · have he : scanUsedName doc fuel t acc n = JsRes.ok acc := by
      unfold scanUsedName
      rw [hc]
    refine ⟨fun r h => ?_, fun _ => by rw [he]; simp, fun _ m => by rw [he]; simp⟩
    rw [he] at h
    obtain rfl := (JsRes.ok.inj h).symm
    exact ⟨MStep_refl _ _,
      fun c hcc => absurd hcc (by simp),
      fun h => h, Nat.le_refl _,
      fun h1 h2 => by simp [h1] at h2,
      fun _ _ => rfl⟩
  · by_cases htr : c.truthy
    case neg =>
      have he : scanUsedName doc fuel t acc n = JsRes.ok acc := by
        unfold scanUsedName
        rw [hc]
        show (if c.truthy = true then JsRes.bind
            (collectRefs doc fuel acc.1 (componentPath t n) c) fun st =>
            JsRes.ok (st, acc.2 ||
              decide ((getUsed acc.1.used t).length <
                (getUsed st.used t).length))
          else JsRes.ok acc) = JsRes.ok acc
        rw [if_neg htr]
      refine ⟨fun r h => ?_, fun _ => by rw [he]; simp,
        fun _ m => by rw [he]; simp⟩
      rw [he] at h
      obtain rfl := (JsRes.ok.inj h).symm
      refine ⟨MStep_refl _ _, fun c' hcc hol => ?_, fun h => h, Nat.le_refl _,
        fun h1 h2 => by simp [h1] at h2, fun _ _ => rfl⟩
      obtain rfl : c' = c := (Option.some.inj hcc).symm
      exact absurd (truthy_of_isObjLike hol) htr
    case pos =>
      have he : scanUsedName doc fuel t acc n = JsRes.bind
          (collectRefs doc fuel acc.1 (componentPath t n) c) (fun st =>
          JsRes.ok (st, acc.2 ||
            decide ((getUsed acc.1.used t).length <
              (getUsed st.used t).length))) := by
        unfold scanUsedName
        rw [hc]
        show (if c.truthy = true then JsRes.bind
            (collectRefs doc fuel acc.1 (componentPath t n) c) fun st =>
            JsRes.ok (st, acc.2 ||
              decide ((getUsed acc.1.used t).length <
                (getUsed st.used t).length))
          else JsRes.ok acc) = _
        rw [if_pos htr]
      refine ⟨fun r h => ?_, fun hf => ?_, fun hsh m => ?_⟩
      · rw [he] at h
        rcases jsres_bind_eq_ok h with ⟨st2, hcoll, h2⟩
        obtain rfl := (JsRes.ok.inj h2).symm
        have hfp := collectRefs_ok_fuel_pos hcoll
        have hm := (hrec acc.1 (componentPath t n) c).1 st2 hcoll
        have hseenLE : listLE acc.1.seen st2.seen := hm.1.1.2.1
        refine ⟨hm.1, fun c' hcc hol => ?_, fun hb => ?_, unseenComps_anti hseenLE,
          fun h1 h2 => ?_, fun h1 h2 => ?_⟩
        · obtain rfl : c' = c := (Option.some.inj hcc).symm
          exact hm.2 hol
        · show acc.2 = false
          have : (acc.2 || decide ((getUsed acc.1.used t).length <
              (getUsed st2.used t).length)) = false := hb
          exact (Bool.or_eq_false_iff.mp this).1
        · -- a strict decrease: the scan marked a previously unscanned body
          have hlt : (getUsed acc.1.used t).length <
              (getUsed st2.used t).length := by
            have h2' : (acc.2 || decide ((getUsed acc.1.used t).length <
                (getUsed st2.used t).length)) = true := h2
            rw [h1, Bool.false_or] at h2'
            exact of_decide_eq_true h2'
          by_cases hpath : componentPath t n ∈ acc.1.seen
          · have hsk : collectRefs doc fuel acc.1 (componentPath t n) c =
                JsRes.ok acc.1 := collectRefs_skip hfp (Or.inr hpath)
            rw [hsk] at hcoll
            obtain rfl := (JsRes.ok.inj hcoll).symm
            omega
          · by_cases hol : c.isObjLike = true
            · exact unseenComps_step ht hc hseenLE hpath (hm.2 hol)
            · have hsk : collectRefs doc fuel acc.1 (componentPath t n) c =
                  JsRes.ok acc.1 :=
                collectRefs_skip hfp (Or.inl (by simpa using hol))
              rw [hsk] at hcoll
              obtain rfl := (JsRes.ok.inj hcoll).symm
              omega
        · -- no growth of the checked category: its reachable list is unchanged
          have hnlt : ¬ (getUsed acc.1.used t).length <
              (getUsed st2.used t).length := by
            have h2' : (acc.2 || decide ((getUsed acc.1.used t).length <
                (getUsed st2.used t).length)) = false := h2
            rw [h1, Bool.false_or] at h2'
            exact of_decide_eq_false h2'
          exact (listLE_eq_of_length (hm.1.1.1 t) (by omega)).symm
      · rw [he]
        refine jsres_bind_ne_spin ((hrec acc.1 _ c).2.1 ?_)
          (fun st2 _ => by simp)
        have := sizeJ_componentAt hc
        omega
      · rw [he]
        exact jsres_bind_ne_err
          (fun u => (hrec acc.1 _ c).2.2 hsh (shapeOK_componentAt hsh hc) u)
          (fun st2 _ u => by simp) m

/-- Postconditions of the inner fold of one fixed-point pass over a name
snapshot. -/
theorem scanFold_facts {doc : Json} {fuel : Nat} {t : String}
    (ht : t ∈ COMPONENT_TYPES) :
    ∀ {l : List String} {acc : ScanSt × Bool},
      (∀ r, List.foldlM (scanUsedName doc fuel t) acc l = JsRes.ok r →
        MStep doc acc.1 r.1 ∧
        (∀ n ∈ l, ∀ c, componentAt doc t n = some c → c.isObjLike = true →
           componentPath t n ∈ r.1.seen) ∧
        (r.2 = false → acc.2 = false) ∧
        unseenComps doc r.1 ≤ unseenComps doc acc.1 ∧
        (acc.2 = false → r.2 = true →
           unseenComps doc r.1 + 1 ≤ unseenComps doc acc.1) ∧
        (acc.2 = false → r.2 = false →
           getUsed r.1.used t = getUsed acc.1.used t)) ∧
      (fuel > sizeJ doc + chainBudget doc acc.1.used →
        List.foldlM (scanUsedName doc fuel t) acc l ≠ JsRes.spin) ∧
      (shapeOK doc = true → ∀ m,
        List.foldlM (scanUsedName doc fuel t) acc l ≠ JsRes.err m)
  | [], acc => by
    refine ⟨fun r h => ?_, fun _ => by simp [List.foldlM],
      fun _ m => by simp [List.foldlM]⟩
    simp only [List.foldlM] at h
    obtain rfl := (JsRes.ok.inj h).symm
    exact ⟨MStep_refl _ _, fun n hn => absurd hn (List.not_mem_nil n),
      fun h => h, Nat.le_refl _, fun h1 h2 => by simp [h1] at h2,
      fun _ _ => rfl⟩
  | n :: l, acc => by
    have hfc : List.foldlM (scanUsedName doc fuel t) acc (n :: l) =
        JsRes.bind (scanUsedName doc fuel t acc n)
          (fun a => List.foldlM (scanUsedName doc fuel t) a l) := by
      simp [List.foldlM_cons]
    refine ⟨fun r h => ?_, fun hf => ?_, fun hsh m => ?_⟩
    · rw [hfc] at h
      rcases jsres_bind_eq_ok h with ⟨a, ha, h2⟩
      have h1 := (scanUsedName_facts ht).1 a ha
      have hrest := (@scanFold_facts doc fuel t ht l a).1 r h2
      refine ⟨MStep_trans h1.1 hrest.1, ?_, fun hb => h1.2.2.1 (hrest.2.2.1 hb),
        le_trans hrest.2.2.2.1 h1.2.2.2.1, ?_, ?_⟩
      · intro x hx c hcx hol
        rcases List.mem_cons.mp hx with rfl | hx'
        · exact listLE_mem hrest.1.1.2.1 (h1.2.1 c hcx hol)
        · exact hrest.2.1 x hx' c hcx hol
      · intro hA hR
        by_cases hMid : a.2 = true
        · have := h1.2.2.2.2.1 hA hMid
          have := hrest.2.2.2.1
          omega
        · have hMid' : a.2 = false := by
            cases hq : a.2
            · rfl
            · exact absurd hq hMid
          have := hrest.2.2.2.2.1 hMid' hR
          have := h1.2.2.2.1
          omega
      · intro hA hR
        have hMid : a.2 = false := hrest.2.2.1 hR
        rw [hrest.2.2.2.2.2 hMid hR, h1.2.2.2.2.2 hA hMid]
    · rw [hfc]
      refine jsres_bind_ne_spin ((scanUsedName_facts ht).2.1 hf) ?_
      intro a ha
      have h1 := (scanUsedName_facts ht).1 a ha
      refine (@scanFold_facts doc fuel t ht l a).2.1 ?_
      have := @chainBudget_anti doc _ _ h1.1.1.1
      omega
    · rw [hfc]
      refine jsres_bind_ne_err (fun u => (scanUsedName_facts ht).2.2 hsh u)
        ?_ m
      intro a _ u
      exact (@scanFold_facts doc fuel t ht l a).2.2 hsh u

/-- Postconditions of one category of a fixed-point pass.  `Array.from`
snapshots the category's current reachable list; every name of the snapshot
with an existing object-like definition ends up scanned. -/
theorem scanPass_facts {doc : Json} {fuel : Nat} {acc : ScanSt × Bool}
    {t : String} (ht : t ∈ COMPONENT_TYPES) :
    (∀ r, scanPass doc fuel acc t = JsRes.ok r →
       MStep doc acc.1 r.1 ∧
       (∀ n ∈ getUsed acc.1.used t, ∀ c, componentAt doc t n = some c →
          c.isObjLike = true → componentPath t n ∈ r.1.seen) ∧
       (r.2 = false → acc.2 = false) ∧
       unseenComps doc r.1 ≤ unseenComps doc acc.1 ∧
       (acc.2 = false → r.2 = true →
          unseenComps doc r.1 + 1 ≤ unseenComps doc acc.1) ∧
       (acc.2 = false → r.2 = false →
          getUsed r.1.used t = getUsed acc.1.used t)) ∧
    (fuel > sizeJ doc + chainBudget doc acc.1.used →
       scanPass doc fuel acc t ≠ JsRes.spin) ∧
    (shapeOK doc = true → ∀ m, scanPass doc fuel acc t ≠ JsRes.err m) := by
  unfold scanPass
  exact @scanFold_facts doc fuel t ht (getUsed acc.1.used t) acc

/-- Postconditions of the outer fold of one fixed-point pass over a list of
categories. -/
theorem typeFold_facts {doc : Json} {fuel : Nat} :
    ∀ {l : List String}, (∀ t ∈ l, t ∈ COMPONENT_TYPES) →
    ∀ {acc : ScanSt × Bool},
      (∀ r, List.foldlM (scanPass doc fuel) acc l = JsRes.ok r →
        MStep doc acc.1 r.1 ∧
        (r.2 = false → acc.2 = false) ∧
        unseenComps doc r.1 ≤ unseenComps doc acc.1 ∧
        (acc.2 = false → r.2 = true →
           unseenComps doc r.1 + 1 ≤ unseenComps doc acc.1)) ∧
      (fuel > sizeJ doc + chainBudget doc acc.1.used →
        List.foldlM (scanPass doc fuel) acc l ≠ JsRes.spin) ∧
      (shapeOK doc = true → ∀ m,
        List.foldlM (scanPass doc fuel) acc l ≠ JsRes.err m)
  | [], _, acc => by
    refine ⟨fun r h => ?_, fun _ => by simp [List.foldlM],
      fun _ m => by simp [List.foldlM]⟩
    simp only [List.foldlM] at h
    obtain rfl := (JsRes.ok.inj h).symm
    exact ⟨MStep_refl _ _, fun h => h, Nat.le_refl _,
      fun h1 h2 => by simp [h1] at h2⟩
  | t :: l, hl, acc => by
    have ht : t ∈ COMPONENT_TYPES := hl t (List.mem_cons_self _ _)
    have hl' : ∀ x ∈ l, x ∈ COMPONENT_TYPES :=
      fun x hx => hl x (List.mem_cons_of_mem _ hx)
    have hfc : List.foldlM (scanPass doc fuel) acc (t :: l) =
        JsRes.bind (scanPass doc fuel acc t)
          (fun a => List.foldlM (scanPass doc fuel) a l) := by
      simp [List.foldlM_cons]
    refine ⟨fun r h => ?_, fun hf => ?_, fun hsh m => ?_⟩
    · rw [hfc] at h
      rcases jsres_bind_eq_ok h with ⟨a, ha, h2⟩
      have h1 := (scanPass_facts ht).1 a ha
      have hrest := (@typeFold_facts doc fuel l hl' a).1 r h2
      refine ⟨MStep_trans h1.1 hrest.1, fun hb => h1.2.2.1 (hrest.2.1 hb),
        le_trans hrest.2.2.1 h1.2.2.2.1, ?_⟩
      intro hA hR
      by_cases hMid : a.2 = true
      · have := h1.2.2.2.2.1 hA hMid
        have := hrest.2.2.1
        omega
      · have hMid' : a.2 = false := by
          cases hq : a.2
          · rfl
          · exact absurd hq hMid
        have := hrest.2.2.2 hMid' hR
        have := h1.2.2.2.1
        omega
    · rw [hfc]
      refine jsres_bind_ne_spin ((scanPass_facts ht).2.1 hf) ?_
      intro a ha
      have h1 := (scanPass_facts ht).1 a ha
      refine (@typeFold_facts doc fuel l hl' a).2.1 ?_
      have := @chainBudget_anti doc _ _ h1.1.1.1
      omega
    · rw [hfc]
      refine jsres_bind_ne_err (fun u => (scanPass_facts ht).2.2 hsh u) ?_ m
      intro a _ u
      exact (@typeFold_facts doc fuel l hl' a).2.2 hsh u

/-- Postconditions of one whole fixed-point pass. -/
theorem onePass_facts {doc : Json} {fuel : Nat} {st : ScanSt} :
    (∀ r, onePass doc fuel st = JsRes.ok r →
       MStep doc st r.1 ∧
       (r.2 = true → unseenComps doc r.1 + 1 ≤ unseenComps doc st)) ∧
    (fuel > sizeJ doc + chainBudget doc st.used →
       onePass doc fuel st ≠ JsRes.spin) ∧
    (shapeOK doc = true → ∀ m, onePass doc fuel st ≠ JsRes.err m) := by
  unfold onePass
  have hT : ∀ t ∈ COMPONENT_TYPES, t ∈ COMPONENT_TYPES := fun t h => h
  refine ⟨fun r h => ?_, fun hf => ?_, fun hsh m => ?_⟩
  · have h1 := (@typeFold_facts doc fuel COMPONENT_TYPES hT (st, false)).1 r h
    exact ⟨h1.1, fun hb => h1.2.2.2 rfl hb⟩
  · exact (@typeFold_facts doc fuel COMPONENT_TYPES hT (st, false)).2.1 hf
  · exact (@typeFold_facts doc fuel COMPONENT_TYPES hT (st, false)).2.2 hsh m

/-- When a full pass reports no change, every reachable name with an existing
object-like definition has been scanned: names present when the pass began
are covered by their category's snapshot (`securitySchemes`, scanned last,
additionally cannot have grown), and names added during the pass were
scanned at the moment they were tracked. -/
theorem onePass_exit {doc : Json} {fuel : Nat} {st st' : ScanSt}
    (h : onePass doc fuel st = JsRes.ok (st', false)) :
    MStep doc st st' ∧ ScannedAll doc st' := by
  unfold onePass at h
  simp only [COMPONENT_TYPES, List.foldlM_cons, List.foldlM_nil,
    jsres_bind_def, jsres_pure_def] at h
  rcases jsres_bind_eq_ok h with ⟨a1, e1, h⟩
  rcases jsres_bind_eq_ok h with ⟨a2, e2, h⟩
  rcases jsres_bind_eq_ok h with ⟨a3, e3, h⟩
  rcases jsres_bind_eq_ok h with ⟨a4, e4, h⟩
  rcases jsres_bind_eq_ok h with ⟨a5, e5, h⟩
  rcases jsres_bind_eq_ok h with ⟨a6, e6, h⟩
  rcases jsres_bind_eq_ok h with ⟨a7, e7, h⟩
  obtain rfl : a7 = (st', false) := JsRes.ok.inj h
  have m1 := (scanPass_facts (t := "schemas") (by simp [COMPONENT_TYPES])).1 a1 e1
  have m2 := (scanPass_facts (t := "responses") (by simp [COMPONENT_TYPES])).1 a2 e2
  have m3 := (scanPass_facts (t := "parameters") (by simp [COMPONENT_TYPES])).1 a3 e3
  have m4 := (scanPass_facts (t := "examples") (by simp [COMPONENT_TYPES])).1 a4 e4
  have m5 := (scanPass_facts (t := "requestBodies") (by simp [COMPONENT_TYPES])).1 a5 e5
  have m6 := (scanPass_facts (t := "headers") (by simp [COMPONENT_TYPES])).1 a6 e6
  have m7 := (scanPass_facts (t := "securitySchemes")
    (by simp [COMPONENT_TYPES])).1 (st', false) e7
  -- no pass reported a change
  have b6 : a6.2 = false := m7.2.2.1 rfl
  have b5 : a5.2 = false := m6.2.2.1 b6
  have b4 : a4.2 = false := m5.2.2.1 b5
  have b3 : a3.2 = false := m4.2.2.1 b4
  have b2 : a2.2 = false := m3.2.2.1 b3
  have b1 : a1.2 = false := m2.2.2.1 b2
  -- the `securitySchemes` reachable list did not move during its own pass
  have hEq : getUsed st'.used "securitySchemes" =
      getUsed a6.1.used "securitySchemes" := m7.2.2.2.2.2 b6 rfl
  -- forward `MStep` chains from the initial state
  have M1 : MStep doc st a1.1 := m1.1
  have M2 : MStep doc st a2.1 := MStep_trans M1 m2.1
  have M3 : MStep doc st a3.1 := MStep_trans M2 m3.1
  have M4 : MStep doc st a4.1 := MStep_trans M3 m4.1
  have M5 : MStep doc st a5.1 := MStep_trans M4 m5.1
  have M6 : MStep doc st a6.1 := MStep_trans M5 m6.1
  have hAll : MStep doc st st' := MStep_trans M6 m7.1
  -- backward chains into the final state
  have S6 : MStep doc a6.1 st' := m7.1
  have S5 : MStep doc a5.1 st' := MStep_trans m6.1 S6
  have S4 : MStep doc a4.1 st' := MStep_trans m5.1 S5
  have S3 : MStep doc a3.1 st' := MStep_trans m4.1 S4
  have S2 : MStep doc a2.1 st' := MStep_trans m3.1 S3
  have S1 : MStep doc a1.1 st' := MStep_trans m2.1 S2
  refine ⟨hAll, ?_⟩
  intro t htC n hn b hb hol
  simp only [COMPONENT_TYPES, List.mem_cons, List.mem_singleton] at htC
  rcases htC with rfl | rfl | rfl | rfl | rfl | rfl | rfl | hf
  · by_cases hstart : n ∈ getUsed st.used "schemas"
    · exact listLE_mem S1.1.2.1 (m1.2.1 n hstart b hb hol)
    · rcases hAll.2.2 "schemas" n hn hstart with hss | hsc
      · exact absurd hss (by decide)
      · exact hsc b hb hol
  · by_cases hstart : n ∈ getUsed st.used "responses"
    · exact listLE_mem S2.1.2.1
        (m2.2.1 n (listLE_mem (M1.1.1 "responses") hstart) b hb hol)
    · rcases hAll.2.2 "responses" n hn hstart with hss | hsc
      · exact absurd hss (by decide)
      · exact hsc b hb hol
  · by_cases hstart : n ∈ getUsed st.used "parameters"
    · exact listLE_mem S3.1.2.1
        (m3.2.1 n (listLE_mem (M2.1.1 "parameters") hstart) b hb hol)
    · rcases hAll.2.2 "parameters" n hn hstart with hss | hsc
      · exact absurd hss (by decide)
      · exact hsc b hb hol
  · by_cases hstart : n ∈ getUsed st.used "examples"
    · exact listLE_mem S4.1.2.1
        (m4.2.1 n (listLE_mem (M3.1.1 "examples") hstart) b hb hol)
    · rcases hAll.2.2 "examples" n hn hstart with hss | hsc
      · exact absurd hss (by decide)
      · exact hsc b hb hol
  · by_cases hstart : n ∈ getUsed st.used "requestBodies"
    · exact listLE_mem S5.1.2.1
        (m5.2.1 n (listLE_mem (M4.1.1 "requestBodies") hstart) b hb hol)
    · rcases hAll.2.2 "requestBodies" n hn hstart with hss | hsc
      · exact absurd hss (by decide)
      · exact hsc b hb hol
  · by_cases hstart : n ∈ getUsed st.used "headers"
    · exact listLE_mem S6.1.2.1
        (m6.2.1 n (listLE_mem (M5.1.1 "headers") hstart) b hb hol)
    · rcases hAll.2.2 "headers" n hn hstart with hss | hsc
      · exact absurd hss (by decide)
      · exact hsc b hb hol
  · rw [show getUsed st'.used "securitySchemes" =
        getUsed a6.1.used "securitySchemes" from hEq] at hn
    exact m7.2.1 n hn b hb hol
  · exact absurd hf (by simp)

theorem foldl_add_le_length {α : Type _} {f : α → Nat} (hf : ∀ a, f a ≤ 1) :
    ∀ (l : List α) (a : Nat),
      List.foldl (fun s x => s + f x) a l ≤ a + l.length
  | [], a => by simp
  | x :: l, a => by
    simp only [List.foldl, List.length_cons]
    have h1 := foldl_add_le_length hf l (a + f x)
    have h2 := hf x
    omega

/-- The unseen count is bounded by the total number of component entries, so
the loop fuel always exceeds it. -/
theorem unseenComps_lt_loopFuel (doc : Json) (st : ScanSt) :
    unseenComps doc st < loopFuel doc := by
  have innerCat : ∀ (o2 : Option Json) (t : String),
      (match o2 with
        | some catv =>
          List.foldl (fun (b : Nat) (nv : String × Json) =>
              b + if componentPath t nv.1 ∈ st.seen then 0 else 1)
            0 (Json.jsEntries catv)
        | none => 0) ≤
      (match o2 with
        | some catv => (Json.jsEntries catv).length
        | none => 0) := by
    intro o2 t
    cases o2 with
    | none => exact Nat.le_refl 0
    | some catv =>
      have := foldl_add_le_length (f := fun (nv : String × Json) =>
          if componentPath t nv.1 ∈ st.seen then 0 else 1)
        (fun nv => by
          show (if componentPath t nv.1 ∈ st.seen then 0 else 1) ≤ 1
          split <;> omega) (Json.jsEntries catv) 0
      simpa using this
  have inner : ∀ (t : String),
      (match doc.lookup "components" with
        | some c =>
          match c.lookup t with
          | some catv =>
            List.foldl (fun (b : Nat) (nv : String × Json) =>
                b + if componentPath t nv.1 ∈ st.seen then 0 else 1)
              0 (Json.jsEntries catv)
          | none => 0
        | none => 0) ≤
      (match doc.lookup "components" with
        | some c =>
          match c.lookup t with
          | some catv => (Json.jsEntries catv).length
          | none => 0
        | none => 0) := by
    intro t
    cases doc.lookup "components" with
    | none => exact Nat.le_refl 0
    | some c => exact innerCat (c.lookup t) t
  unfold unseenComps loopFuel
  simp only [COMPONENT_TYPES, List.foldl]
  have h1 := inner "schemas"
  have h2 := inner "responses"
  have h3 := inner "parameters"
  have h4 := inner "examples"
  have h5 := inner "requestBodies"
  have h6 := inner "headers"
  have h7 := inner "securitySchemes"
  omega

/-- Postconditions of the `do … while (hasChanges)` loop: it cannot exhaust
`loopFuel` (every changed pass strictly decreases the unseen count), and on
exit every reachable name's existing object-like definition has been
scanned. -/
theorem closureLoop_facts {doc : Json} {fuel : Nat} :
    ∀ {k : Nat} {st : ScanSt},
      (∀ st', closureLoop doc fuel k st = JsRes.ok st' →
        MStep doc st st' ∧ ScannedAll doc st') ∧
      (fuel > sizeJ doc + chainBudget doc st.used →
        k > unseenComps doc st →
        closureLoop doc fuel k st ≠ JsRes.spin) ∧
      (shapeOK doc = true → ∀ m, closureLoop doc fuel k st ≠ JsRes.err m)
  | 0, st => by
    refine ⟨fun st' h => by simp [closureLoop] at h,
      fun _ hk => absurd hk (by omega),
      fun _ m => by simp [closureLoop]⟩
  | k + 1, st => by
    have he : closureLoop doc fuel (k + 1) st =
        JsRes.bind (onePass doc fuel st) (fun r =>
          if r.2 then closureLoop doc fuel k r.1 else JsRes.ok r.1) := by
      rw [closureLoop]
    refine ⟨fun st' h => ?_, fun hf hk => ?_, fun hsh m => ?_⟩
    · rw [he] at h
      rcases jsres_bind_eq_ok h with ⟨r, hr, h2⟩
      obtain ⟨r1, r2⟩ := r
      have hp := onePass_facts.1 (r1, r2) hr
      cases r2 with
      | true =>
        rw [if_pos rfl] at h2
        have hrec := (@closureLoop_facts doc fuel k r1).1 st' h2
        exact ⟨MStep_trans hp.1 hrec.1, hrec.2⟩
      | false =>
        rw [if_neg (by simp)] at h2
        obtain rfl := (JsRes.ok.inj h2).symm
        exact onePass_exit hr
    · rw [he]
      refine jsres_bind_ne_spin (onePass_facts.2.1 hf) ?_
      intro r hr
      obtain ⟨r1, r2⟩ := r
      have hp := onePass_facts.1 (r1, r2) hr
      cases r2 with
      | true =>
        rw [if_pos rfl]
        refine (@closureLoop_facts doc fuel k r1).2.1 ?_ ?_
        · have hb : chainBudget doc r1.used ≤ chainBudget doc st.used :=
            @chainBudget_anti doc _ _ hp.1.1.1
          omega
        · have hd : unseenComps doc r1 + 1 ≤ unseenComps doc st := hp.2 rfl
          omega
      | false =>
        rw [if_neg (by simp)]
        simp
    · rw [he]
      refine jsres_bind_ne_err (fun u => onePass_facts.2.2 hsh u) ?_ m
      intro r _ u
      obtain ⟨r1, r2⟩ := r
      cases r2 with
      | true =>
        rw [if_pos rfl]
        exact (@closureLoop_facts doc fuel k r1).2.2 hsh u
      | false =>
        rw [if_neg (by simp)]
        simp

/-! ## Lemmas: the remaining pipeline phases -/

theorem forcedStep_hprop {doc : Json} {fuel : Nat}
    (hrec : RecOK doc fuel (shapeOK doc = true)
      (fun st p j => collectRefs doc fuel st p j)) (name : String) :
    HProp doc fuel (sizeJ doc) (shapeOK doc = true) (fun st =>
      match componentAt doc "schemas" name with
      | some c =>
        if c.truthy then
          collectRefs doc fuel { st with used := addUsed st.used "schemas" name }
            (componentPath "schemas" name) c
        else JsRes.ok st
      | none => JsRes.ok st) := by
  have hstep : ∀ s : ScanSt,
      StLE s { s with used := addUsed s.used "schemas" name } ∧
      (StInv s → StInv { s with used := addUsed s.used "schemas" name }) :=
    fun s => ⟨⟨fun t => listLE_getUsed_addUsed _ _ _ _, listLE_refl _,
        listLE_refl _, listLE_refl _⟩,
      fun hi => ⟨nodup_addUsed _ _ _ hi.1, hi.2⟩⟩
  rcases hc : componentAt doc "schemas" name with _ | c
  · exact HProp_id
  · by_cases htr : c.truthy
    case neg =>
      refine ⟨fun s s' hs => ?_, fun s _ => ?_, fun s m _ => ?_⟩
      · have hs' : (if c.truthy = true then
            collectRefs doc fuel
              { s with used := addUsed s.used "schemas" name }
              (componentPath "schemas" name) c
          else JsRes.ok s) = JsRes.ok s' := hs
        rw [if_neg htr] at hs'
        obtain rfl := (JsRes.ok.inj hs').symm
        exact MStep_refl _ _
      · show (if c.truthy = true then
            collectRefs doc fuel
              { s with used := addUsed s.used "schemas" name }
              (componentPath "schemas" name) c
          else JsRes.ok s) ≠ JsRes.spin
        rw [if_neg htr]
        simp
      · show (if c.truthy = true then
            collectRefs doc fuel
              { s with used := addUsed s.used "schemas" name }
              (componentPath "schemas" name) c
          else JsRes.ok s) ≠ JsRes.err m
        rw [if_neg htr]
        simp
    case pos =>
      refine ⟨fun s s' hs => ?_, fun s hf => ?_, fun s m hsh => ?_⟩
      · have hs' : (if c.truthy = true then
            collectRefs doc fuel
              { s with used := addUsed s.used "schemas" name }
              (componentPath "schemas" name) c
          else JsRes.ok s) = JsRes.ok s' := hs
        rw [if_pos htr] at hs'
        have hm := (hrec { s with used := addUsed s.used "schemas" name }
          (componentPath "schemas" name) c).1 s' hs'
        refine ⟨StLE_trans (hstep s).1 hm.1.1,
          fun hi => hm.1.2.1 ((hstep s).2 hi), ?_⟩
        intro t x hx hnx
        by_cases hx1 : x ∈ getUsed (addUsed s.used "schemas" name) t
        · rcases getUsed_addUsed_sub s.used "schemas" name t x hx1 with
            hmem | ⟨rfl, rfl⟩
          · exact absurd hmem hnx
          · refine Or.inr fun bo hbo hol => ?_
            obtain rfl : bo = c := by
              rw [hc] at hbo
              exact (Option.some.inj hbo).symm
            exact hm.2 hol
        · exact hm.1.2.2 t x hx hx1
      · show (if c.truthy = true then
            collectRefs doc fuel
              { s with used := addUsed s.used "schemas" name }
              (componentPath "schemas" name) c
          else JsRes.ok s) ≠ JsRes.spin
        rw [if_pos htr]
        refine (hrec _ _ _).2.1 ?_
        show fuel > sizeJ c + chainBudget doc (addUsed s.used "schemas" name)
        have h1 := sizeJ_componentAt hc
        have h2 : chainBudget doc (addUsed s.used "schemas" name) ≤
            chainBudget doc s.used :=
          @chainBudget_anti doc _ _ (fun t => listLE_getUsed_addUsed _ _ _ _)
        omega
      · show (if c.truthy = true then
            collectRefs doc fuel
              { s with used := addUsed s.used "schemas" name }
              (componentPath "schemas" name) c
          else JsRes.ok s) ≠ JsRes.err m
        rw [if_pos htr]
        exact (hrec _ _ _).2.2 hsh (shapeOK_componentAt hsh hc) m

theorem forcedPhase_hprop {doc : Json} {fuel : Nat}
    (hrec : RecOK doc fuel (shapeOK doc = true)
      (fun st p j => collectRefs doc fuel st p j)) :
    HProp doc fuel (sizeJ doc) (shapeOK doc = true)
      (fun st => forcedPhase doc fuel st) := by
  unfold forcedPhase
  exact HProp_foldlM (fun name _ => forcedStep_hprop hrec name)

/-- Facts about lines 162-165, the root-security wrapper scan. -/
theorem securityPhase_facts {doc : Json} {fuel : Nat} {s0 : ScanSt} :
    (∀ s', (match doc.lookup "security" with
        | some sv =>
          if sv.truthy then scanWrapperSecurity doc fuel s0 sv
          else JsRes.ok s0
        | none => JsRes.ok s0) = JsRes.ok s' → MStep doc s0 s') ∧
    (fuel > sizeJ doc + chainBudget doc s0.used →
       (match doc.lookup "security" with
        | some sv =>
          if sv.truthy then scanWrapperSecurity doc fuel s0 sv
          else JsRes.ok s0
        | none => JsRes.ok s0) ≠ JsRes.spin) ∧
    (shapeOK doc = true →
       ∀ m, (match doc.lookup "security" with
        | some sv =>
          if sv.truthy then scanWrapperSecurity doc fuel s0 sv
          else JsRes.ok s0
        | none => JsRes.ok s0) ≠ JsRes.err m) := by
  have hrec := collectRefs_master doc (shapeOK doc = true) id fuel
  rcases hl : doc.lookup "security" with _ | sv
  · refine ⟨fun s' h => ?_, fun _ => by simp, fun _ m => by simp⟩
    obtain rfl := (JsRes.ok.inj h).symm
    exact MStep_refl _ _
  · by_cases htr : sv.truthy
    case neg =>
      refine ⟨fun s' h => ?_, fun _ => ?_, fun _ m => ?_⟩
      · have h' : (if sv.truthy = true then scanWrapperSecurity doc fuel s0 sv
            else JsRes.ok s0) = JsRes.ok s' := h
        rw [if_neg htr] at h'
        obtain rfl := (JsRes.ok.inj h').symm
        exact MStep_refl _ _
      · show (if sv.truthy = true then scanWrapperSecurity doc fuel s0 sv
            else JsRes.ok s0) ≠ JsRes.spin
        rw [if_neg htr]
        simp
      · show (if sv.truthy = true then scanWrapperSecurity doc fuel s0 sv
            else JsRes.ok s0) ≠ JsRes.err m
        rw [if_neg htr]
        simp
    case pos =>
      have htf : doc.truthyField "security" = some sv := by
        simp [Json.truthyField, hl, htr]
      cases sv with
      | jarr reqs =>
        have hsz : sizeJL reqs ≤ sizeJ doc := by
          have := sizeJ_lookup hl
          simp only [sizeJ] at this
          omega
        have hshr : shapeOK doc = true → shapeOKL reqs = true := by
          intro hs
          have := shapeOK_lookup hs hl
          rw [shapeOK] at this
          exact this
        have hhp := scanWrapperSecurity_arr_hprop hrec hsz hshr
        refine ⟨fun s' h => ?_, fun hf => ?_, fun hsh m => ?_⟩
        · have h' : (if (Json.jarr reqs).truthy = true then
              scanWrapperSecurity doc fuel s0 (Json.jarr reqs)
            else JsRes.ok s0) = JsRes.ok s' := h
          rw [if_pos htr] at h'
          exact hhp.1 s0 s' h'
        · show (if (Json.jarr reqs).truthy = true then
              scanWrapperSecurity doc fuel s0 (Json.jarr reqs)
            else JsRes.ok s0) ≠ JsRes.spin
          rw [if_pos htr]
          exact hhp.2.1 s0 (by omega)
        · show (if (Json.jarr reqs).truthy = true then
              scanWrapperSecurity doc fuel s0 (Json.jarr reqs)
            else JsRes.ok s0) ≠ JsRes.err m
          rw [if_pos htr]
          exact hhp.2.2 s0 m hsh
      | jnull =>
        refine ⟨fun s' h => by simp [scanWrapperSecurity, htr] at h,
          fun _ => by simp [scanWrapperSecurity, htr], fun hsh m => ?_⟩
        have := (shapeOK_conds hsh).2.1 _ htf
        simp [Json.isArr] at this
      | jbool b =>
        refine ⟨fun s' h => by simp [scanWrapperSecurity, htr] at h,
          fun _ => by simp [scanWrapperSecurity, htr], fun hsh m => ?_⟩
        have := (shapeOK_conds hsh).2.1 _ htf
        simp [Json.isArr] at this
      | jnum n =>
        refine ⟨fun s' h => by simp [scanWrapperSecurity, htr] at h,
          fun _ => by simp [scanWrapperSecurity, htr], fun hsh m => ?_⟩
        have := (shapeOK_conds hsh).2.1 _ htf
        simp [Json.isArr] at this
      | jstr t =>
        refine ⟨fun s' h => by simp [scanWrapperSecurity, htr] at h,
          fun _ => by simp [scanWrapperSecurity, htr], fun hsh m => ?_⟩
        have := (shapeOK_conds hsh).2.1 _ htf
        simp [Json.isArr] at this
      | jobj fs =>
        refine ⟨fun s' h => by simp [scanWrapperSecurity, htr] at h,
          fun _ => by simp [scanWrapperSecurity, htr], fun hsh m => ?_⟩
        have := (shapeOK_conds hsh).2.1 _ htf
        simp [Json.isArr] at this

theorem foldlM_ne_spin {α β : Type _} {g : β → α → JsRes β} :
    ∀ (l : List α), (∀ b, ∀ a ∈ l, g b a ≠ JsRes.spin) →
      ∀ b, List.foldlM g b l ≠ JsRes.spin
  | [], _, b => by simp [List.foldlM]
  | a :: l, hg, b => by
    rw [show List.foldlM g b (a :: l) =
        JsRes.bind (g b a) (fun x => List.foldlM g x l) by
      simp [List.foldlM_cons]]
    refine jsres_bind_ne_spin (hg b a (List.mem_cons_self _ _)) ?_
    intro x _
    exact foldlM_ne_spin l (fun y z hz => hg y z (List.mem_cons_of_mem _ hz)) x

theorem foldlM_ne_err {α β : Type _} {g : β → α → JsRes β} :
    ∀ (l : List α), (∀ b, ∀ a ∈ l, ∀ m, g b a ≠ JsRes.err m) →
      ∀ b m, List.foldlM g b l ≠ JsRes.err m
  | [], _, b, m => by simp [List.foldlM]
  | a :: l, hg, b, m => by
    rw [show List.foldlM g b (a :: l) =
        JsRes.bind (g b a) (fun x => List.foldlM g x l) by
      simp [List.foldlM_cons]]
    refine jsres_bind_ne_err (fun u => hg b a (List.mem_cons_self _ _) u) ?_ m
    intro x _ u
    exact foldlM_ne_err l (fun y z hz => hg y z (List.mem_cons_of_mem _ hz)) x u

theorem rootShape_cats {doc : Json} (h : rootShape doc = true) :
    ∀ t ∈ COMPONENT_TYPES, ∀ c catv, doc.lookup "components" = some c →
      c.lookup t = some catv →
      ∀ v ∈ Json.jsValues catv, ¬ beqJ v Json.jnull = true := by
  unfold rootShape at h
  simp only [Bool.and_eq_true] at h
  obtain ⟨⟨-, hC⟩, -⟩ := h
  intro t ht c catv hc hcat v hv
  rw [List.all_eq_true] at hC
  have h1 := hC t ht
  simp only [hc, hcat] at h1
  rw [List.all_eq_true] at h1
  have := h1 v hv
  simp only [Bool.not_eq_true'] at this
  simp [this]

theorem rootShape_tags {doc : Json} (h : rootShape doc = true) :
    ∀ v, doc.lookup "tags" = some v → v.truthy = true →
      ∃ xs, v = Json.jarr xs ∧ ∀ tg ∈ xs, ¬ beqJ tg Json.jnull = true := by
  unfold rootShape at h
  simp only [Bool.and_eq_true] at h
  obtain ⟨⟨hT, -⟩, -⟩ := h
  intro v hl ht
  simp only [hl, ht, if_true] at hT
  cases v with
  | jarr xs =>
    refine ⟨xs, rfl, ?_⟩
    rw [List.all_eq_true] at hT
    intro tg htg
    have := hT tg htg
    simp only [Bool.not_eq_true'] at this
    simp [this]
  | jnull => simp at hT
  | jbool b => simp at hT
  | jnum n => simp at hT
  | jstr s => simp at hT
  | jobj fs => simp at hT

theorem componentsStage_facts {doc : Json} {opts : Opts} {st : ScanSt}
    {fs : Json} :
    (componentsStage doc opts st fs ≠ JsRes.spin) ∧
    (ShapeOK doc = true → ∀ m, componentsStage doc opts st fs ≠ JsRes.err m) := by
  have hstep_ne_spin : ∀ (t : String)
      (kept : List (String × Json)) (nv : String × Json),
      (if nv.1 ∈ getUsed st.used t then
        if opts.excludeInternalComponents then
          if beqJ nv.2 Json.jnull then JsRes.err "TypeError"
          else if (nv.2.truthyField "x-internal").isSome then JsRes.ok kept
          else JsRes.ok (kept ++ [nv])
        else JsRes.ok (kept ++ [nv])
      else JsRes.ok kept) ≠ JsRes.spin := by
    intro t kept nv
    split
    · split
      · split
        · simp
        · split <;> simp
      · simp
    · simp
  rcases hc : doc.lookup "components" with _ | comps
  · have he : componentsStage doc opts st fs = JsRes.ok fs := by
      unfold componentsStage
      rw [hc]
    rw [he]
    exact ⟨by simp, fun _ m => by simp⟩
  · by_cases htr : comps.truthy
    case neg =>
      have he : componentsStage doc opts st fs = JsRes.ok fs := by
        unfold componentsStage
        rw [hc]
        show (if comps.truthy = true then _ else JsRes.ok fs) = JsRes.ok fs
        rw [if_neg htr]
      rw [he]
      exact ⟨by simp, fun _ m => by simp⟩
    case pos =>
      have he : componentsStage doc opts st fs =
          JsRes.bind (List.foldlM (fun (acc : List (String × Json)) t =>
            match comps.lookup t with
            | some catv =>
              if catv.truthy then
                JsRes.bind (List.foldlM
                  (fun (kept : List (String × Json)) nv =>
                    if nv.1 ∈ getUsed st.used t then
                      if opts.excludeInternalComponents then
                        if beqJ nv.2 Json.jnull then JsRes.err "TypeError"
                        else if (nv.2.truthyField "x-internal").isSome then
                          JsRes.ok kept
                        else JsRes.ok (kept ++ [nv])
                      else JsRes.ok (kept ++ [nv])
                    else JsRes.ok kept)
                  [] (Json.jsEntries catv)) fun kept =>
                if kept.isEmpty then JsRes.ok acc
                else JsRes.ok (acc ++ [(t, Json.jobj kept)])
              else JsRes.ok acc
            | none => JsRes.ok acc)
          [] COMPONENT_TYPES) (fun newComps =>
          JsRes.ok (Json.updateField fs "components" (Json.jobj newComps))) := by
        unfold componentsStage
        rw [hc]
        show (if comps.truthy = true then _ else JsRes.ok fs) = _
        rw [if_pos htr]
      rw [he]
      constructor
      · refine jsres_bind_ne_spin (foldlM_ne_spin _ ?_ _) (fun a _ => by simp)
        intro acc t _
        rcases hcat : comps.lookup t with _ | catv
        · simp
        · by_cases hct : catv.truthy
          · show (if catv.truthy = true then _ else JsRes.ok acc) ≠ JsRes.spin
            rw [if_pos hct]
            refine jsres_bind_ne_spin
              (foldlM_ne_spin _ (fun b a _ => hstep_ne_spin t b a) _) ?_
            intro kept _
            split <;> simp
          · show (if catv.truthy = true then _ else JsRes.ok acc) ≠ JsRes.spin
            rw [if_neg hct]
            simp
      · intro hsh m
        rw [ShapeOK, Bool.and_eq_true] at hsh
        refine jsres_bind_ne_err (fun u => foldlM_ne_err _ ?_ _ u)
          (fun a _ u => by simp) m
        intro acc t ht u
        rcases hcat : comps.lookup t with _ | catv
        · simp
        · by_cases hct : catv.truthy
          · show (if catv.truthy = true then _ else JsRes.ok acc) ≠ JsRes.err u
            rw [if_pos hct]
            refine jsres_bind_ne_err (fun w => foldlM_ne_err _ ?_ _ w) ?_ u
            · intro kept nv hnv w
              have hnn := rootShape_cats hsh.2 t ht comps catv hc hcat nv.2
                (List.mem_map_of_mem Prod.snd hnv)
              show (if nv.1 ∈ getUsed st.used t then
                  if opts.excludeInternalComponents then
                    if beqJ nv.2 Json.jnull then JsRes.err "TypeError"
                    else if (nv.2.truthyField "x-internal").isSome then
                      JsRes.ok kept
                    else JsRes.ok (kept ++ [nv])
                  else JsRes.ok (kept ++ [nv])
                else JsRes.ok kept) ≠ JsRes.err w
              by_cases h1 : nv.1 ∈ getUsed st.used t
              · rw [if_pos h1]
                by_cases h2 : opts.excludeInternalComponents = true
                · rw [if_pos h2, if_neg hnn]
                  by_cases h3 : (nv.2.truthyField "x-internal").isSome = true
                  · rw [if_pos h3]
                    simp
                  · rw [if_neg h3]
                    simp
                · rw [if_neg h2]
                  simp
              · rw [if_neg h1]
                simp
            · intro kept _ w
              split <;> simp
          · show (if catv.truthy = true then _ else JsRes.ok acc) ≠ JsRes.err u
            rw [if_neg hct]
            simp

theorem tagsStage_facts {doc : Json} {opts : Opts} {st : ScanSt} {fs : Json} :
    (tagsStage doc opts st fs ≠ JsRes.spin) ∧
    (ShapeOK doc = true → ∀ m, tagsStage doc opts st fs ≠ JsRes.err m) := by
  have hstep_ne_spin : ∀ (kept : List Json) (tg : Json),
      (if beqJ tg Json.jnull then JsRes.err "TypeError"
       else
        if (match tg.lookup "name" with
          | some nv => st.usedTags.any (fun u => beqJ u nv)
          | none => false) then
          if opts.excludeInternalComponents then
            if (tg.truthyField "x-internal").isSome then JsRes.ok kept
            else JsRes.ok (kept ++ [tg])
          else JsRes.ok (kept ++ [tg])
        else JsRes.ok kept) ≠ JsRes.spin := by
    intro kept tg
    split
    · simp
    · split
      · split
        · split <;> simp
        · simp
      · simp
  rcases hl : doc.lookup "tags" with _ | v
  · have he : tagsStage doc opts st fs =
        JsRes.bind (List.foldlM (fun (kept : List Json) tg =>
          if beqJ tg Json.jnull then JsRes.err "TypeError"
          else
            if (match tg.lookup "name" with
              | some nv => st.usedTags.any (fun u => beqJ u nv)
              | none => false) then
              if opts.excludeInternalComponents then
                if (tg.truthyField "x-internal").isSome then JsRes.ok kept
                else JsRes.ok (kept ++ [tg])
              else JsRes.ok (kept ++ [tg])
            else JsRes.ok kept) [] []) (fun kept =>
          JsRes.ok (Json.updateField fs "tags" (Json.jarr kept))) := by
      unfold tagsStage
      rw [hl]
    rw [he]
    exact ⟨by simp [List.foldlM], fun _ m => by simp [List.foldlM]⟩
  · by_cases ht : v.truthy
    case neg =>
      have he : tagsStage doc opts st fs =
          JsRes.bind (List.foldlM (fun (kept : List Json) tg =>
            if beqJ tg Json.jnull then JsRes.err "TypeError"
            else
              if (match tg.lookup "name" with
                | some nv => st.usedTags.any (fun u => beqJ u nv)
                | none => false) then
                if opts.excludeInternalComponents then
                  if (tg.truthyField "x-internal").isSome then JsRes.ok kept
                  else JsRes.ok (kept ++ [tg])
                else JsRes.ok (kept ++ [tg])
              else JsRes.ok kept) [] []) (fun kept =>
            JsRes.ok (Json.updateField fs "tags" (Json.jarr kept))) := by
        unfold tagsStage
        rw [hl]
        show (match (if v.truthy = true then v else Json.jarr []) with
          | Json.jarr xs => _
          | _ => JsRes.err "TypeError") = _
        rw [if_neg ht]
      rw [he]
      exact ⟨by simp [List.foldlM], fun _ m => by simp [List.foldlM]⟩
    case pos =>
      constructor
      · cases v with
        | jarr xs =>
          have he : tagsStage doc opts st fs =
              JsRes.bind (List.foldlM (fun (kept : List Json) tg =>
                if beqJ tg Json.jnull then JsRes.err "TypeError"
                else
                  if (match tg.lookup "name" with
                    | some nv => st.usedTags.any (fun u => beqJ u nv)
                    | none => false) then
                    if opts.excludeInternalComponents then
                      if (tg.truthyField "x-internal").isSome then JsRes.ok kept
                      else JsRes.ok (kept ++ [tg])
                    else JsRes.ok (kept ++ [tg])
                  else JsRes.ok kept) [] xs) (fun kept =>
                JsRes.ok (Json.updateField fs "tags" (Json.jarr kept))) := by
            unfold tagsStage
            rw [hl]
            show (match (if (Json.jarr xs).truthy = true then Json.jarr xs
                else Json.jarr []) with
              | Json.jarr xs => _
              | _ => JsRes.err "TypeError") = _
            rw [if_pos ht]
          rw [he]
          exact jsres_bind_ne_spin
            (foldlM_ne_spin _ (fun b a _ => hstep_ne_spin b a) _)
            (fun a _ => by simp)
        | jnull => simp [tagsStage, hl, ht]
        | jbool b => simp [tagsStage, hl, ht]
        | jnum n => simp [tagsStage, hl, ht]
        | jstr s => simp [tagsStage, hl, ht]
        | jobj f2 => simp [tagsStage, hl, ht]
      · intro hsh m
        rw [ShapeOK, Bool.and_eq_true] at hsh
        obtain ⟨xs, rfl, hnn⟩ := rootShape_tags hsh.2 v hl ht
        have he : tagsStage doc opts st fs =
            JsRes.bind (List.foldlM (fun (kept : List Json) tg =>
              if beqJ tg Json.jnull then JsRes.err "TypeError"
              else
                if (match tg.lookup "name" with
                  | some nv => st.usedTags.any (fun u => beqJ u nv)
                  | none => false) then
                  if opts.excludeInternalComponents then
                    if (tg.truthyField "x-internal").isSome then JsRes.ok kept
                    else JsRes.ok (kept ++ [tg])
                  else JsRes.ok (kept ++ [tg])
                else JsRes.ok kept) [] xs) (fun kept =>
              JsRes.ok (Json.updateField fs "tags" (Json.jarr kept))) := by
          unfold tagsStage
          rw [hl]
          show (match (if (Json.jarr xs).truthy = true then Json.jarr xs
              else Json.jarr []) with
            | Json.jarr xs => _
            | _ => JsRes.err "TypeError") = _
          rw [if_pos ht]
        rw [he]
        refine jsres_bind_ne_err (fun u => foldlM_ne_err _ ?_ _ u)
          (fun a _ u => by simp) m
        intro kept tg htg u
        have hx := hnn tg htg
        show (if beqJ tg Json.jnull then JsRes.err "TypeError"
          else
            if (match tg.lookup "name" with
              | some nv => st.usedTags.any (fun u => beqJ u nv)
              | none => false) then
              if opts.excludeInternalComponents then
                if (tg.truthyField "x-internal").isSome then JsRes.ok kept
                else JsRes.ok (kept ++ [tg])
              else JsRes.ok (kept ++ [tg])
            else JsRes.ok kept) ≠ JsRes.err u
        rw [if_neg hx]
        split
        · split
          · split <;> simp
          · simp
        · simp

/-- The pipeline master: a successful run is an `MStep` from the seeded
state and reaches the scan fixed point; the pipeline can never exhaust its
fuel; and on a well-shaped document it never throws. -/
theorem filterOpenAPIFull_facts {doc : Json} {opts : Opts} :
    (∀ res, filterOpenAPIFull doc opts = JsRes.ok res →
       MStep doc ⟨seedUsed opts, [], [], []⟩ res.st ∧ ScannedAll doc res.st) ∧
    (filterOpenAPIFull doc opts ≠ JsRes.spin) ∧
    (ShapeOK doc = true → ∀ m, filterOpenAPIFull doc opts ≠ JsRes.err m) := by
  have hrec := collectRefs_master doc (shapeOK doc = true) id (FUEL doc)
  refine ⟨fun res h => ?_, ?_, fun hsh m => ?_⟩
  · unfold filterOpenAPIFull at h
    rcases jsres_bind_eq_ok h with ⟨pr, hpr, h⟩
    rcases jsres_bind_eq_ok h with ⟨st1, hst1, h⟩
    rcases jsres_bind_eq_ok h with ⟨st2, hst2, h⟩
    rcases jsres_bind_eq_ok h with ⟨st3, hst3, h⟩
    rcases jsres_bind_eq_ok h with ⟨fs1, hfs1, h⟩
    rcases jsres_bind_eq_ok h with ⟨fs3, hfs3, h⟩
    obtain rfl := (JsRes.ok.inj h).symm
    have M1 := processPaths_facts.1 pr hpr
    have M2 := securityPhase_facts.1 st1 hst1
    have M3 := (forcedPhase_hprop hrec).1 st1 st2 hst2
    have L := closureLoop_facts.1 st3 hst3
    exact ⟨MStep_trans M1 (MStep_trans M2 (MStep_trans M3 L.1)), L.2⟩
  · unfold filterOpenAPIFull
    refine jsres_bind_ne_spin
      (processPaths_facts.2.1 (FUEL_big (by omega) _)) ?_
    intro pr _
    refine jsres_bind_ne_spin
      (securityPhase_facts.2.1 (FUEL_big (by omega) _)) ?_
    intro st1 _
    refine jsres_bind_ne_spin
      ((forcedPhase_hprop hrec).2.1 st1 (FUEL_big (by omega) _)) ?_
    intro st2 _
    refine jsres_bind_ne_spin
      (closureLoop_facts.2.1 (FUEL_big (by omega) _)
        (unseenComps_lt_loopFuel doc st2)) ?_
    intro st3 _
    refine jsres_bind_ne_spin componentsStage_facts.1 ?_
    intro fs1 _
    refine jsres_bind_ne_spin tagsStage_facts.1 (fun fs3 _ => by simp)
  · have hshd : shapeOK doc = true := by
      rw [ShapeOK, Bool.and_eq_true] at hsh
      exact hsh.1
    unfold filterOpenAPIFull
    refine jsres_bind_ne_err (fun u => processPaths_facts.2.2 hsh u) ?_ m
    intro pr _ u
    refine jsres_bind_ne_err (fun w => securityPhase_facts.2.2 hshd w) ?_ u
    intro st1 _ w
    refine jsres_bind_ne_err
      (fun x => (forcedPhase_hprop hrec).2.2 st1 x hshd) ?_ w
    intro st2 _ x
    refine jsres_bind_ne_err (fun y => closureLoop_facts.2.2 hshd y) ?_ x
    intro st3 _ y
    refine jsres_bind_ne_err (fun z => componentsStage_facts.2 hsh z) ?_ y
    intro fs1 _ z
    refine jsres_bind_ne_err (fun v => tagsStage_facts.2 hsh v)
      (fun fs3 _ v => by simp) z

/-! ## Lemmas: the assembly and cleanup stages -/

theorem lookup_deleteField_self (fs : List (String × Json)) (k : String) :
    (Json.deleteField (Json.jobj fs) k).lookup k = none := by
  show List.lookup k (fs.filter fun f => f.1 ≠ k) = none
  induction fs with
  | nil => rfl
  | cons p fs ih =>
    obtain ⟨a, b⟩ := p
    by_cases ha : a ≠ k
    · rw [List.filter_cons_of_pos (by simpa using ha)]
      rw [List.lookup]
      rw [show (k == a) = false by simpa using fun h => ha h.symm]
      exact ih
    · rw [List.filter_cons_of_neg (by simpa using ha)]
      exact ih

theorem lookup_deleteField_other {j : Json} {k' k : String} (hne : k' ≠ k) :
    (Json.deleteField j k).lookup k' = j.lookup k' := by
  cases j with
  | jobj fs =>
    show List.lookup k' (fs.filter fun f => f.1 ≠ k) = List.lookup k' fs
    induction fs with
    | nil => rfl
    | cons p fs ih =>
      obtain ⟨a, b⟩ := p
      by_cases ha : a ≠ k
      · rw [List.filter_cons_of_pos (by simpa using ha)]
        rw [List.lookup, List.lookup]
        cases he : k' == a with
        | true => rfl
        | false => exact ih
      · rw [List.filter_cons_of_neg (by simpa using ha)]
        rw [List.lookup]
        rw [show (k' == a) = false by
          simp only [not_not] at ha
          subst ha
          simpa using hne]
        exact ih
  | jnull => rfl
  | jbool b => rfl
  | jnum n => rfl
  | jstr s => rfl
  | jarr xs => rfl

theorem cleanField_lookup_other {fs : Json} {k f : String} (hne : k ≠ f) :
    (cleanField fs f).lookup k = fs.lookup k := by
  unfold cleanField
  rcases hl : fs.lookup f with _ | v
  · rfl
  · show (if (v.truthy && (Json.jsKeys v).isEmpty) = true then
        Json.deleteField fs f else fs).lookup k = fs.lookup k
    split
    · exact lookup_deleteField_other hne
    · rfl

theorem cleanField_no_empty {fs : Json} {f : String} {v : Json}
    (h : (cleanField fs f).lookup f = some v) :
    ¬ (v.truthy = true ∧ (Json.jsKeys v).isEmpty = true) := by
  rintro ⟨ht, he⟩
  unfold cleanField at h
  rcases hl : fs.lookup f with _ | w
  · simp only [hl] at h
    exact absurd h (by simp)
  · simp only [hl] at h
    by_cases hcond : (w.truthy && (Json.jsKeys w).isEmpty) = true
    · rw [if_pos hcond] at h
      cases fs with
      | jobj l =>
        rw [lookup_deleteField_self] at h
        exact absurd h (by simp)
      | jnull => simp [Json.lookup] at hl
      | jbool b => simp [Json.lookup] at hl
      | jnum n => simp [Json.lookup] at hl
      | jstr s => simp [Json.lookup] at hl
      | jarr xs => simp [Json.lookup] at hl
    · rw [if_neg hcond] at h
      rw [hl] at h
      obtain rfl := Option.some.inj h
      exact hcond (by rw [ht, he]; rfl)

theorem cleanupStage_lookup_other {fs : Json} {k : String}
    (h1 : k ≠ "components") (h2 : k ≠ "security") (h3 : k ≠ "tags") :
    (cleanupStage fs).lookup k = fs.lookup k := by
  unfold cleanupStage
  rw [cleanField_lookup_other h3, cleanField_lookup_other h2,
    cleanField_lookup_other h1]

theorem cleanupStage_no_empty {fs : Json} {f : String}
    (hf : f = "components" ∨ f = "security" ∨ f = "tags") {v : Json}
    (h : (cleanupStage fs).lookup f = some v) :
    ¬ (v.truthy = true ∧ (Json.jsKeys v).isEmpty = true) := by
  unfold cleanupStage at h
  rcases hf with rfl | rfl | rfl
  · rw [cleanField_lookup_other (by decide),
      cleanField_lookup_other (by decide)] at h
    exact cleanField_no_empty h
  · rw [cleanField_lookup_other (by decide)] at h
    exact cleanField_no_empty h
  · exact cleanField_no_empty h

theorem componentsStage_ok {doc : Json} {opts : Opts} {st : ScanSt}
    {fs fs' : Json} (h : componentsStage doc opts st fs = JsRes.ok fs') :
    fs' = fs ∨ ∃ nc, fs' = Json.updateField fs "components" (Json.jobj nc) := by
  unfold componentsStage at h
  rcases hc : doc.lookup "components" with _ | comps
  · simp only [hc] at h
    exact Or.inl (JsRes.ok.inj h).symm
  · simp only [hc] at h
    split at h
    · rcases jsres_bind_eq_ok h with ⟨nc, _, h2⟩
      exact Or.inr ⟨nc, (JsRes.ok.inj h2).symm⟩
    · exact Or.inl (JsRes.ok.inj h).symm

theorem tagsStage_ok {doc : Json} {opts : Opts} {st : ScanSt}
    {fs fs' : Json} (h : tagsStage doc opts st fs = JsRes.ok fs') :
    ∃ kept, fs' = Json.updateField fs "tags" (Json.jarr kept) := by
  unfold tagsStage at h
  split at h
  · rcases jsres_bind_eq_ok h with ⟨kept, _, h2⟩
    exact ⟨kept, (JsRes.ok.inj h2).symm⟩
  · simp at h

/-! ## Lemmas: the dedup loop computes the earlier-equal-key filter -/

theorem dedupParamsGo_eq_specDedupAux :
    ∀ {ps earlier : List Json} {seen : List String},
      (∀ q ∈ ps, q ≠ Json.jnull) →
      (∀ k, k ∈ seen ↔ (earlier.any fun p => paramKeyStr p == k) = true) →
      dedupParamsGo ps seen = JsRes.ok (specDedupAux earlier ps)
  | [], earlier, seen, _, _ => by simp [dedupParamsGo, specDedupAux]
  | q :: ps, earlier, seen, hnn, hiff => by
    rw [dedupParamsGo, specDedupAux]
    rw [if_neg (fun hq =>
      absurd ((beqJ_null_iff q).mp hq) (hnn q (List.mem_cons_self _ _)))]
    have hrest : ∀ x ∈ ps, x ≠ Json.jnull :=
      fun x hx => hnn x (List.mem_cons_of_mem _ hx)
    show (if paramKeyStr q ∈ seen then dedupParamsGo ps seen
      else (dedupParamsGo ps (seen ++ [paramKeyStr q])).bind
        fun r => JsRes.ok (q :: r)) =
      JsRes.ok (if (earlier.any fun p => paramKeyStr p == paramKeyStr q) = true
        then specDedupAux (earlier ++ [q]) ps
        else q :: specDedupAux (earlier ++ [q]) ps)
    by_cases hk : paramKeyStr q ∈ seen
    · rw [if_pos hk, if_pos ((hiff _).mp hk)]
      have hiff2 : ∀ k, k ∈ seen ↔
          ((earlier ++ [q]).any fun p => paramKeyStr p == k) = true := by
        intro k
        constructor
        · intro h
          rw [List.any_append]
          exact Bool.or_eq_true_iff.mpr (Or.inl ((hiff k).mp h))
        · intro h
          rw [List.any_append, Bool.or_eq_true_iff] at h
          rcases h with h | h
          · exact (hiff k).mpr h
          · simp only [List.any_cons, List.any_nil, Bool.or_false,
              beq_iff_eq] at h
            exact h ▸ hk
      exact dedupParamsGo_eq_specDedupAux hrest hiff2
    · rw [if_neg hk, if_neg (fun h => hk ((hiff _).mpr h))]
      have hiff3 : ∀ k, k ∈ seen ++ [paramKeyStr q] ↔
          ((earlier ++ [q]).any fun p => paramKeyStr p == k) = true := by
        intro k
        simp only [List.mem_append, List.mem_singleton, List.any_append,
          List.any_cons, List.any_nil, Bool.or_false, Bool.or_eq_true,
          beq_iff_eq, hiff k]
        exact or_congr Iff.rfl eq_comm
      rw [dedupParamsGo_eq_specDedupAux hrest hiff3]
      rfl

theorem dedupParams_eq_specDedup {ps : List Json}
    (hnn : ∀ q ∈ ps, q ≠ Json.jnull) :
    dedupParams ps = JsRes.ok (specDedup ps) :=
  dedupParamsGo_eq_specDedupAux hnn (by intro k; simp)

/-! ## Decomposition of a successful run into its assembly stages -/

theorem filterOpenAPI_out_decomp {doc : Json} {opts : Opts} {out : Json}
    (h : filterOpenAPI doc opts = JsRes.ok out) :
    ∃ pfs st3 fs1 fs3,
      componentsStage doc opts st3
          (Json.updateField doc "paths" (Json.jobj pfs)) = JsRes.ok fs1 ∧
      tagsStage doc opts st3
          (match doc.truthyField "securitySchemes" with
            | some v => Json.updateField fs1 "securitySchemes" v
            | none => fs1) = JsRes.ok fs3 ∧
      out = cleanupStage fs3 := by
  unfold filterOpenAPI at h
  rcases jsres_bind_eq_ok h with ⟨r, hr, hout⟩
  unfold filterOpenAPIFull at hr
  rcases jsres_bind_eq_ok hr with ⟨pr, hpr, hr⟩
  rcases jsres_bind_eq_ok hr with ⟨st1, hst1, hr⟩
  rcases jsres_bind_eq_ok hr with ⟨st2, hst2, hr⟩
  rcases jsres_bind_eq_ok hr with ⟨st3, hst3, hr⟩
  rcases jsres_bind_eq_ok hr with ⟨fs1, hfs1, hr⟩
  rcases jsres_bind_eq_ok hr with ⟨fs3, hfs3, hr⟩
  obtain rfl := (JsRes.ok.inj hr).symm
  exact ⟨pr.1, st3, fs1, fs3, hfs1, hfs3, (JsRes.ok.inj hout).symm⟩

/-! ## The claims -/

/-- Claim C1: the specification asserts that every component reached through a
standard direct reference `#/components/<category>/<name>` from a retained
operation is tracked and kept.  The code resolves the reference string
against `file:///` and compares the URL pathname to `/components`; for a
fragment-only reference the pathname is `/`, so the branch never fires.  On
`cdoc1` the retained operation's response schema carries exactly such a
reference to the defined schema `Foo`, yet the output has no `components`
field at all. -/
theorem C1_standard_ref_not_tracked :
    Json.lookupPath cdoc1 ["paths", "/u", "get", "responses", "200", "content",
        "application/json", "schema", "$ref"] =
      some (Json.jstr "#/components/schemas/Foo") ∧
    componentAt cdoc1 "schemas" "Foo" =
      some (Json.jobj [("type", Json.jstr "object")]) ∧
    copts1.tags = ["User"] ∧
    Json.lookupPath cdoc1 ["paths", "/u", "get", "tags"] =
      some (Json.jarr [Json.jstr "User"]) ∧
    filterOpenAPI cdoc1 copts1 = JsRes.ok cout1 ∧
    (Json.lookupPath cout1 ["paths", "/u", "get"]).isSome = true ∧
    cout1.lookup "components" = none :=
  ⟨rfl, rfl, rfl, rfl, rfl, rfl, rfl⟩

/-- Claim C2: the specification asserts no component is emitted unless it is
forced, always-included, or reachable from a retained operation, root
security, or a forced error schema.  In `cdoc2` the only operation is dropped
by the tag filter, `alwaysIncludeComponents` is empty, there is no root
security and `S` is no forced name; but the path-level parameter scan of
lines 118-120 runs before any operation survives, so `S` (reached through the
`x-responseDTO` hint) is still emitted while the output's `paths` is empty. -/
theorem C2_component_kept_without_retained_reachability :
    filterOpenAPI cdoc2 copts2 = JsRes.ok cout2 ∧
    cout2.lookup "paths" = some (Json.jobj []) ∧
    Json.lookupPath cout2 ["components", "schemas", "S"] =
      some (Json.jobj [("type", Json.jstr "object")]) ∧
    "S" ∉ FORCED_SCHEMAS ∧
    copts2.alwaysIncludeComponents = [] ∧
    cdoc2.lookup "security" = none :=
  ⟨rfl, rfl, rfl, by decide, rfl, rfl⟩

/-- Claim C3: the specification asserts that the original parsed input is
left completely unchanged because only a deep copy is mutated.  The
deduplication of lines 140-151 assigns `operation.parameters` on the
operation objects of the ORIGINAL document (the traversal of line 111 walks
`spec.paths`, not the copy), so on `cdoc3` the caller's document after the
call has lost the duplicate parameter. -/
theorem C3_input_parameters_mutated :
    (filterOpenAPIFull cdoc3 {}).bind (fun r => JsRes.ok r.inputAfter) =
      JsRes.ok cdoc3after ∧
    cdoc3after ≠ cdoc3 :=
  ⟨rfl, fun h => absurd (congrArg sizeJ h) (by decide)⟩

theorem count_le_one_of_nodup {α : Type _} [BEq α] [LawfulBEq α] :
    ∀ {l : List α}, l.Nodup → ∀ a, l.count a ≤ 1
  | [], _, _ => by simp
  | x :: xs, h, a => by
    rcases List.nodup_cons.mp h with ⟨hx, hxs⟩
    rw [List.count_cons]
    by_cases hax : (x == a) = true
    · rw [if_pos hax]
      have hz : xs.count a = 0 := by
        rw [List.count_eq_zero]
        exact (eq_of_beq hax) ▸ hx
      omega
    · rw [if_neg hax]
      have hle := count_le_one_of_nodup hxs a
      omega

/-- Claim C4: on a document whose reference graph is cyclic the pass still
terminates (it never exhausts its fuel, which models the argument that the
`WeakSet` guard and the set-membership guard make the traversal and the
fixed-point loop finite), and the cyclic component is tracked at most once
and scanned at most once: the reachable sets and the seen set stay
duplicate-free, so a tracked name has multiplicity exactly one, and when its
object-like definition exists it is scanned exactly once. -/
theorem C4_cycle_terminates_tracked_once {doc : Json} {opts : Opts}
    {t n : String} (ht : t ∈ COMPONENT_TYPES) (hcyc : CyclicRef doc t n) :
    filterOpenAPIFull doc opts ≠ JsRes.spin ∧
    ∀ res, filterOpenAPIFull doc opts = JsRes.ok res →
      (getUsed res.st.used t).count n ≤ 1 ∧
      res.st.seen.count (componentPath t n) ≤ 1 ∧
      (n ∈ getUsed res.st.used t →
        (getUsed res.st.used t).count n = 1 ∧
        ∀ b, componentAt doc t n = some b → b.isObjLike = true →
          res.st.seen.count (componentPath t n) = 1) := by
  refine ⟨filterOpenAPIFull_facts.2.1, fun res hres => ?_⟩
  obtain ⟨hM, hS⟩ := filterOpenAPIFull_facts.1 res hres
  have hinv : StInv res.st := hM.2.1 (StInv_init opts)
  have hc1 : (getUsed res.st.used t).count n ≤ 1 :=
    count_le_one_of_nodup (hinv.1 t) n
  have hc2 : res.st.seen.count (componentPath t n) ≤ 1 :=
    count_le_one_of_nodup hinv.2 (componentPath t n)
  refine ⟨hc1, hc2, fun hmem => ⟨?_, fun b hb hbo => ?_⟩⟩
  · have hpos := List.count_pos_iff.mpr hmem
    omega
  · have hseen := hS t ht n hmem b hb hbo
    have hpos := List.count_pos_iff.mpr hseen
    omega

theorem C4_cycle_terminates_tracked_once_witness :
    ("schemas" ∈ COMPONENT_TYPES) ∧ CyclicRef cdoc4 "schemas" "X" ∧
    (filterOpenAPIFull cdoc4 copts4 ≠ JsRes.spin ∧
     ∀ res, filterOpenAPIFull cdoc4 copts4 = JsRes.ok res →
       (getUsed res.st.used "schemas").count "X" ≤ 1 ∧
       res.st.seen.count (componentPath "schemas" "X") ≤ 1 ∧
       ("X" ∈ getUsed res.st.used "schemas" →
         (getUsed res.st.used "schemas").count "X" = 1 ∧
         ∀ b, componentAt cdoc4 "schemas" "X" = some b →
           b.isObjLike = true →
           res.st.seen.count (componentPath "schemas" "X") = 1)) :=
  ⟨by decide,
   Relation.TransGen.single
     ⟨Json.jobj [("x-responseDTO", Json.jstr "X")], rfl, by decide⟩,
   C4_cycle_terminates_tracked_once (by decide)
     (Relation.TransGen.single
       ⟨Json.jobj [("x-responseDTO", Json.jstr "X")], rfl, by decide⟩)⟩

/-- Claim C5 (corrected): the parameter deduplication of a surviving
operation keeps first-seen order and drops a later parameter exactly when an
EARLIER one has an equal dedup key; but the key is the dotted string
`param.in + "." + param.name`, not the pair (location, name): distinct pairs
whose dotted renderings coincide are conflated. -/
theorem C5_dedup_matches_dotted_key_filter {ps : List Json}
    (hnn : ∀ q ∈ ps, q ≠ Json.jnull) :
    dedupParams ps = JsRes.ok (specDedup ps) :=
  dedupParams_eq_specDedup hnn

theorem C5_dedup_matches_dotted_key_filter_witness :
    (∀ q ∈ ([Json.jobj [("in", Json.jstr "query"), ("name", Json.jstr "a")],
             Json.jobj [("in", Json.jstr "header"), ("name", Json.jstr "a")],
             Json.jobj [("in", Json.jstr "query"), ("name", Json.jstr "a")]] :
        List Json), q ≠ Json.jnull) ∧
    dedupParams
        [Json.jobj [("in", Json.jstr "query"), ("name", Json.jstr "a")],
         Json.jobj [("in", Json.jstr "header"), ("name", Json.jstr "a")],
         Json.jobj [("in", Json.jstr "query"), ("name", Json.jstr "a")]] =
      JsRes.ok (specDedup
        [Json.jobj [("in", Json.jstr "query"), ("name", Json.jstr "a")],
         Json.jobj [("in", Json.jstr "header"), ("name", Json.jstr "a")],
         Json.jobj [("in", Json.jstr "query"), ("name", Json.jstr "a")]]) :=
  ⟨by simp, C5_dedup_matches_dotted_key_filter (by simp)⟩

theorem C5_distinct_pairs_conflated :
    Json.lookupPath cdoc5 ["paths", "/a", "get", "parameters"] =
      some (Json.jarr
        [Json.jobj [("in", Json.jstr "a"), ("name", Json.jstr "b.c")],
         Json.jobj [("in", Json.jstr "a.b"), ("name", Json.jstr "c")]]) ∧
    ("a" : String) ≠ "a.b" ∧ ("b.c" : String) ≠ "c" ∧
    filterOpenAPI cdoc5 {} = JsRes.ok cout5 ∧
    Json.lookupPath cout5 ["paths", "/a", "get", "parameters"] =
      some (Json.jarr
        [Json.jobj [("in", Json.jstr "a"), ("name", Json.jstr "b.c")]]) :=
  ⟨rfl, by decide, by decide, rfl, rfl⟩

/-- Claim C6: the specification asserts that re-filtering the output with the
same configuration is the identity.  On `cdoc2` the first pass keeps schema
`S` (tracked by the unconditional path-level parameter scan) while dropping
the path; the second pass sees no path at all, so nothing tracks `S` and the
output shrinks again. -/
theorem C6_refilter_not_fixed_point :
    filterOpenAPI cdoc2 copts2 = JsRes.ok cout2 ∧
    filterOpenAPI cout2 copts2 = JsRes.ok cout2b ∧
    cout2b ≠ cout2 :=
  ⟨rfl, rfl, fun h => absurd (congrArg sizeJ h) (by decide)⟩

/-- Claim C7: the specification asserts that an always-included component's
own transitive references are also included.  In `cdoc7` the always-included
schema `X` references `Y` through a standard `#/components/schemas/Y`
pointer and `Y` is defined; because the URL-pathname test of line 48 never
matches a fragment-only reference, `Y` is not tracked and is absent from the
output while `X` is present. -/
theorem C7_always_include_transitive_ref_dropped :
    copts7.alwaysIncludeComponents = ["X"] ∧
    Json.lookupPath cdoc7 ["components", "schemas", "X", "properties", "p",
        "$ref"] = some (Json.jstr "#/components/schemas/Y") ∧
    componentAt cdoc7 "schemas" "Y" =
      some (Json.jobj [("type", Json.jstr "object")]) ∧
    filterOpenAPI cdoc7 copts7 = JsRes.ok cout7 ∧
    (Json.lookupPath cout7 ["components", "schemas", "X"]).isSome = true ∧
    Json.lookupPath cout7 ["components", "schemas", "Y"] = none :=
  ⟨rfl, rfl, rfl, rfl, rfl, rfl⟩

/-- Claim C8 (corrected): the pass is not total — an operation whose
`parameters` field is a truthy non-array makes the dedup loop throw a
TypeError — but on every well-shaped document (`ShapeOK`) it returns a
document: unparseable reference strings only warn and are skipped, and the
traversal runs to completion. -/
theorem C8_well_shaped_returns_document {doc : Json} {opts : Opts}
    (h : ShapeOK doc = true) :
    ∃ out, filterOpenAPI doc opts = JsRes.ok out := by
  cases hfull : filterOpenAPIFull doc opts with
  | ok r =>
    refine ⟨r.out, ?_⟩
    unfold filterOpenAPI
    rw [hfull]
    rfl
  | err m => exact absurd hfull (filterOpenAPIFull_facts.2.2 h m)
  | spin => exact absurd hfull filterOpenAPIFull_facts.2.1

theorem C8_well_shaped_returns_document_witness :
    ShapeOK cdoc8w = true ∧
    ∃ out, filterOpenAPI cdoc8w {} = JsRes.ok out :=
  ⟨by decide, C8_well_shaped_returns_document (by decide)⟩

theorem C8_type_error_on_nonarray_parameters :
    filterOpenAPI cdoc8 {} = JsRes.err "TypeError" := rfl

/-- Claim C9: in a returned document none of the fields `components`,
`security` and `tags` ever holds an empty object or an empty array: the
cleanup of lines 219-224 removes a truthy field with no keys. -/
theorem C9_empty_fields_omitted {doc out : Json} {opts : Opts} {f : String}
    (h : filterOpenAPI doc opts = JsRes.ok out)
    (hf : f = "components" ∨ f = "security" ∨ f = "tags") :
    out.lookup f ≠ some (Json.jobj []) ∧ out.lookup f ≠ some (Json.jarr []) := by
  rcases filterOpenAPI_out_decomp h with ⟨pfs, st3, fs1, fs3, hfs1, hfs3, rfl⟩
  exact ⟨fun hl => cleanupStage_no_empty hf hl ⟨rfl, rfl⟩,
         fun hl => cleanupStage_no_empty hf hl ⟨rfl, rfl⟩⟩

theorem C9_empty_fields_omitted_witness :
    filterOpenAPI cdoc1 copts1 = JsRes.ok cout1 ∧
    ("components" = "components" ∨ "components" = "security" ∨
      "components" = "tags") ∧
    cout1.lookup "components" ≠ some (Json.jobj []) ∧
    cout1.lookup "components" ≠ some (Json.jarr []) :=
  ⟨rfl, Or.inl rfl,
   (@C9_empty_fields_omitted cdoc1 cout1 copts1 "components" rfl
      (Or.inl rfl)).1,
   (@C9_empty_fields_omitted cdoc1 cout1 copts1 "components" rfl
      (Or.inl rfl)).2⟩

/-- Claim C10: every root field of the input other than `paths`,
`components`, `tags`, `security` and `securitySchemes` reappears in the
output with its input value: the assembly only ever rewrites those five
fields of the copy. -/
theorem C10_unrelated_root_fields_preserved {doc out : Json} {opts : Opts}
    {k : String}
    (h : filterOpenAPI doc opts = JsRes.ok out)
    (hk : k ∉ (["paths", "components", "tags", "security",
        "securitySchemes"] : List String)) :
    out.lookup k = doc.lookup k := by
  simp only [List.mem_cons, List.not_mem_nil, or_false, not_or] at hk
  obtain ⟨h1, h2, h3, h4, h5⟩ := hk
  rcases filterOpenAPI_out_decomp h with ⟨pfs, st3, fs1, fs3, hfs1, hfs3, rfl⟩
  rw [cleanupStage_lookup_other h2 h4 h3]
  rcases tagsStage_ok hfs3 with ⟨kept, rfl⟩
  rw [lookup_updateField_other h3]
  have hfs1k : fs1.lookup k = doc.lookup k := by
    rcases componentsStage_ok hfs1 with rfl | ⟨nc, rfl⟩
    · exact lookup_updateField_other h1 _
    · rw [lookup_updateField_other h2, lookup_updateField_other h1]
  rcases hss : doc.truthyField "securitySchemes" with _ | v
  · simp only [hss]
    exact hfs1k
  · simp only [hss]
    rw [lookup_updateField_other h5]
    exact hfs1k

theorem C10_unrelated_root_fields_preserved_witness :
    filterOpenAPI cdoc1 copts1 = JsRes.ok cout1 ∧
    "openapi" ∉ (["paths", "components", "tags", "security",
        "securitySchemes"] : List String) ∧
    cout1.lookup "openapi" = cdoc1.lookup "openapi" :=
  ⟨rfl, by decide,
   @C10_unrelated_root_fields_preserved cdoc1 cout1 copts1 "openapi" rfl
     (by decide)⟩
